import Mathlib

/-!
Verification of the core of the `rocket` signal/slot library (src/rocket.hpp).

The single-threaded (`thread_unsafe_policy`) part of the library is embedded
shallowly:

* Connection nodes (`detail::connection_base<thread_unsafe_policy>`) live in a
  heap (`List Node`) addressed by natural-number ids; `prev = none` encodes the
  disconnected (tombstone) state exactly as the C++ null `prev` pointer does,
  and the `next` pointer of a disconnected node is preserved, as in the source.
  The heap is append-only, which models the intrusive reference counting that
  keeps nodes alive while handles or in-flight iterators still refer to them.
* A signal is a pair of sentinel node ids (`head`, `tail`); `signal::connect`,
  `signal::make_link`, `connection_base::disconnect`, `connection::block`,
  `connection::unblock`, `signal::clear`/`clear_without_lock`, and the signal
  destructor are translated operation by operation.
* `signal::invoke` is translated as a fuelled interpreter (`invoke`/`runLoop`/
  `runAct`).  Slot bodies are drawn from a small command language `SlotAct`
  covering the behaviours the specification talks about: returning a value,
  computing from the emission argument, throwing, calling `abort_emission()`,
  self-disconnecting via `current_connection()`, connecting a new slot
  (append / `connect_as_first_slot`) and re-entrantly invoking a signal.
  Emission results carry the collected return values, the ghost trace of
  executed node ids, and the error flag whose being set models the final
  `throw invocation_slot_error{}`.
* The thread-local emission context (`detail::thread_local_data`,
  `connection_scope`, `abort_scope`) is the `tl` component of the world; the
  save/restore discipline of the two scope guards is reproduced literally.
* Collectors (`minimum`, `maximum`, `first`, `last`, `range`,
  `default_collector`) are translated as folds over the list of values fed to
  them in emission order, at element type `Int`.
* `stable_list` (which has the `size` counter the claims about sizes talk
  about) is modelled separately by `LWorld` with its own `make_link`, `erase`,
  `erase(first,last)`/`clear` translations.
-/

namespace rocket

/-! ### Collectors (rocket.hpp lines 448-563, 2587-2607)

Each C++ collector is a small state machine receiving the slot return values
in emission order via `operator()` and producing `result()` at the end of the
emission.  They are modelled as folds of the corresponding step function over
the list of values, starting from the default-constructed state
(`value_type current{}` is `0`, `has_value` is `false`). -/

/-- Step function of `rocket::minimum`: `if (!has_value || value < current)
update`. -/
def minStep (st : Int × Bool) (value : Int) : Int × Bool :=
  if !st.2 || value < st.1 then (value, true) else st

/-- Result of feeding `xs` to a fresh `rocket::minimum` collector. -/
def minimum (xs : List Int) : Int :=
  (xs.foldl minStep (0, false)).1

/-- Step function of `rocket::maximum`: `if (!has_value || value > current)
update`. -/
def maxStep (st : Int × Bool) (value : Int) : Int × Bool :=
  if !st.2 || value > st.1 then (value, true) else st

/-- Result of feeding `xs` to a fresh `rocket::maximum` collector. -/
def maximum (xs : List Int) : Int :=
  (xs.foldl maxStep (0, false)).1

/-- Step function of `rocket::first`: only the first value is kept. -/
def firstStep (st : Int × Bool) (value : Int) : Int × Bool :=
  if !st.2 then (value, true) else st

/-- Result of feeding `xs` to a fresh `rocket::first` collector. -/
def first (xs : List Int) : Int :=
  (xs.foldl firstStep (0, false)).1

/-- Result of feeding `xs` to a fresh `rocket::last` collector
(`current = value` on every call). -/
def last (xs : List Int) : Int :=
  xs.foldl (fun _ value => value) 0

/-- Result of feeding `xs` to a fresh `rocket::range` collector
(`values.emplace_back(value)` on every call). -/
def range (xs : List Int) : List Int :=
  xs.foldl (fun vs value => vs ++ [value]) []

/-- Result of feeding `xs` to a fresh `rocket::default_collector<T>`, which is
`last<optional<T>>`: the state starts as the empty optional and every call
stores the value. -/
def default_collector (xs : List Int) : Option Int :=
  xs.foldl (fun _ value => some value) none

/-! ### Slot command language

`std::function` slot bodies are drawn from a syntactic command language rich
enough for the behaviours the specification describes.  Every constructor
carries the `Int` the slot returns (the model fixes the signature to
`Int(Int)`). -/

/-- Behaviour of one slot body.  `ret v` returns `v`; `addToArg k` returns
`arg + k`; `raiseErr` throws; `abortEmission v` calls `rocket::abort_emission()`
then returns `v`; `disconnectSelf v` calls
`current_connection().disconnect()` then returns `v`; `connectBack a v` /
`connectFront a v` connect a new slot with body `a` to the emitting signal
(default flags / `connect_as_first_slot`) then return `v`; `invokeNested j a v`
invokes signal `j` with argument `a` re-entrantly then returns `v`; `seq a b`
runs `a` then `b` (stopping if `a` throws). -/
inductive SlotAct where
  | ret (v : Int)
  | addToArg (k : Int)
  | raiseErr
  | abortEmission (v : Int)
  | disconnectSelf (v : Int)
  | connectBack (a : SlotAct) (v : Int)
  | connectFront (a : SlotAct) (v : Int)
  | invokeNested (j : Nat) (argN : Int) (v : Int)
  | seq (a b : SlotAct)
deriving DecidableEq

/-! ### Connection nodes, signals, and the world -/

/-- One `detail::connection_base<thread_unsafe_policy>` (with the slot body of
the derived `functional_connection` inlined).  `prev = none` is the C++ null
`prev` pointer, i.e. the disconnected state; `blocked` is `is_blocked`. -/
structure Node where
  prev : Option Nat
  next : Option Nat
  blocked : Bool
  act : SlotAct
deriving DecidableEq

/-- A `rocket::signal`: the ids of its two sentinel nodes. -/
structure Sig where
  headId : Nat
  tailId : Nat
deriving DecidableEq

/-- The thread-local emission context `detail::thread_local_data`. -/
structure TL where
  currentConn : Option Nat
  aborted : Bool
deriving DecidableEq

/-- Global state: the node heap (append-only, modelling reference-counted
nodes that outlive list membership), the signals, and the thread-local data. -/
structure World where
  heap : List Node
  sigs : List Sig
  tl : TL
deriving DecidableEq

/-- Default node used by out-of-range heap reads (never reached from
well-formed states). -/
def dfltNode : Node :=
  { prev := none, next := none, blocked := false, act := .ret 0 }

/-- Read a node from the heap. -/
def getNode (w : World) (n : Nat) : Node :=
  w.heap.getD n dfltNode

/-- Overwrite a node in the heap. -/
def setNode (w : World) (n : Nat) (nd : Node) : World :=
  { w with heap := w.heap.set n nd }

/-- Update one node through a function. -/
def updNode (w : World) (n : Nat) (f : Node → Node) : World :=
  setNode w n (f (getNode w n))

/-- Write the `prev` pointer of node `n`. -/
def setPrev (w : World) (n : Nat) (p : Option Nat) : World :=
  updNode w n fun nd => { nd with prev := p }

/-- Write the `next` pointer of node `n`. -/
def setNext (w : World) (n : Nat) (p : Option Nat) : World :=
  updNode w n fun nd => { nd with next := p }

/-- `connection::block` on a handle for node `n` (`is_blocked = true`). -/
def blockNode (w : World) (n : Nat) : World :=
  updNode w n fun nd => { nd with blocked := true }

/-- `connection::unblock` on a handle for node `n` (`is_blocked = false`). -/
def unblockNode (w : World) (n : Nat) : World :=
  updNode w n fun nd => { nd with blocked := false }

/-- `connection_base::is_connected`: `prev != nullptr`. -/
def isConnected (w : World) (n : Nat) : Bool :=
  (getNode w n).prev.isSome

/-- `connection_base<thread_unsafe_policy>::disconnect` (rocket.hpp
lines 1965-1976): if `prev != nullptr`, relink the two neighbours and null
`prev`, leaving `next` alive so in-flight iterators can still advance. -/
def disconnectNode (w : World) (n : Nat) : World :=
  let nd := getNode w n
  match nd.prev with
  | none => w
  | some p =>
    let w1 := match nd.next with
      | some q => setPrev w q (some p)
      | none => w
    let w2 := setNext w1 p nd.next
    setPrev w2 n none

/-- Write the thread-local `emission_aborted` flag. -/
def setAborted (w : World) (b : Bool) : World :=
  { w with tl := { w.tl with aborted := b } }

/-- Write the thread-local `current_connection` pointer. -/
def setCurrentConn (w : World) (c : Option Nat) : World :=
  { w with tl := { w.tl with currentConn := c } }

/-- `signal::make_link(l, slot)` (rocket.hpp lines 2955-2970): allocate a new
node and splice it in directly before `l`. -/
def makeLink (w : World) (l : Nat) (act : SlotAct) : World × Nat :=
  let newId := w.heap.length
  let lp := (getNode w l).prev
  let w1 : World :=
    { w with heap :=
        w.heap ++ [{ prev := lp, next := some l, blocked := false, act := act }] }
  let w2 := match lp with
    | some p => setNext w1 p (some newId)
    | none => w1
  let w3 := setPrev w2 l (some newId)
  (w3, newId)

/-- `signal::connect(slot, flags)` (rocket.hpp lines 2676-2696): link the new
node before `tail` by default, or before `head->next` when
`connect_as_first_slot` is set.  Returns the id the `connection` handle
points at. -/
def connect (w : World) (i : Nat) (asFirst : Bool) (act : SlotAct) : World × Nat :=
  match w.sigs.get? i with
  | none => (w, 0)
  | some sg =>
    let l := if asFirst then (getNode w sg.headId).next.getD sg.tailId else sg.tailId
    makeLink w l act

/-- The walk of `signal::clear_without_lock` (rocket.hpp lines 2929-2935):
starting from `head->next`, point every node's `next` at `tail` and null its
`prev`. -/
def clearLoop : Nat → World → Nat → Nat → World
  | 0, w, _, _ => w
  | fuel + 1, w, current, tailId =>
    if current = tailId then w
    else
      let nx := (getNode w current).next
      let w1 := setPrev (setNext w current (some tailId)) current none
      clearLoop fuel w1 (nx.getD tailId) tailId

/-- `signal::clear` / `clear_without_lock` (rocket.hpp lines 2775-2779,
2927-2939). -/
def clearSig (w : World) (i : Nat) : World :=
  match w.sigs.get? i with
  | none => w
  | some sg =>
    let w1 := clearLoop (w.heap.length + 1) w
      ((getNode w sg.headId).next.getD sg.tailId) sg.tailId
    setPrev (setNext w1 sg.headId (some sg.tailId)) sg.tailId (some sg.headId)

/-- `signal::~signal` → `destroy` (rocket.hpp lines 2632-2636, 2920-2925):
`clear_without_lock`, then null the sentinels' outward links.  The nodes
themselves survive in the heap, modelling the reference counting that keeps
them alive for outstanding handles. -/
def destroySig (w : World) (i : Nat) : World :=
  match w.sigs.get? i with
  | none => w
  | some sg =>
    let w1 := clearSig w i
    setPrev (setNext w1 sg.headId none) sg.tailId none

/-- Result of one emission: the final world, the values fed to the collector
in order, the ghost trace of executed node ids, and the error flag whose
being set at the end of the emission is the model of
`throw invocation_slot_error{}`. -/
structure EmitResult where
  world : World
  vals : List Int
  execs : List Nat
  err : Bool
deriving DecidableEq

/-- Execute one slot body (`conn->slot(args...)` together with the emission
control calls the body makes).  `nested` is the re-entrant `signal::invoke`
used by `invokeNested`; `self` effects go through the thread-local
`current_connection` exactly as in the source.  The returned value is `none`
when the body threw (the collector then receives nothing), and the `Bool` is
the caught-exception flag. -/
def runAct (nested : World → Nat → Int → Option (World × Bool)) :
    World → Nat → Int → SlotAct → Option (World × Option Int × Bool)
  | w, _, _, .ret v => some (w, some v, false)
  | w, _, arg, .addToArg k => some (w, some (arg + k), false)
  | w, _, _, .raiseErr => some (w, none, true)
  | w, _, _, .abortEmission v => some (setAborted w true, some v, false)
  | w, _, _, .disconnectSelf v =>
    match w.tl.currentConn with
    | none => some (w, some v, false)
    | some c => some (disconnectNode w c, some v, false)
  | w, i, _, .connectBack a v => some ((connect w i false a).1, some v, false)
  | w, i, _, .connectFront a v => some ((connect w i true a).1, some v, false)
  | w, _, _, .invokeNested j argN v =>
    match nested w j argN with
    | none => none
    | some (w2, e) => if e then some (w2, none, true) else some (w2, some v, false)
  | w, i, arg, .seq a b =>
    match runAct nested w i arg a with
    | none => none
    | some (w2, _, e) =>
      if e then some (w2, none, true) else runAct nested w2 i arg b

/-- The iteration loop of `signal::invoke` (rocket.hpp lines 2804-2889):
while `current != end`, execute the node's slot if it is connected and not
blocked (pushing a `connection_scope` around the call), honour
`emission_aborted` after the call, then advance through the node's re-read
`next` pointer. -/
def runLoop (nested : World → Nat → Int → Option (World × Bool)) :
    Nat → World → Nat → Int → Nat → Nat → List Int → List Nat → Bool →
    Option EmitResult
  | 0, w, _, _, current, tailId, vals, execs, err =>
    if current = tailId then some ⟨w, vals, execs, err⟩ else none
  | fuel + 1, w, i, arg, current, tailId, vals, execs, err =>
    if current = tailId then some ⟨w, vals, execs, err⟩
    else
      let nd := getNode w current
      if nd.prev.isSome && !nd.blocked then
        match runAct nested (setCurrentConn w (some current)) i arg nd.act with
        | none => none
        | some (w2, v, e) =>
          let w3 := setCurrentConn w2 w.tl.currentConn
          let vals2 := match v with
            | some x => vals ++ [x]
            | none => vals
          if w3.tl.aborted then some ⟨w3, vals2, execs ++ [current], err || e⟩
          else runLoop nested fuel w3 i arg ((getNode w3 current).next.getD tailId)
            tailId vals2 (execs ++ [current]) (err || e)
      else
        runLoop nested fuel w i arg (nd.next.getD tailId) tailId vals execs err

/-- One `signal::invoke` given the re-entrant invocation function: push an
`abort_scope` (save `emission_aborted`, reset it to false), loop from
`head->next` to `tail`, then restore the flag. -/
def invokeAux (nested : World → Nat → Int → Option (World × Bool))
    (fuel : Nat) (w : World) (i : Nat) (arg : Int) : Option EmitResult :=
  match w.sigs.get? i with
  | none => none
  | some sg =>
    let saved := w.tl.aborted
    let w1 := setAborted w false
    match runLoop nested fuel w1 i arg ((getNode w1 sg.headId).next.getD sg.tailId)
        sg.tailId [] [] false with
    | none => none
    | some r => some ⟨setAborted r.world saved, r.vals, r.execs, r.err⟩

/-- `signal::invoke` with fuel (the fuel only bounds the number of loop steps
and the re-entrancy depth; `none` means "out of fuel", never an observable
behaviour of the source). -/
def invoke : Nat → World → Nat → Int → Option EmitResult
  | 0, _, _, _ => none
  | fuel + 1, w, i, arg =>
    invokeAux (fun w2 j a2 => (invoke fuel w2 j a2).map fun r => (r.world, r.err))
      fuel w i arg

/-! ### Executable well-formedness predicates -/

/-- No duplicates, as a Boolean. -/
def nodupB : List Nat → Bool
  | [] => true
  | x :: xs => !(xs.contains x) && nodupB xs

/-- `dlinkedB w a ids b`: the nodes `ids` form a doubly-linked chain from
anchor `a` to anchor `b` (`a.next = ids.head`, matching `prev` backlinks, and
the last element linking to `b`). -/
def dlinkedB (w : World) : Nat → List Nat → Nat → Bool
  | a, [], b => ((getNode w a).next == some b) && ((getNode w b).prev == some a)
  | a, n :: ns, b =>
    ((getNode w a).next == some n) && ((getNode w n).prev == some a) &&
      dlinkedB w n ns b

/-- `walksB w cur ids tl`: starting at `cur` and repeatedly following `next`,
the loop of `signal::invoke` visits exactly the nodes `ids` before reaching
`tl`. -/
def walksB (w : World) : Nat → List Nat → Nat → Bool
  | cur, [], tl => cur == tl
  | cur, n :: ns, tl =>
    (cur == n) && !(cur == tl) && walksB w ((getNode w n).next.getD tl) ns tl

/-- `segB w tl cur ids endPt`: following `next` from `cur`, the loop visits
exactly `ids` (none of which is `tl`) and then stands at `endPt`. -/
def segB (w : World) (tl : Nat) : Nat → List Nat → Nat → Bool
  | cur, [], endPt => cur == endPt
  | cur, n :: ns, endPt =>
    (cur == n) && !(cur == tl) && segB w tl ((getNode w n).next.getD tl) ns endPt

/-- Well-formed live signal `sg` with slot chain `ids`: doubly linked from
`head` to `tail`, null outward sentinel pointers, all ids distinct and inside
the heap. -/
def goodSigB (w : World) (sg : Sig) (ids : List Nat) : Bool :=
  dlinkedB w sg.headId ids sg.tailId
  && ((getNode w sg.headId).prev == none)
  && ((getNode w sg.tailId).next == none)
  && nodupB (sg.headId :: sg.tailId :: ids)
  && (sg.headId :: sg.tailId :: ids).all (fun n => n < w.heap.length)

/-- Slot bodies that neither mutate the world nor touch the emission context:
plain returns. -/
def isRet : SlotAct → Bool
  | .ret _ => true
  | .addToArg _ => true
  | _ => false

/-- Slot bodies that at most throw: plain returns or `raiseErr`. -/
def isInert : SlotAct → Bool
  | .ret _ => true
  | .addToArg _ => true
  | .raiseErr => true
  | _ => false

/-- Whether a slot body throws. -/
def isRaise : SlotAct → Bool
  | .raiseErr => true
  | _ => false

/-- The value an inert slot body feeds to the collector (`none` if it
throws). -/
def actVal (arg : Int) : SlotAct → Option Int
  | .ret v => some v
  | .addToArg k => some (arg + k)
  | _ => none

/-- The chain nodes an emission actually executes: those connected and not
blocked. -/
def liveIds (w : World) (ids : List Nat) : List Nat :=
  ids.filter fun n => isConnected w n && !(getNode w n).blocked

/-- The values an emission over inert slots feeds to the collector. -/
def inertVals (w : World) (arg : Int) (ids : List Nat) : List Int :=
  (liveIds w ids).filterMap fun n => actVal arg (getNode w n).act

/-- Whether an emission over inert slots records an error. -/
def inertErr (w : World) (ids : List Nat) : Bool :=
  (liveIds w ids).any fun n => isRaise (getNode w n).act

/-- The node just before the slot at the head of `l2` when the chain from
anchor `a` decomposes as `l1 ++ l2`: the last node of `l1`, or `a` itself. -/
def lastAnchor (a : Nat) : List Nat → Nat
  | [] => a
  | x :: xs => lastAnchor x xs

/-- The node an element with successor-segment `l2` (before anchor `b`)
points at through `next`: the head of `l2`, or `b` itself. -/
def firstAnchor (b : Nat) : List Nat → Nat
  | [] => b
  | x :: _ => x

/-- Global invariant of a world holding the single signal `sg`: some chain
`ids` is well formed, every connected non-sentinel node belongs to it, and
the thread-local `current_connection` (if set) is not a sentinel.  Every
public operation preserves this invariant, and under it a disconnected node
can never become connected again. -/
def SigWorldInv (w : World) (sg : Sig) : Prop :=
  w.sigs = [sg] ∧
  (∃ ids, goodSigB w sg ids = true ∧
    ∀ n, n < w.heap.length → isConnected w n = true →
      n ∈ ids ∨ n = sg.headId ∨ n = sg.tailId) ∧
  (∀ c, w.tl.currentConn = some c → c ≠ sg.headId ∧ c ≠ sg.tailId)

/-- The state of a disconnected node `h` of the single signal `sg`: the world
invariant holds, `h`'s node exists in the heap, and `is_connected` on a
handle for `h` reports false.  Every public operation preserves this, which
is the permanence of disconnection. -/
def DiscInv (sg : Sig) (h : Nat) (w : World) : Prop :=
  SigWorldInv w sg ∧ isConnected w h = false ∧ h < w.heap.length

/-! ### The public API as a transition relation -/

/-- One call of the public API of a live signal, from the point of view of a
user holding the signal and arbitrary connection handles (node ids):
`connect` with any body and flags, `disconnect`, `block`, `unblock` on any
handle (handles returned by `connect` never point at a sentinel, hence the
side condition on `disc`), `clear`, and emission with any sufficient fuel.
(Signal destruction, after which no signal operation is possible any more, is
treated separately.) -/
inductive Step : World → World → Prop where
  | conn (w : World) (i : Nat) (asFirst : Bool) (a : SlotAct) :
      Step w (connect w i asFirst a).1
  | disc (w : World) (n : Nat)
      (hn : ∀ sg ∈ w.sigs, n ≠ sg.headId ∧ n ≠ sg.tailId) :
      Step w (disconnectNode w n)
  | block (w : World) (n : Nat) : Step w (blockNode w n)
  | unblock (w : World) (n : Nat) : Step w (unblockNode w n)
  | clearS (w : World) (i : Nat) : Step w (clearSig w i)
  | inv (w : World) (i : Nat) (arg : Int) (fuel : Nat) (r : EmitResult) :
      invoke fuel w i arg = some r → Step w r.world

/-- Reflexive-transitive closure of `Step`: the states reachable through the
public API. -/
inductive Reach : World → World → Prop where
  | refl (w : World) : Reach w w
  | tail (w w1 w2 : World) : Reach w w1 → Step w1 w2 → Reach w w2

/-! ### Concrete example worlds used by the witnesses -/

/-- The signal of the example worlds: sentinels at heap ids 0 (head) and 1
(tail). -/
def exSig : Sig :=
  { headId := 0, tailId := 1 }

/-- Example world: one signal with two connected slots, node 2 returning 5
and node 3 returning 7. -/
def exWorld : World :=
  { heap := [
      { prev := none, next := some 2, blocked := false, act := .ret 0 },
      { prev := some 3, next := none, blocked := false, act := .ret 0 },
      { prev := some 0, next := some 3, blocked := false, act := .ret 5 },
      { prev := some 2, next := some 1, blocked := false, act := .ret 7 }],
    sigs := [{ headId := 0, tailId := 1 }],
    tl := { currentConn := none, aborted := false } }

/-- Example world for the default-collector scenario: a signal `int(int)`
with a single connected slot computing `x + 1` (node 2). -/
def exWorldB : World :=
  { heap := [
      { prev := none, next := some 2, blocked := false, act := .ret 0 },
      { prev := some 2, next := none, blocked := false, act := .ret 0 },
      { prev := some 0, next := some 1, blocked := false, act := .addToArg 1 }],
    sigs := [{ headId := 0, tailId := 1 }],
    tl := { currentConn := none, aborted := false } }

/-- Example world for slot exceptions: node 2 throws, node 3 returns 7. -/
def exWorldR : World :=
  { heap := [
      { prev := none, next := some 2, blocked := false, act := .ret 0 },
      { prev := some 3, next := none, blocked := false, act := .ret 0 },
      { prev := some 0, next := some 3, blocked := false, act := .raiseErr },
      { prev := some 2, next := some 1, blocked := false, act := .ret 7 }],
    sigs := [{ headId := 0, tailId := 1 }],
    tl := { currentConn := none, aborted := false } }

/-- Example world for connecting during an emission with
`connect_as_first_slot`: node 2's slot connects a new slot returning 9 before
`head->next`; node 3 returns 7. -/
def exWorldCF : World :=
  { heap := [
      { prev := none, next := some 2, blocked := false, act := .ret 0 },
      { prev := some 3, next := none, blocked := false, act := .ret 0 },
      { prev := some 0, next := some 3, blocked := false,
        act := .connectFront (.ret 9) 1 },
      { prev := some 2, next := some 1, blocked := false, act := .ret 7 }],
    sigs := [{ headId := 0, tailId := 1 }],
    tl := { currentConn := none, aborted := false } }

/-- Example world for connecting during an emission with default flags: node
2's slot appends a new slot returning 9 before `tail`; node 3 returns 7. -/
def exWorldCB : World :=
  { heap := [
      { prev := none, next := some 2, blocked := false, act := .ret 0 },
      { prev := some 3, next := none, blocked := false, act := .ret 0 },
      { prev := some 0, next := some 3, blocked := false,
        act := .connectBack (.ret 9) 1 },
      { prev := some 2, next := some 1, blocked := false, act := .ret 7 }],
    sigs := [{ headId := 0, tailId := 1 }],
    tl := { currentConn := none, aborted := false } }

/-- Example world for self-disconnection: node 2's slot disconnects itself
through its current `connection` handle; node 3 returns 7. -/
def exWorldD : World :=
  { heap := [
      { prev := none, next := some 2, blocked := false, act := .ret 0 },
      { prev := some 3, next := none, blocked := false, act := .ret 0 },
      { prev := some 0, next := some 3, blocked := false, act := .disconnectSelf 1 },
      { prev := some 2, next := some 1, blocked := false, act := .ret 7 }],
    sigs := [{ headId := 0, tailId := 1 }],
    tl := { currentConn := none, aborted := false } }

/-- Example world for aborting an emission: node 2's slot calls
`abort_emission` and then disconnects itself; node 3 returns 7. -/
def exWorldA : World :=
  { heap := [
      { prev := none, next := some 2, blocked := false, act := .ret 0 },
      { prev := some 3, next := none, blocked := false, act := .ret 0 },
      { prev := some 0, next := some 3, blocked := false,
        act := .seq (.abortEmission 1) (.disconnectSelf 4) },
      { prev := some 2, next := some 1, blocked := false, act := .ret 7 }],
    sigs := [{ headId := 0, tailId := 1 }],
    tl := { currentConn := none, aborted := false } }

/-- Example world with a tombstone: the two-slot example signal plus a node 4
whose connection was already disconnected (`prev == null`, `next` kept). -/
def exWorldT : World :=
  { heap := [
      { prev := none, next := some 2, blocked := false, act := .ret 0 },
      { prev := some 3, next := none, blocked := false, act := .ret 0 },
      { prev := some 0, next := some 3, blocked := false, act := .ret 5 },
      { prev := some 2, next := some 1, blocked := false, act := .ret 7 },
      { prev := none, next := some 1, blocked := false, act := .ret 9 }],
    sigs := [{ headId := 0, tailId := 1 }],
    tl := { currentConn := none, aborted := false } }

/-- The second signal of the nested-emission example world: sentinels at heap
ids 2 and 3. -/
def exSigN : Sig :=
  { headId := 2, tailId := 3 }

/-- Example world for nested emissions: signal 0's slot 4 re-entrantly
invokes signal 1 and slot 5 returns 3; signal 1's slot 6 calls
`abort_emission` and slot 7 returns 8. -/
def exWorldN : World :=
  { heap := [
      { prev := none, next := some 4, blocked := false, act := .ret 0 },
      { prev := some 5, next := none, blocked := false, act := .ret 0 },
      { prev := none, next := some 6, blocked := false, act := .ret 0 },
      { prev := some 7, next := none, blocked := false, act := .ret 0 },
      { prev := some 0, next := some 5, blocked := false, act := .invokeNested 1 0 11 },
      { prev := some 4, next := some 1, blocked := false, act := .ret 3 },
      { prev := some 2, next := some 7, blocked := false, act := .abortEmission 1 },
      { prev := some 6, next := some 3, blocked := false, act := .ret 8 }],
    sigs := [{ headId := 0, tailId := 1 }, { headId := 2, tailId := 3 }],
    tl := { currentConn := none, aborted := false } }

/-! ### The `stable_list` container (rocket.hpp lines 1241-1838)

`stable_list` is the reference-counted doubly-linked container with the
`elements` size counter.  Only the structure-changing operations matter to
the claims; values are `Int`. -/

/-- One `stable_list` `link_element`. -/
structure LNode where
  prev : Option Nat
  next : Option Nat
  val : Int
deriving DecidableEq

/-- A `stable_list`: its node heap (append-only, for reference-counted
nodes), the two sentinel ids, and the `elements` counter. -/
structure LWorld where
  heap : List LNode
  headId : Nat
  tailId : Nat
  elements : Nat
deriving DecidableEq

/-- Default `link_element` for out-of-range reads. -/
def dfltLNode : LNode :=
  { prev := none, next := none, val := 0 }

/-- Read a `stable_list` node. -/
def getL (w : LWorld) (n : Nat) : LNode :=
  w.heap.getD n dfltLNode

/-- Overwrite a `stable_list` node. -/
def setL (w : LWorld) (n : Nat) (nd : LNode) : LWorld :=
  { w with heap := w.heap.set n nd }

/-- Write the `prev` pointer of list node `n`. -/
def setPrevL (w : LWorld) (n : Nat) (p : Option Nat) : LWorld :=
  setL w n { getL w n with prev := p }

/-- Write the `next` pointer of list node `n`. -/
def setNextL (w : LWorld) (n : Nat) (p : Option Nat) : LWorld :=
  setL w n { getL w n with next := p }

/-- `stable_list::stable_list()` → `init()`: two fresh sentinels linked to
each other, zero elements. -/
def initL : LWorld :=
  { heap := [{ prev := none, next := some 1, val := 0 },
             { prev := some 0, next := none, val := 0 }],
    headId := 0, tailId := 1, elements := 0 }

/-- `stable_list::make_link(l, value)` (rocket.hpp lines 1826-1837): allocate
a node before `l` and increment `elements`.  `insert`, `emplace`,
`push_front` and `push_back` all reduce to this. -/
def makeLinkL (w : LWorld) (l : Nat) (v : Int) : LWorld × Nat :=
  let newId := w.heap.length
  let lp := (getL w l).prev
  let w1 : LWorld :=
    { w with heap := w.heap ++ [{ prev := lp, next := some l, val := v }] }
  let w2 := match lp with
    | some p => setNextL w1 p (some newId)
    | none => w1
  let w3 := setPrevL w2 l (some newId)
  ({ w3 with elements := w3.elements + 1 }, newId)

/-- `stable_list::erase(pos)` (rocket.hpp lines 1757-1763): unlink the node
from its neighbours (its own `prev`/`next` stay untouched) and decrement
`elements`. -/
def eraseL (w : LWorld) (n : Nat) : LWorld :=
  let nd := getL w n
  let w1 := match nd.prev with
    | some p => setNextL w p nd.next
    | none => w
  let w2 := match nd.next with
    | some q => setPrevL w1 q nd.prev
    | none => w1
  { w2 with elements := w2.elements - 1 }

/-- The loop of `stable_list::erase(first, last)` (rocket.hpp lines
1765-1774): walk `[first, last)`, pointing every node's `prev` at
`first->prev` and its `next` at `last`, decrementing `elements` per node. -/
def eraseRangeLoopL : Nat → LWorld → Nat → Nat → Nat → LWorld
  | 0, w, _, _, _ => w
  | fuel + 1, w, link, firstId, lastId =>
    if link = lastId then w
    else
      let nx := (getL w link).next
      let w1 := setNextL (setPrevL w link (getL w firstId).prev) link (some lastId)
      let w2 := { w1 with elements := w1.elements - 1 }
      eraseRangeLoopL fuel w2 (nx.getD lastId) firstId lastId

/-- `stable_list::clear` = `erase(begin(), end())` (rocket.hpp lines
1586-1589, 1765-1779): run the range loop over the whole list, then splice
`first->prev` (the head sentinel) to `last` (the tail sentinel). -/
def clearL (w : LWorld) : LWorld :=
  let firstId := (getL w w.headId).next.getD w.tailId
  let w1 := eraseRangeLoopL (w.heap.length + 1) w firstId firstId w.tailId
  let fp := (getL w1 firstId).prev
  let w2 := match fp with
    | some p => setNextL w1 p (some w.tailId)
    | none => w1
  setPrevL w2 w.tailId fp

/-- Insertion position for `insert(pos, v)` when the current chain decomposes
as `l1 ++ l2` and we insert between them: `pos` is the first node of `l2`, or
`end()` (the tail sentinel) when `l2` is empty. -/
def posOfL (w : LWorld) : List Nat → Nat
  | [] => w.tailId
  | p :: _ => p

/-- Doubly-linked chain predicate for `stable_list` heaps. -/
def dlinkedLB (w : LWorld) : Nat → List Nat → Nat → Bool
  | a, [], b => ((getL w a).next == some b) && ((getL w b).prev == some a)
  | a, n :: ns, b =>
    ((getL w a).next == some n) && ((getL w n).prev == some a) &&
      dlinkedLB w n ns b

/-- `segLB w tl cur ids endPt`: following `next` from `cur`, the erase-range
walk of `stable_list` visits exactly `ids` (none of which is `tl`) and then
stands at `endPt`. -/
def segLB (w : LWorld) (tl : Nat) : Nat → List Nat → Nat → Bool
  | cur, [], endPt => cur == endPt
  | cur, n :: ns, endPt =>
    (cur == n) && !(cur == tl) && segLB w tl ((getL w n).next.getD tl) ns endPt

/-- Well-formed `stable_list` with chain `ids`. -/
def goodListB (w : LWorld) (ids : List Nat) : Bool :=
  dlinkedLB w w.headId ids w.tailId
  && ((getL w w.headId).prev == none)
  && ((getL w w.tailId).next == none)
  && nodupB (w.headId :: w.tailId :: ids)
  && (w.headId :: w.tailId :: ids).all (fun n => n < w.heap.length)

/-- The `stable_list` states reachable through its public API, together with
the ghost chain of live node ids in list order.  `insertAt` covers
`push_front` (`l1 = []`), `push_back`/`append` (`l2 = []`), `insert` and
`emplace` (all of which delegate to `make_link` before the given position);
`eraseAt` is `erase` on a valid iterator; `clearAll` is `clear`. -/
inductive LBuild : LWorld → List Nat → Prop where
  | init : LBuild initL []
  | insertAt (w : LWorld) (ids l1 l2 : List Nat) (v : Int) :
      LBuild w ids → ids = l1 ++ l2 →
      LBuild (makeLinkL w (posOfL w l2) v).1 (l1 ++ w.heap.length :: l2)
  | eraseAt (w : LWorld) (ids l1 l2 : List Nat) (n : Nat) :
      LBuild w ids → ids = l1 ++ n :: l2 →
      LBuild (eraseL w n) (l1 ++ l2)
  | clearAll (w : LWorld) (ids : List Nat) :
      LBuild w ids → LBuild (clearL w) []

/-! ### Generic heap access lemmas -/

theorem getD_set_self {α : Type} (l : List α) (m : Nat) (x d : α)
    (h : m < l.length) : (l.set m x).getD m d = x := by
  rw [List.getD_eq_getElem _ _ (by simpa using h)]
  simp [List.getElem_set, h]

theorem getD_set_ne {α : Type} (l : List α) (m n : Nat) (x d : α)
    (h : m ≠ n) : (l.set m x).getD n d = l.getD n d := by
  by_cases hn : n < l.length
  · rw [List.getD_eq_getElem _ _ (by simpa using hn), List.getD_eq_getElem _ _ hn]
    simp [List.getElem_set, h]
  · rw [List.getD_eq_default _ _ (by simpa using Nat.le_of_not_lt hn),
      List.getD_eq_default _ _ (Nat.le_of_not_lt hn)]

theorem getD_append_lt {α : Type} (l l2 : List α) (n : Nat) (d : α)
    (h : n < l.length) : (l ++ l2).getD n d = l.getD n d :=
  List.getD_append _ _ _ _ h

theorem getD_append_self {α : Type} (l : List α) (x d : α) :
    (l ++ [x]).getD l.length d = x := by
  rw [List.getD_append_right _ _ _ _ (Nat.le_refl _)]
  simp

theorem getD_set_getD_self {α : Type} (l : List α) (m : Nat) (d : α) :
    l.set m (l.getD m d) = l := by
  induction l generalizing m with
  | nil => simp
  | cons a l ih =>
    cases m with
    | zero => simp [List.getD]
    | succ m => simpa [List.getD_cons_succ, List.set, List.getD] using ih m

/-! ### Collector lemmas and claim C6 -/

theorem range_foldl (xs acc : List Int) :
    xs.foldl (fun vs value => vs ++ [value]) acc = acc ++ xs := by
  induction xs generalizing acc with
  | nil => simp
  | cons x xs ih => simp [List.foldl_cons, ih]

theorem last_foldl (xs : List Int) (a : Int) :
    xs.foldl (fun _ value => value) a = (a :: xs).getLast (by simp) := by
  induction xs generalizing a with
  | nil => simp
  | cons x xs ih => rw [List.foldl_cons, ih, List.getLast_cons_cons]

theorem first_foldl (xs : List Int) (c : Int) :
    xs.foldl firstStep (c, true) = (c, true) := by
  induction xs with
  | nil => rfl
  | cons x xs ih => rw [List.foldl_cons]; simpa [firstStep] using ih

theorem min_foldl (xs : List Int) (c : Int) :
    ((xs.foldl minStep (c, true)).1 = c ∨ (xs.foldl minStep (c, true)).1 ∈ xs) ∧
    (xs.foldl minStep (c, true)).1 ≤ c ∧
    ∀ y ∈ xs, (xs.foldl minStep (c, true)).1 ≤ y := by
  induction xs generalizing c with
  | nil => simp
  | cons x xs ih =>
    rw [List.foldl_cons]
    by_cases hx : x < c
    · have hstep : minStep (c, true) x = (x, true) := by simp [minStep, hx]
      rw [hstep]
      rcases ih x with ⟨hmem, hle, hall⟩
      refine ⟨?_, ?_, ?_⟩
      · rcases hmem with h | h
        · exact Or.inr (by simp [h])
        · exact Or.inr (List.mem_cons_of_mem _ h)
      · exact le_trans hle hx.le
      · intro y hy
        rcases List.mem_cons.mp hy with rfl | hy
        · exact hle
        · exact hall y hy
    · have hstep : minStep (c, true) x = (c, true) := by simp [minStep, hx]
      rw [hstep]
      rcases ih c with ⟨hmem, hle, hall⟩
      refine ⟨?_, hle, ?_⟩
      · rcases hmem with h | h
        · exact Or.inl h
        · exact Or.inr (List.mem_cons_of_mem _ h)
      · intro y hy
        rcases List.mem_cons.mp hy with rfl | hy
        · exact le_trans hle (le_of_not_lt hx)
        · exact hall y hy

theorem max_foldl (xs : List Int) (c : Int) :
    ((xs.foldl maxStep (c, true)).1 = c ∨ (xs.foldl maxStep (c, true)).1 ∈ xs) ∧
    c ≤ (xs.foldl maxStep (c, true)).1 ∧
    ∀ y ∈ xs, y ≤ (xs.foldl maxStep (c, true)).1 := by
  induction xs generalizing c with
  | nil => simp
  | cons x xs ih =>
    rw [List.foldl_cons]
    by_cases hx : x > c
    · have hstep : maxStep (c, true) x = (x, true) := by simp [maxStep, hx]
      rw [hstep]
      rcases ih x with ⟨hmem, hle, hall⟩
      refine ⟨?_, ?_, ?_⟩
      · rcases hmem with h | h
        · exact Or.inr (by simp [h])
        · exact Or.inr (List.mem_cons_of_mem _ h)
      · exact le_trans hx.le hle
      · intro y hy
        rcases List.mem_cons.mp hy with rfl | hy
        · exact hle
        · exact hall y hy
    · have hstep : maxStep (c, true) x = (c, true) := by simp [maxStep, hx]
      rw [hstep]
      rcases ih c with ⟨hmem, hle, hall⟩
      refine ⟨?_, hle, ?_⟩
      · rcases hmem with h | h
        · exact Or.inl h
        · exact Or.inr (List.mem_cons_of_mem _ h)
      · intro y hy
        rcases List.mem_cons.mp hy with rfl | hy
        · exact le_trans (le_of_not_lt hx) hle
        · exact hall y hy

/-- C6: for every finite nonempty sequence of slot return values fed to a
collector in emission order, `first` returns the first value, `last` the last
value, `minimum` the least value, `maximum` the greatest value, and `range`
exactly the whole sequence in order. -/
theorem claim_C6 (xs : List Int) (h : xs ≠ []) :
    first xs = xs.head h ∧
    last xs = xs.getLast h ∧
    (minimum xs ∈ xs ∧ ∀ y ∈ xs, minimum xs ≤ y) ∧
    (maximum xs ∈ xs ∧ ∀ y ∈ xs, y ≤ maximum xs) ∧
    range xs = xs := by
  obtain ⟨x, xs, rfl⟩ := List.exists_cons_of_ne_nil h
  refine ⟨?_, ?_, ?_, ?_, ?_⟩
  · show (List.foldl firstStep (firstStep (0, false) x) xs).1 = _
    have : firstStep (0, false) x = (x, true) := by simp [firstStep]
    rw [this, first_foldl]
    rfl
  · show List.foldl (fun _ value => value) ((fun _ value => value) 0 x) xs = _
    rw [last_foldl]
  · show (List.foldl minStep (minStep (0, false) x) xs).1 ∈ _ ∧ _
    have hstep : minStep (0, false) x = (x, true) := by simp [minStep]
    rw [hstep]
    rcases min_foldl xs x with ⟨hmem, hle, hall⟩
    constructor
    · rcases hmem with h | h
      · simp [h]
      · exact List.mem_cons_of_mem _ h
    · intro y hy
      rcases List.mem_cons.mp hy with rfl | hy
      · exact hle
      · exact hall y hy
  · show (List.foldl maxStep (maxStep (0, false) x) xs).1 ∈ _ ∧ _
    have hstep : maxStep (0, false) x = (x, true) := by simp [maxStep]
    rw [hstep]
    rcases max_foldl xs x with ⟨hmem, hle, hall⟩
    constructor
    · rcases hmem with h | h
      · simp [h]
      · exact List.mem_cons_of_mem _ h
    · intro y hy
      rcases List.mem_cons.mp hy with rfl | hy
      · exact hle
      · exact hall y hy
  · show List.foldl _ ([] ++ [x]) xs = _
    rw [range_foldl]
    simp

/-- C6 witness: the collectors evaluated on the concrete sequence
`[3, 1, 2]`. -/
theorem claim_C6_witness :
    ([3, 1, 2] : List Int) ≠ [] ∧
    (first [3, 1, 2] = 3 ∧
      last [3, 1, 2] = 2 ∧
      (minimum [3, 1, 2] ∈ [3, 1, 2] ∧ ∀ y ∈ ([3, 1, 2] : List Int), minimum [3, 1, 2] ≤ y) ∧
      (maximum [3, 1, 2] ∈ [3, 1, 2] ∧ ∀ y ∈ ([3, 1, 2] : List Int), y ≤ maximum [3, 1, 2]) ∧
      range [3, 1, 2] = [3, 1, 2]) := by
  refine ⟨by decide, ?_⟩
  have h := claim_C6 [3, 1, 2] (by decide)
  simpa using h

/-! ### Basic lemmas about world updates -/

theorem getNode_setAborted (w : World) (b : Bool) (n : Nat) :
    getNode (setAborted w b) n = getNode w n := rfl

theorem getNode_setCurrentConn (w : World) (c : Option Nat) (n : Nat) :
    getNode (setCurrentConn w c) n = getNode w n := rfl

theorem sigs_setAborted (w : World) (b : Bool) : (setAborted w b).sigs = w.sigs := rfl

theorem sigs_setCurrentConn (w : World) (c : Option Nat) :
    (setCurrentConn w c).sigs = w.sigs := rfl

theorem heap_setAborted (w : World) (b : Bool) : (setAborted w b).heap = w.heap := rfl

theorem heap_setCurrentConn (w : World) (c : Option Nat) :
    (setCurrentConn w c).heap = w.heap := rfl

theorem aborted_setAborted (w : World) (b : Bool) : (setAborted w b).tl.aborted = b := rfl

theorem currentConn_setAborted (w : World) (b : Bool) :
    (setAborted w b).tl.currentConn = w.tl.currentConn := rfl

theorem aborted_setCurrentConn (w : World) (c : Option Nat) :
    (setCurrentConn w c).tl.aborted = w.tl.aborted := rfl

theorem currentConn_setCurrentConn (w : World) (c : Option Nat) :
    (setCurrentConn w c).tl.currentConn = c := rfl

theorem setAborted_restore (w : World) (b : Bool) :
    setAborted (setAborted w b) w.tl.aborted = w := rfl

theorem setCurrentConn_restore (w : World) (c : Option Nat) :
    setCurrentConn (setCurrentConn w c) w.tl.currentConn = w := rfl

theorem setAborted_self (w : World) : setAborted w w.tl.aborted = w := rfl

theorem heap_length_setNode (w : World) (n : Nat) (nd : Node) :
    (setNode w n nd).heap.length = w.heap.length := by
  simp [setNode]

theorem sigs_setNode (w : World) (n : Nat) (nd : Node) :
    (setNode w n nd).sigs = w.sigs := rfl

theorem tl_setNode (w : World) (n : Nat) (nd : Node) :
    (setNode w n nd).tl = w.tl := rfl

theorem getNode_setNode_self (w : World) (n : Nat) (nd : Node)
    (h : n < w.heap.length) : getNode (setNode w n nd) n = nd :=
  getD_set_self _ _ _ _ h

theorem getNode_setNode_ne (w : World) (n m : Nat) (nd : Node)
    (h : n ≠ m) : getNode (setNode w n nd) m = getNode w m :=
  getD_set_ne _ _ _ _ _ h

theorem setNode_getNode_self (w : World) (n : Nat) :
    setNode w n (getNode w n) = w := by
  show World.mk (w.heap.set n (w.heap.getD n dfltNode)) w.sigs w.tl = w
  rw [getD_set_getD_self]

/-! ### Executing inert slots -/

theorem inert_runAct (nested : World → Nat → Int → Option (World × Bool))
    (w : World) (i : Nat) (arg : Int) (a : SlotAct) (h : isInert a = true) :
    runAct nested w i arg a = some (w, actVal arg a, isRaise a) := by
  cases a <;> simp_all [isInert, runAct, actVal, isRaise]

theorem segB_nil (w : World) (tl cur endPt : Nat) :
    segB w tl cur [] endPt = true ↔ cur = endPt := by
  simp [segB]

theorem segB_cons (w : World) (tl cur endPt x : Nat) (xs : List Nat) :
    segB w tl cur (x :: xs) endPt = true ↔
      cur = x ∧ cur ≠ tl ∧ segB w tl ((getNode w x).next.getD tl) xs endPt = true := by
  simp [segB, and_assoc]

/-- Running the emission loop over a segment of inert slots: the world is
unchanged, the live slots of the segment are executed in order, their values
are collected, and the error flag records whether any of them threw. -/
theorem runLoop_seg (nested : World → Nat → Int → Option (World × Bool))
    (xs : List Nat) (w : World) (i : Nat) (arg : Int) (tl : Nat) :
    ∀ (cur endPt : Nat) (vals : List Int) (execs : List Nat) (err : Bool) (fuel : Nat),
    segB w tl cur xs endPt = true →
    (∀ n ∈ xs, isInert (getNode w n).act = true) →
    w.tl.aborted = false →
    runLoop nested (xs.length + fuel) w i arg cur tl vals execs err =
      runLoop nested fuel w i arg endPt tl (vals ++ inertVals w arg xs)
        (execs ++ liveIds w xs) (err || inertErr w xs) := by
  induction xs with
  | nil =>
    intro cur endPt vals execs err fuel hseg _ _
    rw [(segB_nil w tl cur endPt).mp hseg]
    simp [inertVals, liveIds, inertErr]
  | cons x xs ih =>
    intro cur endPt vals execs err fuel hseg hinert hab
    obtain ⟨heq, hne, hseg'⟩ := (segB_cons w tl cur endPt x xs).mp hseg
    subst heq
    have hx : isInert (getNode w cur).act = true := hinert cur (by simp)
    have hxs : ∀ n ∈ xs, isInert (getNode w n).act = true :=
      fun n hn => hinert n (by simp [hn])
    rw [show (cur :: xs).length + fuel = (xs.length + fuel) + 1 by simp [Nat.add_right_comm]]
    rw [runLoop]
    rw [if_neg hne]
    simp only []
    cases hlive : ((getNode w cur).prev.isSome && !(getNode w cur).blocked) with
    | true =>
      simp only [hlive, if_true]
      rw [inert_runAct _ _ _ _ _ hx]
      simp only [setCurrentConn_restore, aborted_setCurrentConn]
      have hlive2 : (isConnected w cur && !(getNode w cur).blocked) = true := hlive
      have hlids : liveIds w (cur :: xs) = cur :: liveIds w xs := by
        simp [liveIds, List.filter_cons, hlive2]
      have herr : inertErr w (cur :: xs) = (isRaise (getNode w cur).act || inertErr w xs) := by
        simp [inertErr, hlids]
      rw [hab, if_neg (by simp)]
      rw [ih _ _ _ _ _ _ hseg' hxs hab]
      rw [hlids, herr]
      cases hva : actVal arg (getNode w cur).act with
      | none =>
        have hvals : inertVals w arg (cur :: xs) = inertVals w arg xs := by
          simp [inertVals, hlids, List.filterMap_cons, hva]
        rw [hvals]
        simp [Bool.or_assoc, List.append_assoc]
      | some v =>
        have hvals : inertVals w arg (cur :: xs) = v :: inertVals w arg xs := by
          simp [inertVals, hlids, List.filterMap_cons, hva]
        rw [hvals]
        simp [Bool.or_assoc, List.append_assoc]
    | false =>
      rw [if_neg (by simp)]
      rw [ih _ _ _ _ _ _ hseg' hxs hab]
      have hlive2 : (isConnected w cur && !(getNode w cur).blocked) = false := hlive
      have hlids : liveIds w (cur :: xs) = liveIds w xs := by
        simp [liveIds, List.filter_cons, hlive2]
      have hvals : inertVals w arg (cur :: xs) = inertVals w arg xs := by
        simp [inertVals, hlids]
      have herr : inertErr w (cur :: xs) = inertErr w xs := by
        simp [inertErr, hlids]
      rw [hlids, hvals, herr]

theorem set_oob {α : Type} (l : List α) (n : Nat) (x : α) (h : l.length ≤ n) :
    l.set n x = l := by
  induction l generalizing n with
  | nil => rfl
  | cons a l ih =>
    cases n with
    | zero => simp at h
    | succ n => simpa [List.set] using ih n (by simpa using h)

theorem setNode_oob (w : World) (n : Nat) (nd : Node) (h : w.heap.length ≤ n) :
    setNode w n nd = w := by
  show World.mk (w.heap.set n nd) w.sigs w.tl = w
  rw [set_oob _ _ _ h]

theorem getNode_updNode_ne (w : World) (m : Nat) (f : Node → Node) (n : Nat)
    (h : m ≠ n) : getNode (updNode w m f) n = getNode w n :=
  getNode_setNode_ne _ _ _ _ h

theorem getNode_updNode_self (w : World) (m : Nat) (f : Node → Node)
    (h : m < w.heap.length) : getNode (updNode w m f) m = f (getNode w m) :=
  getNode_setNode_self _ _ _ h

theorem updNode_oob (w : World) (m : Nat) (f : Node → Node)
    (h : w.heap.length ≤ m) : updNode w m f = w :=
  setNode_oob _ _ _ h

theorem getNode_updNode (w : World) (m : Nat) (f : Node → Node) (n : Nat) :
    getNode (updNode w m f) n = if m = n ∧ m < w.heap.length then f (getNode w n)
      else getNode w n := by
  by_cases hmn : m = n
  · subst hmn
    by_cases hlt : m < w.heap.length
    · simp [hlt, getNode_updNode_self _ _ _ hlt]
    · rw [updNode_oob _ _ _ (Nat.le_of_not_lt hlt)]
      simp [hlt]
  · simp [hmn, getNode_updNode_ne _ _ _ _ hmn]

theorem sigs_updNode (w : World) (m : Nat) (f : Node → Node) :
    (updNode w m f).sigs = w.sigs := rfl

theorem tl_updNode (w : World) (m : Nat) (f : Node → Node) :
    (updNode w m f).tl = w.tl := rfl

theorem heap_length_updNode (w : World) (m : Nat) (f : Node → Node) :
    (updNode w m f).heap.length = w.heap.length :=
  heap_length_setNode _ _ _

/-! ### Congruence of the walk predicates -/

theorem segB_congr (w1 w2 : World) (tl : Nat)
    (hg : ∀ n, (getNode w1 n).next = (getNode w2 n).next) :
    ∀ (ids : List Nat) (cur endPt : Nat),
    segB w1 tl cur ids endPt = segB w2 tl cur ids endPt := by
  intro ids
  induction ids with
  | nil => intro cur endPt; rfl
  | cons x xs ih =>
    intro cur endPt
    simp only [segB, hg x, ih]

theorem liveIds_congr (w1 w2 : World)
    (hg : ∀ n, (getNode w1 n).prev = (getNode w2 n).prev ∧
      (getNode w1 n).blocked = (getNode w2 n).blocked) (ids : List Nat) :
    liveIds w1 ids = liveIds w2 ids := by
  unfold liveIds
  apply List.filter_congr
  intro n _
  simp [isConnected, (hg n).1, (hg n).2]

theorem inertVals_congr (w1 w2 : World) (arg : Int)
    (hg : ∀ n, getNode w1 n = getNode w2 n) (ids : List Nat) :
    inertVals w1 arg ids = inertVals w2 arg ids := by
  unfold inertVals
  rw [liveIds_congr w1 w2 (fun n => by rw [hg n]; exact ⟨rfl, rfl⟩) ids]
  apply List.filterMap_congr
  intro n _
  rw [hg n]

theorem inertErr_congr (w1 w2 : World)
    (hg : ∀ n, getNode w1 n = getNode w2 n) (ids : List Nat) :
    inertErr w1 ids = inertErr w2 ids := by
  unfold inertErr
  rw [liveIds_congr w1 w2 (fun n => by rw [hg n]; exact ⟨rfl, rfl⟩) ids]
  congr 1
  funext n
  rw [hg n]

/-! ### Whole inert emissions -/

theorem runLoop_at_tail (nested : World → Nat → Int → Option (World × Bool))
    (fuel : Nat) (w : World) (i : Nat) (arg : Int) (tl : Nat) (vals : List Int)
    (execs : List Nat) (err : Bool) :
    runLoop nested fuel w i arg tl tl vals execs err = some ⟨w, vals, execs, err⟩ := by
  cases fuel <;> simp [runLoop]

/-- A whole emission over a signal whose walk consists of inert slots: the
world is returned unchanged, the live (connected and unblocked) slots execute
in walk order, and the error flag is set exactly when one of them threw. -/
theorem invoke_inert (w : World) (i : Nat) (arg : Int) (sg : Sig) (ids : List Nat)
    (k : Nat) (hsg : w.sigs.get? i = some sg)
    (hseg : segB w sg.tailId ((getNode w sg.headId).next.getD sg.tailId) ids sg.tailId = true)
    (hinert : ∀ n ∈ ids, isInert (getNode w n).act = true) :
    invoke (ids.length + k + 1) w i arg =
      some ⟨w, inertVals w arg ids, liveIds w ids, inertErr w ids⟩ := by
  rw [invoke]
  unfold invokeAux
  rw [hsg]
  simp only []
  rw [runLoop_seg _ ids (setAborted w false) i arg sg.tailId
    ((getNode (setAborted w false) sg.headId).next.getD sg.tailId) sg.tailId [] [] false k
    (by rw [segB_congr (setAborted w false) w sg.tailId (fun n => rfl)]; exact hseg)
    (fun n hn => hinert n hn) rfl]
  rw [runLoop_at_tail]
  simp only []
  rw [setAborted_restore]
  rfl

/-! ### Unpacking the well-formedness predicates -/

theorem nodupB_iff (l : List Nat) : nodupB l = true ↔ l.Nodup := by
  induction l with
  | nil => simp [nodupB]
  | cons x xs ih =>
    simp [nodupB, List.nodup_cons, ih, List.contains, List.elem_iff]

theorem dlinked_seg (w : World) (b : Nat) :
    ∀ (ids : List Nat) (a : Nat), dlinkedB w a ids b = true →
    (∀ n ∈ ids, n ≠ b) →
    segB w b ((getNode w a).next.getD b) ids b = true := by
  intro ids
  induction ids with
  | nil =>
    intro a hdl _
    simp only [dlinkedB, Bool.and_eq_true, beq_iff_eq] at hdl
    rw [hdl.1]
    simp [segB]
  | cons x xs ih =>
    intro a hdl hnb
    simp only [dlinkedB, Bool.and_eq_true, beq_iff_eq] at hdl
    obtain ⟨⟨hax, _⟩, hrest⟩ := hdl
    rw [hax]
    have h1 : (x == x : Bool) = true := by simp
    have h2 : (!(x == b)) = true := by simp [hnb x (by simp)]
    simp only [Option.getD_some, segB, h1, h2, Bool.true_and, Bool.and_true]
    exact ih x hrest (fun n hn => hnb n (by simp [hn]))

theorem dlinked_connected (w : World) (b : Nat) :
    ∀ (ids : List Nat) (a : Nat), dlinkedB w a ids b = true →
    ∀ n ∈ ids, isConnected w n = true := by
  intro ids
  induction ids with
  | nil => intro a _ n hn; simp at hn
  | cons x xs ih =>
    intro a hdl n hn
    simp only [dlinkedB, Bool.and_eq_true, beq_iff_eq] at hdl
    obtain ⟨⟨_, hxp⟩, hrest⟩ := hdl
    rcases List.mem_cons.mp hn with rfl | hn
    · simp [isConnected, hxp]
    · exact ih x hrest n hn

theorem goodSig_parts (w : World) (sg : Sig) (ids : List Nat)
    (h : goodSigB w sg ids = true) :
    dlinkedB w sg.headId ids sg.tailId = true ∧
    (getNode w sg.headId).prev = none ∧
    (getNode w sg.tailId).next = none ∧
    sg.headId ∉ ids ∧ sg.tailId ∉ ids ∧ sg.headId ≠ sg.tailId ∧
    ids.Nodup ∧ (∀ n ∈ ids, n < w.heap.length) ∧
    sg.headId < w.heap.length ∧ sg.tailId < w.heap.length := by
  simp only [goodSigB, Bool.and_eq_true, beq_iff_eq, List.all_eq_true,
    decide_eq_true_eq, nodupB_iff, List.nodup_cons, List.mem_cons] at h
  obtain ⟨⟨⟨⟨hdl, hhp⟩, htn⟩, ⟨hh, ht, hnd⟩⟩, hbound⟩ := h
  refine ⟨hdl, hhp, htn, ?_, ?_, ?_, hnd, ?_, ?_, ?_⟩
  · intro hmem; exact hh (Or.inr hmem)
  · exact ht
  · intro heq; exact hh (Or.inl heq)
  · intro n hn; exact hbound n (Or.inr (Or.inr hn))
  · exact hbound _ (Or.inl rfl)
  · exact hbound _ (Or.inr (Or.inl rfl))

theorem goodSig_seg (w : World) (sg : Sig) (ids : List Nat)
    (h : goodSigB w sg ids = true) :
    segB w sg.tailId ((getNode w sg.headId).next.getD sg.tailId) ids sg.tailId = true := by
  obtain ⟨hdl, _, _, _, ht, _, _, _, _, _⟩ := goodSig_parts w sg ids h
  exact dlinked_seg w sg.tailId ids sg.headId hdl
    (fun n hn heq => ht (heq ▸ hn))

theorem liveIds_all (w : World) (ids : List Nat)
    (hconn : ∀ n ∈ ids, isConnected w n = true)
    (hunb : ∀ n ∈ ids, (getNode w n).blocked = false) :
    liveIds w ids = ids := by
  unfold liveIds
  apply List.filter_eq_self.mpr
  intro n hn
  simp [hconn n hn, hunb n hn]

theorem isRet_not_raise (a : SlotAct) (h : isRet a = true) : isRaise a = false := by
  cases a <;> simp_all [isRet, isRaise]

theorem isRet_inert (a : SlotAct) (h : isRet a = true) : isInert a = true := by
  cases a <;> simp_all [isRet, isInert]

theorem inertErr_of_ret (w : World) (ids : List Nat)
    (h : ∀ n ∈ ids, isRet (getNode w n).act = true) : inertErr w ids = false := by
  unfold inertErr
  apply List.any_eq_false.mpr
  intro n hn
  have hmem : n ∈ ids := List.mem_of_mem_filter hn
  simp [isRet_not_raise _ (h n hmem)]

/-! ### Block and unblock -/

theorem getNode_blockNode_act (w : World) (h n : Nat) :
    (getNode (blockNode w h) n).act = (getNode w n).act := by
  rw [blockNode, getNode_updNode]
  split <;> rfl

theorem getNode_blockNode_next (w : World) (h n : Nat) :
    (getNode (blockNode w h) n).next = (getNode w n).next := by
  rw [blockNode, getNode_updNode]
  split <;> rfl

theorem getNode_blockNode_prev (w : World) (h n : Nat) :
    (getNode (blockNode w h) n).prev = (getNode w n).prev := by
  rw [blockNode, getNode_updNode]
  split <;> rfl

theorem blocked_blockNode_self (w : World) (h : Nat) (hlt : h < w.heap.length) :
    (getNode (blockNode w h) h).blocked = true := by
  rw [blockNode, getNode_updNode_self _ _ _ hlt]

theorem blocked_blockNode_ne (w : World) (h n : Nat) (hne : h ≠ n) :
    (getNode (blockNode w h) n).blocked = (getNode w n).blocked := by
  rw [blockNode, getNode_updNode_ne _ _ _ _ hne]

theorem unblock_block_cancel (w : World) (h : Nat) (hlt : h < w.heap.length)
    (hunb : (getNode w h).blocked = false) :
    unblockNode (blockNode w h) h = w := by
  have hbw : getNode (blockNode w h) h = { getNode w h with blocked := true } := by
    rw [blockNode, getNode_updNode_self _ _ _ hlt]
  have hval : { getNode (blockNode w h) h with blocked := false } = getNode w h := by
    rw [hbw]
    cases hnd : getNode w h with
    | mk p nx b a =>
      rw [hnd] at hunb
      simp only at hunb
      simp [hunb]
  simp only [unblockNode, updNode]
  rw [hval]
  simp only [blockNode, updNode, setNode]
  show World.mk ((w.heap.set h _).set h (getNode w h)) w.sigs w.tl = w
  rw [List.set_set]
  have hfin := setNode_getNode_self w h
  simpa [setNode] using hfin

theorem isConnected_blockNode (w : World) (h n : Nat) :
    isConnected (blockNode w h) n = isConnected w n := by
  simp [isConnected, getNode_blockNode_prev]

/-- C1: for a single-threaded signal over non-mutating slots, an emission
visits the slot list front to back and executes exactly the slots that are
connected and not blocked, in insertion order.  For any chain slot `h`, the
sequence `block(h); invoke; unblock(h)` executes every other slot of the
chain, in order, but not `h`'s slot (which stays connected, merely skipped),
and after `unblock` the state is exactly the original one, so a following
invoke executes the whole chain, `h` included. -/
theorem claim_C1 (w : World) (i : Nat) (arg1 arg2 : Int) (sg : Sig) (ids : List Nat)
    (h : Nat) (F : Nat)
    (hsg : w.sigs.get? i = some sg)
    (hgood : goodSigB w sg ids = true)
    (hret : ∀ n ∈ ids, isRet (getNode w n).act = true)
    (hunb : ∀ n ∈ ids, (getNode w n).blocked = false)
    (hmem : h ∈ ids)
    (hF : ids.length + 1 ≤ F) :
    invoke F (blockNode w h) i arg1 =
      some ⟨blockNode w h, inertVals (blockNode w h) arg1 ids,
        ids.filter (fun n => n != h), false⟩ ∧
    isConnected (blockNode w h) h = true ∧
    unblockNode (blockNode w h) h = w ∧
    invoke F w i arg2 = some ⟨w, inertVals w arg2 ids, ids, false⟩ := by
  obtain ⟨k, rfl⟩ : ∃ k, F = ids.length + k + 1 := ⟨F - ids.length - 1, by omega⟩
  obtain ⟨hdl, hhp, htn, hhin, htin, hht, hnd, hbound, hbh, hbt⟩ :=
    goodSig_parts w sg ids hgood
  have hlt : h < w.heap.length := hbound h hmem
  have hconn : ∀ n ∈ ids, isConnected w n = true :=
    dlinked_connected w sg.tailId ids sg.headId hdl
  have hseg : segB w sg.tailId ((getNode w sg.headId).next.getD sg.tailId) ids
      sg.tailId = true := goodSig_seg w sg ids hgood
  have hsgb : (blockNode w h).sigs.get? i = some sg := hsg
  have hnext : ∀ n, (getNode (blockNode w h) n).next = (getNode w n).next :=
    getNode_blockNode_next w h
  have hsegb : segB (blockNode w h) sg.tailId
      ((getNode (blockNode w h) sg.headId).next.getD sg.tailId) ids sg.tailId = true := by
    rw [hnext sg.headId, segB_congr (blockNode w h) w sg.tailId hnext]
    exact hseg
  have hinb : ∀ n ∈ ids, isInert (getNode (blockNode w h) n).act = true := by
    intro n hn
    rw [getNode_blockNode_act]
    exact isRet_inert _ (hret n hn)
  have hliveb : liveIds (blockNode w h) ids = ids.filter (fun n => n != h) := by
    unfold liveIds
    apply List.filter_congr
    intro n hn
    have hc : isConnected (blockNode w h) n = true := by
      rw [isConnected_blockNode]
      exact hconn n hn
    by_cases hnh : n = h
    · subst hnh
      simp [hc, blocked_blockNode_self w n hlt]
    · simp [hc, blocked_blockNode_ne w h n (fun e => hnh e.symm), hunb n hn, bne, hnh]
  have herrb : inertErr (blockNode w h) ids = false :=
    inertErr_of_ret _ _ (fun n hn => by
      rw [getNode_blockNode_act]; exact hret n hn)
  refine ⟨?_, ?_, ?_, ?_⟩
  · rw [invoke_inert (blockNode w h) i arg1 sg ids k hsgb hsegb hinb, hliveb, herrb]
  · rw [isConnected_blockNode]
    exact hconn h hmem
  · exact unblock_block_cancel w h hlt (hunb h hmem)
  · rw [invoke_inert w i arg2 sg ids k hsg hseg (fun n hn => isRet_inert _ (hret n hn)),
      liveIds_all w ids hconn hunb, inertErr_of_ret w ids hret]

/-- C1 witness: the two-slot example world, blocking slot 2. -/
theorem claim_C1_witness :
    (exWorld.sigs.get? 0 = some exSig ∧ goodSigB exWorld exSig [2, 3] = true ∧
      (∀ n ∈ [2, 3], isRet (getNode exWorld n).act = true) ∧
      (∀ n ∈ [2, 3], (getNode exWorld n).blocked = false) ∧
      2 ∈ [2, 3] ∧ [2, 3].length + 1 ≤ 3) ∧
    (invoke 3 (blockNode exWorld 2) 0 0 =
      some ⟨blockNode exWorld 2, inertVals (blockNode exWorld 2) 0 [2, 3],
        [2, 3].filter (fun n => n != 2), false⟩ ∧
      isConnected (blockNode exWorld 2) 2 = true ∧
      unblockNode (blockNode exWorld 2) 2 = exWorld ∧
      invoke 3 exWorld 0 0 = some ⟨exWorld, inertVals exWorld 0 [2, 3], [2, 3], false⟩) :=
  ⟨⟨by decide, by decide, by decide, by decide, by decide, by decide⟩,
    claim_C1 exWorld 0 0 0 exSig [2, 3] 2 3 (by decide) (by decide) (by decide)
      (by decide) (by decide) (by decide)⟩

/-! ### Default collector -/

theorem getLast?_mem_list {α : Type} (l : List α) (a : α) (h : l.getLast? = some a) :
    a ∈ l := by
  obtain ⟨hne, rfl⟩ :=
    List.mem_getLast?_eq_getLast (x := a) (l := l) (by simp [Option.mem_def, h])
  exact List.getLast_mem hne

theorem foldl_last_or (xs : List Int) :
    ∀ (o : Option Int), xs.foldl (fun _ value => some value) o = xs.getLast?.or o := by
  induction xs with
  | nil => intro o; simp
  | cons x xs ih =>
    intro o
    rw [List.foldl_cons, ih (some x)]
    cases xs with
    | nil => simp
    | cons y ys =>
      have hs : (y :: ys).getLast?.isSome := List.getLast?_isSome.mpr (by simp)
      obtain ⟨v, hv⟩ := Option.isSome_iff_exists.mp hs
      rw [List.getLast?_cons_cons, hv]
      simp

theorem default_collector_getLast (xs : List Int) :
    default_collector xs = xs.getLast? := by
  unfold default_collector
  rw [foldl_last_or]
  simp

theorem actVal_of_ret (arg : Int) (a : SlotAct) (h : isRet a = true) :
    actVal arg a = some ((actVal arg a).getD 0) := by
  cases a <;> simp_all [isRet, actVal]

theorem filterMap_actVal_eq_map (w : World) (arg : Int) :
    ∀ (l : List Nat), (∀ n ∈ l, isRet (getNode w n).act = true) →
    l.filterMap (fun n => actVal arg (getNode w n).act) =
      l.map (fun n => (actVal arg (getNode w n).act).getD 0) := by
  intro l
  induction l with
  | nil => intro _; rfl
  | cons x xs ih =>
    intro h
    rw [List.filterMap_cons, List.map_cons]
    rw [actVal_of_ret arg _ (h x (by simp))]
    rw [ih (fun n hn => h n (by simp [hn]))]
    simp

/-- C7: invoking a signal with non-void return type under the default
collector returns an optional that is empty exactly when no slot was
executed, and otherwise holds the return value of the last slot executed; in
particular, for a signal `int(int)` with a single connected slot computing
`x + 1`, invoking with 41 returns an optional holding 42. -/
theorem claim_C7 (w : World) (i : Nat) (arg : Int) (sg : Sig) (ids : List Nat) (F : Nat)
    (hsg : w.sigs.get? i = some sg)
    (hgood : goodSigB w sg ids = true)
    (hret : ∀ n ∈ ids, isRet (getNode w n).act = true)
    (hF : ids.length + 1 ≤ F) :
    (∃ r, invoke F w i arg = some r ∧ r.world = w ∧ r.execs = liveIds w ids ∧
      (default_collector r.vals = none ↔ r.execs = []) ∧
      (∀ m, r.execs.getLast? = some m →
        default_collector r.vals = actVal arg (getNode w m).act)) ∧
    (invoke 2 exWorldB 0 41).map (fun r => default_collector r.vals) = some (some 42) := by
  constructor
  · obtain ⟨k, rfl⟩ : ∃ k, F = ids.length + k + 1 := ⟨F - ids.length - 1, by omega⟩
    have hseg := goodSig_seg w sg ids hgood
    have hinert : ∀ n ∈ ids, isInert (getNode w n).act = true :=
      fun n hn => isRet_inert _ (hret n hn)
    refine ⟨_, invoke_inert w i arg sg ids k hsg hseg hinert, rfl, rfl, ?_, ?_⟩
    · have hlret : ∀ n ∈ liveIds w ids, isRet (getNode w n).act = true :=
        fun n hn => hret n (List.mem_of_mem_filter hn)
      show default_collector (inertVals w arg ids) = none ↔ liveIds w ids = []
      unfold inertVals
      rw [filterMap_actVal_eq_map w arg _ hlret, default_collector_getLast,
        List.getLast?_map]
      constructor
      · intro hnone
        have : (liveIds w ids).getLast? = none := by
          cases hl : (liveIds w ids).getLast? with
          | none => rfl
          | some m => rw [hl] at hnone; simp at hnone
        exact List.getLast?_eq_none_iff.mp this
      · intro he
        rw [he]
        rfl
    · intro m hm
      have hlret : ∀ n ∈ liveIds w ids, isRet (getNode w n).act = true :=
        fun n hn => hret n (List.mem_of_mem_filter hn)
      show default_collector (inertVals w arg ids) = actVal arg (getNode w m).act
      unfold inertVals
      rw [filterMap_actVal_eq_map w arg _ hlret, default_collector_getLast,
        List.getLast?_map]
      have hm' : (liveIds w ids).getLast? = some m := hm
      rw [hm']
      have hmm : m ∈ liveIds w ids := getLast?_mem_list _ _ hm'
      rw [actVal_of_ret arg _ (hlret m hmm)]
      rfl
  · decide

/-- C7 witness: the two-slot example world under the default collector. -/
theorem claim_C7_witness :
    (exWorld.sigs.get? 0 = some exSig ∧ goodSigB exWorld exSig [2, 3] = true ∧
      (∀ n ∈ [2, 3], isRet (getNode exWorld n).act = true) ∧ [2, 3].length + 1 ≤ 3) ∧
    ((∃ r, invoke 3 exWorld 0 0 = some r ∧ r.world = exWorld ∧
        r.execs = liveIds exWorld [2, 3] ∧
        (default_collector r.vals = none ↔ r.execs = []) ∧
        (∀ m, r.execs.getLast? = some m →
          default_collector r.vals = actVal 0 (getNode exWorld m).act)) ∧
      (invoke 2 exWorldB 0 41).map (fun r => default_collector r.vals) = some (some 42)) :=
  ⟨⟨by decide, by decide, by decide, by decide⟩,
    claim_C7 exWorld 0 0 exSig [2, 3] 3 (by decide) (by decide) (by decide) (by decide)⟩

/-! ### Slot exceptions -/

/-- C5: slot errors are isolated and reported at the end of the emission.  If
all the chain's slots are connected and unblocked, every one of them is
executed (in particular every slot after a throwing one), and the emission's
final `invocation_slot_error` throw (the error flag) happens if and only if at
least one slot threw. -/
theorem claim_C5 (w : World) (i : Nat) (arg : Int) (sg : Sig) (ids : List Nat) (F : Nat)
    (hsg : w.sigs.get? i = some sg)
    (hgood : goodSigB w sg ids = true)
    (hinert : ∀ n ∈ ids, isInert (getNode w n).act = true)
    (hunb : ∀ n ∈ ids, (getNode w n).blocked = false)
    (hF : ids.length + 1 ≤ F) :
    invoke F w i arg = some ⟨w, inertVals w arg ids, ids, inertErr w ids⟩ ∧
    (inertErr w ids = true ↔ ∃ n ∈ ids, isRaise (getNode w n).act = true) := by
  obtain ⟨k, rfl⟩ : ∃ k, F = ids.length + k + 1 := ⟨F - ids.length - 1, by omega⟩
  obtain ⟨hdl, _, _, _, _, _, _, _, _, _⟩ := goodSig_parts w sg ids hgood
  have hconn : ∀ n ∈ ids, isConnected w n = true :=
    dlinked_connected w sg.tailId ids sg.headId hdl
  have hlive : liveIds w ids = ids := liveIds_all w ids hconn hunb
  constructor
  · rw [invoke_inert w i arg sg ids k hsg (goodSig_seg w sg ids hgood) hinert, hlive]
  · unfold inertErr
    rw [hlive]
    simp [List.any_eq_true]

/-- C5 witness: node 2 throws, node 3 still runs, the emission reports the
error. -/
theorem claim_C5_witness :
    (exWorldR.sigs.get? 0 = some exSig ∧ goodSigB exWorldR exSig [2, 3] = true ∧
      (∀ n ∈ [2, 3], isInert (getNode exWorldR n).act = true) ∧
      (∀ n ∈ [2, 3], (getNode exWorldR n).blocked = false) ∧ [2, 3].length + 1 ≤ 3) ∧
    (invoke 3 exWorldR 0 0 =
        some ⟨exWorldR, inertVals exWorldR 0 [2, 3], [2, 3], inertErr exWorldR [2, 3]⟩ ∧
      (inertErr exWorldR [2, 3] = true ↔
        ∃ n ∈ [2, 3], isRaise (getNode exWorldR n).act = true)) :=
  ⟨⟨by decide, by decide, by decide, by decide, by decide⟩,
    claim_C5 exWorldR 0 0 exSig [2, 3] 3 (by decide) (by decide) (by decide)
      (by decide) (by decide)⟩

/-! ### Clearing a signal -/

theorem prev_setNext (w : World) (m : Nat) (p : Option Nat) (n : Nat) :
    (getNode (setNext w m p) n).prev = (getNode w n).prev := by
  rw [setNext, getNode_updNode]
  split <;> rfl

theorem next_setPrev (w : World) (m : Nat) (p : Option Nat) (n : Nat) :
    (getNode (setPrev w m p) n).next = (getNode w n).next := by
  rw [setPrev, getNode_updNode]
  split <;> rfl

theorem prev_setPrev_ne (w : World) (m : Nat) (p : Option Nat) (n : Nat) (h : m ≠ n) :
    (getNode (setPrev w m p) n).prev = (getNode w n).prev := by
  rw [setPrev, getNode_updNode_ne _ _ _ _ h]

theorem prev_setPrev_self (w : World) (m : Nat) (p : Option Nat)
    (h : m < w.heap.length) :
    (getNode (setPrev w m p) m).prev = p := by
  rw [setPrev, getNode_updNode_self _ _ _ h]

theorem nodup_lt_length (ids : List Nat) (N : Nat) (hnd : ids.Nodup)
    (hb : ∀ n ∈ ids, n < N) : ids.length ≤ N := by
  have hsub : ids.toFinset ⊆ Finset.range N := by
    intro x hx
    simp only [List.mem_toFinset] at hx
    exact Finset.mem_range.mpr (hb x hx)
  have hc := Finset.card_le_card hsub
  rwa [List.toFinset_card_of_nodup hnd, Finset.card_range] at hc

theorem segB_congr_mem (w1 w2 : World) (tl : Nat) :
    ∀ (ids : List Nat) (cur endPt : Nat),
    (∀ n ∈ ids, (getNode w1 n).next = (getNode w2 n).next) →
    segB w1 tl cur ids endPt = segB w2 tl cur ids endPt := by
  intro ids
  induction ids with
  | nil => intro cur endPt _; rfl
  | cons x xs ih =>
    intro cur endPt hg
    simp only [segB, hg x (by simp), ih _ _ (fun n hn => hg n (by simp [hn]))]

theorem clearLoop_prev_mono : ∀ (fuel : Nat) (w : World) (cur tl n : Nat),
    (getNode w n).prev = none → (getNode (clearLoop fuel w cur tl) n).prev = none := by
  intro fuel
  induction fuel with
  | zero => intro w cur tl n h; exact h
  | succ fuel ih =>
    intro w cur tl n h
    rw [clearLoop]
    by_cases hct : cur = tl
    · rw [if_pos hct]; exact h
    · rw [if_neg hct]
      apply ih
      by_cases hcn : cur = n
      · subst hcn
        rw [setPrev, getNode_updNode]
        split <;> simp [prev_setNext, h]
      · rw [prev_setPrev_ne _ _ _ _ hcn, prev_setNext]
        exact h

theorem clearLoop_basic : ∀ (fuel : Nat) (w : World) (cur tl : Nat),
    (clearLoop fuel w cur tl).sigs = w.sigs ∧
    (clearLoop fuel w cur tl).heap.length = w.heap.length ∧
    (clearLoop fuel w cur tl).tl = w.tl := by
  intro fuel
  induction fuel with
  | zero => intro w cur tl; exact ⟨rfl, rfl, rfl⟩
  | succ fuel ih =>
    intro w cur tl
    rw [clearLoop]
    by_cases hct : cur = tl
    · rw [if_pos hct]; exact ⟨rfl, rfl, rfl⟩
    · rw [if_neg hct]
      obtain ⟨h1, h2, h3⟩ := ih (setPrev (setNext w cur (some tl)) cur none)
        ((getNode w cur).next.getD tl) tl
      refine ⟨h1.trans rfl, h2.trans ?_, h3.trans rfl⟩
      show (setPrev (setNext w cur (some tl)) cur none).heap.length = w.heap.length
      rw [setPrev, heap_length_updNode, setNext, heap_length_updNode]

theorem clearLoop_seg (tl : Nat) : ∀ (ids : List Nat) (w : World) (cur : Nat) (k : Nat),
    segB w tl cur ids tl = true → ids.Nodup → (∀ n ∈ ids, n < w.heap.length) →
    ∀ n ∈ ids, (getNode (clearLoop (ids.length + k) w cur tl) n).prev = none := by
  intro ids
  induction ids with
  | nil => intro w cur k _ _ _ n hn; simp at hn
  | cons x xs ih =>
    intro w cur k hseg hnd hb n hn
    obtain ⟨heq, hne, hseg'⟩ := (segB_cons w tl cur tl x xs).mp hseg
    subst heq
    rw [show (cur :: xs).length + k = (xs.length + k) + 1 by simp [Nat.add_right_comm]]
    rw [clearLoop, if_neg hne]
    simp only []
    have hlt : cur < w.heap.length := hb cur (by simp)
    have hcur_not_xs : cur ∉ xs := (List.nodup_cons.mp hnd).1
    set w1 := setPrev (setNext w cur (some tl)) cur none with hw1
    have hw1len : w1.heap.length = w.heap.length := by
      rw [hw1, setPrev, heap_length_updNode, setNext, heap_length_updNode]
    have hw1next : ∀ m ∈ xs, (getNode w1 m).next = (getNode w m).next := by
      intro m hm
      have hcm : cur ≠ m := fun e => hcur_not_xs (e ▸ hm)
      rw [hw1, next_setPrev, setNext, getNode_updNode_ne _ _ _ _ hcm]
    have hseg1 : segB w1 tl ((getNode w cur).next.getD tl) xs tl = true := by
      rw [segB_congr_mem w1 w tl xs _ _ hw1next]
      exact hseg'
    rcases List.mem_cons.mp hn with rfl | hnxs
    · apply clearLoop_prev_mono
      rw [hw1, prev_setPrev_self _ _ _ (by rw [setNext, heap_length_updNode]; exact hlt)]
    · exact ih w1 ((getNode w cur).next.getD tl) k hseg1 (List.nodup_cons.mp hnd).2
        (fun m hm => hw1len ▸ hb m (by simp [hm])) n hnxs

/-- What `clear_without_lock` does to the nodes: every chain node becomes
disconnected, already-disconnected nodes stay disconnected, and the sentinels
are relinked to each other. -/
theorem clearSig_disconnects (w : World) (i : Nat) (sg : Sig) (ids : List Nat)
    (hsg : w.sigs.get? i = some sg)
    (hgood : goodSigB w sg ids = true) :
    (∀ n ∈ ids, isConnected (clearSig w i) n = false) ∧
    (∀ n, n ≠ sg.tailId → isConnected w n = false →
      isConnected (clearSig w i) n = false) ∧
    (getNode (clearSig w i) sg.headId).next = some sg.tailId ∧
    (clearSig w i).sigs = w.sigs := by
  obtain ⟨hdl, hhp, htn, hhin, htin, hht, hnd, hbound, hbh, hbt⟩ :=
    goodSig_parts w sg ids hgood
  have hlenle : ids.length ≤ w.heap.length := nodup_lt_length ids _ hnd hbound
  have hseg := goodSig_seg w sg ids hgood
  set start := (getNode w sg.headId).next.getD sg.tailId with hstart
  set w1 := clearLoop (w.heap.length + 1) w start sg.tailId with hw1
  obtain ⟨hsigs1, hlen1, htl1⟩ := clearLoop_basic (w.heap.length + 1) w start sg.tailId
  have hkill : ∀ n ∈ ids, (getNode w1 n).prev = none := by
    have := clearLoop_seg sg.tailId ids w start (w.heap.length + 1 - ids.length)
      hseg hnd hbound
    rwa [show ids.length + (w.heap.length + 1 - ids.length) = w.heap.length + 1
      from by omega] at this
  set cw := setPrev (setNext w1 sg.headId (some sg.tailId)) sg.tailId (some sg.headId)
    with hcw
  have hclear : clearSig w i = cw := by
    unfold clearSig
    rw [hsg]
  have hprev_cw : ∀ n, n ≠ sg.tailId → (getNode cw n).prev = (getNode w1 n).prev := by
    intro n hnt
    rw [hcw, prev_setPrev_ne _ _ _ _ (fun e => hnt e.symm), prev_setNext]
  rw [hclear]
  refine ⟨?_, ?_, ?_, ?_⟩
  · intro n hn
    have hnt : n ≠ sg.tailId := fun e => htin (e ▸ hn)
    rw [isConnected, hprev_cw n hnt, hkill n hn]
    rfl
  · intro n hnt hcn
    rw [isConnected, hprev_cw n hnt]
    have : (getNode w n).prev = none := by
      rw [isConnected] at hcn
      exact Option.not_isSome_iff_eq_none.mp (by simp [hcn])
    rw [clearLoop_prev_mono _ _ _ _ _ this]
    rfl
  · rw [hcw, setPrev, getNode_updNode_ne _ _ _ _ (fun e => hht e.symm),
      setNext, getNode_updNode_self _ _ _ (hlen1 ▸ hbh)]
  · rw [hcw, setPrev, sigs_updNode, setNext, sigs_updNode, hsigs1]

/-- C10: `signal::clear` disconnects every slot currently connected to the
signal (and leaves already-disconnected handles disconnected); a subsequent
emission executes no slot and collects no value, so the default collector
returns the empty optional. -/
theorem claim_C10 (w : World) (i : Nat) (arg : Int) (sg : Sig) (ids : List Nat) (F : Nat)
    (hsg : w.sigs.get? i = some sg)
    (hgood : goodSigB w sg ids = true)
    (hF : 1 ≤ F) :
    (∀ n ∈ ids, isConnected (clearSig w i) n = false) ∧
    (∀ n, n ≠ sg.tailId → isConnected w n = false →
      isConnected (clearSig w i) n = false) ∧
    invoke F (clearSig w i) i arg = some ⟨clearSig w i, [], [], false⟩ ∧
    default_collector [] = none := by
  obtain ⟨hc1, hc2, hnext_cw, hsigs_cw⟩ := clearSig_disconnects w i sg ids hsg hgood
  refine ⟨hc1, hc2, ?_, rfl⟩
  have hsg_cw : (clearSig w i).sigs.get? i = some sg := by rw [hsigs_cw]; exact hsg
  have hseg0 : segB (clearSig w i) sg.tailId
      ((getNode (clearSig w i) sg.headId).next.getD sg.tailId) [] sg.tailId = true := by
    rw [hnext_cw]
    simp [segB]
  have hinv := invoke_inert (clearSig w i) i arg sg [] (F - 1) hsg_cw hseg0
    (by intro n hn; simp at hn)
  rw [show F = [].length + (F - 1) + 1 by simp; omega]
  rw [hinv]
  rfl

/-- C10 witness: clearing the two-slot example world. -/
theorem claim_C10_witness :
    (exWorld.sigs.get? 0 = some exSig ∧ goodSigB exWorld exSig [2, 3] = true ∧
      (1 : Nat) ≤ 1) ∧
    ((∀ n ∈ [2, 3], isConnected (clearSig exWorld 0) n = false) ∧
      (∀ n, n ≠ exSig.tailId → isConnected exWorld n = false →
        isConnected (clearSig exWorld 0) n = false) ∧
      invoke 1 (clearSig exWorld 0) 0 0 = some ⟨clearSig exWorld 0, [], [], false⟩ ∧
      default_collector [] = none) :=
  ⟨⟨by decide, by decide, by decide⟩,
    claim_C10 exWorld 0 0 exSig [2, 3] 1 (by decide) (by decide) (by decide)⟩

/-! ### Destroying a signal -/

theorem isConnected_unblockNode (w : World) (h n : Nat) :
    isConnected (unblockNode w h) n = isConnected w n := by
  unfold isConnected unblockNode
  rw [getNode_updNode]
  split <;> rfl

theorem disconnectNode_of_disconnected (w : World) (n : Nat)
    (h : (getNode w n).prev = none) : disconnectNode w n = w := by
  unfold disconnectNode
  simp only [h]

/-- C8: destroying a signal while user code still holds connection handles to
its slots leaves every handle valid: each handle reports
`is_connected = false` afterwards (already-dead handles stay dead), and
operating on such a handle is well-defined — `disconnect` is a no-op and
`block`/`unblock` leave it disconnected.  (The nodes survive the signal in
the heap, which models the reference counting keeping them alive.) -/
theorem claim_C8 (w : World) (i : Nat) (sg : Sig) (ids : List Nat)
    (hsg : w.sigs.get? i = some sg)
    (hgood : goodSigB w sg ids = true) :
    (∀ n ∈ ids, isConnected (destroySig w i) n = false) ∧
    (∀ n, n ≠ sg.tailId → isConnected w n = false →
      isConnected (destroySig w i) n = false) ∧
    (∀ n ∈ ids,
      disconnectNode (destroySig w i) n = destroySig w i ∧
      isConnected (blockNode (destroySig w i) n) n = false ∧
      isConnected (unblockNode (destroySig w i) n) n = false) := by
  obtain ⟨hc1, hc2, _, _⟩ := clearSig_disconnects w i sg ids hsg hgood
  obtain ⟨_, _, _, _, htin, hht, _, _, _, _⟩ := goodSig_parts w sg ids hgood
  set dw := setPrev (setNext (clearSig w i) sg.headId none) sg.tailId none with hdw
  have hdest : destroySig w i = dw := by
    unfold destroySig
    rw [hsg]
  have hprev_dw : ∀ n, n ≠ sg.tailId →
      (getNode dw n).prev = (getNode (clearSig w i) n).prev := by
    intro n hnt
    rw [hdw, prev_setPrev_ne _ _ _ _ (fun e => hnt e.symm), prev_setNext]
  have hdead : ∀ n ∈ ids, isConnected dw n = false := by
    intro n hn
    have hnt : n ≠ sg.tailId := fun e => htin (e ▸ hn)
    rw [isConnected, hprev_dw n hnt]
    exact hc1 n hn
  rw [hdest]
  refine ⟨hdead, ?_, ?_⟩
  · intro n hnt hcn
    rw [isConnected, hprev_dw n hnt]
    exact hc2 n hnt hcn
  · intro n hn
    have hd := hdead n hn
    refine ⟨?_, ?_, ?_⟩
    · exact disconnectNode_of_disconnected dw n
        (Option.not_isSome_iff_eq_none.mp (by simp [isConnected] at hd; simp [hd]))
    · rw [isConnected_blockNode]
      exact hd
    · rw [isConnected_unblockNode]
      exact hd

/-- C8 witness: destroying the two-slot example world. -/
theorem claim_C8_witness :
    (exWorld.sigs.get? 0 = some exSig ∧ goodSigB exWorld exSig [2, 3] = true) ∧
    ((∀ n ∈ [2, 3], isConnected (destroySig exWorld 0) n = false) ∧
      (∀ n, n ≠ exSig.tailId → isConnected exWorld n = false →
        isConnected (destroySig exWorld 0) n = false) ∧
      (∀ n ∈ [2, 3],
        disconnectNode (destroySig exWorld 0) n = destroySig exWorld 0 ∧
        isConnected (blockNode (destroySig exWorld 0) n) n = false ∧
        isConnected (unblockNode (destroySig exWorld 0) n) n = false)) :=
  ⟨⟨by decide, by decide⟩,
    claim_C8 exWorld 0 exSig [2, 3] (by decide) (by decide)⟩

/-! ### Chain surgery: splitting and rebuilding doubly-linked chains -/

theorem lastAnchor_mem (x : Nat) : ∀ (xs : List Nat), lastAnchor x xs ∈ x :: xs := by
  intro xs
  induction xs generalizing x with
  | nil => simp [lastAnchor]
  | cons y ys ih =>
    rw [lastAnchor]
    rcases List.mem_cons.mp (ih y) with hm | hm
    · simp [hm]
    · simp [List.mem_cons_of_mem, hm]

theorem firstAnchor_mem (b : Nat) (l : List Nat) : firstAnchor b l ∈ l ∨ firstAnchor b l = b := by
  cases l with
  | nil => exact Or.inr rfl
  | cons x xs => exact Or.inl (by simp [firstAnchor])

theorem dlinked_split (w : World) (b : Nat) :
    ∀ (ids1 : List Nat) (a h : Nat) (ids2 : List Nat),
    dlinkedB w a (ids1 ++ h :: ids2) b = true ↔
      (dlinkedB w a ids1 h = true ∧ dlinkedB w h ids2 b = true) := by
  intro ids1
  induction ids1 with
  | nil =>
    intro a h ids2
    simp [dlinkedB, Bool.and_eq_true, and_assoc]
  | cons x xs ih =>
    intro a h ids2
    rw [List.cons_append]
    simp only [dlinkedB, Bool.and_eq_true]
    rw [ih x h ids2]
    tauto

theorem dlinked_prev_first (w : World) (a b : Nat) (ids : List Nat)
    (h : dlinkedB w a ids b = true) :
    (getNode w (firstAnchor b ids)).prev = some a := by
  cases ids with
  | nil =>
    simp only [dlinkedB, Bool.and_eq_true, beq_iff_eq] at h
    simpa [firstAnchor] using h.2
  | cons x xs =>
    simp only [dlinkedB, Bool.and_eq_true, beq_iff_eq] at h
    exact h.1.2

theorem dlinked_next_first (w : World) (a b : Nat) (ids : List Nat)
    (h : dlinkedB w a ids b = true) :
    (getNode w a).next = some (firstAnchor b ids) := by
  cases ids with
  | nil =>
    simp only [dlinkedB, Bool.and_eq_true, beq_iff_eq] at h
    simpa [firstAnchor] using h.1
  | cons x xs =>
    simp only [dlinkedB, Bool.and_eq_true, beq_iff_eq] at h
    exact h.1.1

theorem dlinked_last (w : World) (b : Nat) :
    ∀ (ids : List Nat) (a : Nat), dlinkedB w a ids b = true →
    (getNode w (lastAnchor a ids)).next = some b ∧
    (getNode w b).prev = some (lastAnchor a ids) := by
  intro ids
  induction ids with
  | nil =>
    intro a h
    simp only [dlinkedB, Bool.and_eq_true, beq_iff_eq] at h
    exact ⟨h.1, h.2⟩
  | cons x xs ih =>
    intro a h
    simp only [dlinkedB, Bool.and_eq_true, beq_iff_eq] at h
    exact ih x (by simp [h.2])

theorem dlinked_congr_mem (w w' : World) :
    ∀ (ids : List Nat) (a b : Nat),
    (∀ n ∈ ids, getNode w' n = getNode w n) →
    (getNode w' a).next = (getNode w a).next →
    (getNode w' b).prev = (getNode w b).prev →
    dlinkedB w a ids b = true → dlinkedB w' a ids b = true := by
  intro ids
  induction ids with
  | nil =>
    intro a b _ hna hpb h
    simp only [dlinkedB, Bool.and_eq_true, beq_iff_eq] at h ⊢
    rw [hna, hpb]
    exact h
  | cons x xs ih =>
    intro a b hint hna hpb h
    simp only [dlinkedB, Bool.and_eq_true, beq_iff_eq] at h ⊢
    obtain ⟨⟨h1, h2⟩, h3⟩ := h
    refine ⟨⟨by rw [hna]; exact h1, by rw [hint x (by simp)]; exact h2⟩, ?_⟩
    exact ih x b (fun n hn => hint n (by simp [hn]))
      (by rw [hint x (by simp)]) hpb h3

theorem dlinked_swap_end (w w' : World) :
    ∀ (ids : List Nat) (a h h' : Nat),
    dlinkedB w a ids h = true →
    a ∉ ids → ids.Nodup →
    (∀ n ∈ a :: ids, n ≠ lastAnchor a ids → (getNode w' n).next = (getNode w n).next) →
    (∀ n ∈ ids, (getNode w' n).prev = (getNode w n).prev) →
    (getNode w' (lastAnchor a ids)).next = some h' →
    (getNode w' h').prev = some (lastAnchor a ids) →
    dlinkedB w' a ids h' = true := by
  intro ids
  induction ids with
  | nil =>
    intro a h h' _ _ _ _ _ hbn hbp
    simp only [lastAnchor] at hbn hbp
    simp [dlinkedB, hbn, hbp]
  | cons x xs ih =>
    intro a h h' hdl ha hnd hnint hpint hbn hbp
    simp only [dlinkedB, Bool.and_eq_true, beq_iff_eq] at hdl
    obtain ⟨⟨h1, h2⟩, h3⟩ := hdl
    have hlam : lastAnchor a (x :: xs) = lastAnchor x xs := rfl
    have hane : a ≠ lastAnchor a (x :: xs) := by
      rw [hlam]
      intro he
      exact ha (he ▸ lastAnchor_mem x xs)
    simp only [dlinkedB, Bool.and_eq_true, beq_iff_eq]
    refine ⟨⟨?_, ?_⟩, ?_⟩
    · rw [hnint a (by simp) hane]
      exact h1
    · rw [hpint x (by simp)]
      exact h2
    · exact ih x h h' h3 (List.nodup_cons.mp hnd).1 (List.nodup_cons.mp hnd).2
        (fun n hn hne => hnint n (List.mem_cons_of_mem a hn) (hlam ▸ hne))
        (fun n hn => hpint n (by simp [hn]))
        (hlam ▸ hbn) (hlam ▸ hbp)

theorem next_setNext_self (w : World) (m : Nat) (p : Option Nat)
    (h : m < w.heap.length) : (getNode (setNext w m p) m).next = p := by
  rw [setNext, getNode_updNode_self _ _ _ h]

theorem next_setNext_ne (w : World) (m : Nat) (p : Option Nat) (n : Nat) (h : m ≠ n) :
    (getNode (setNext w m p) n).next = (getNode w n).next := by
  rw [setNext, getNode_updNode_ne _ _ _ _ h]

theorem blocked_setPrev (w : World) (m : Nat) (p : Option Nat) (n : Nat) :
    (getNode (setPrev w m p) n).blocked = (getNode w n).blocked := by
  rw [setPrev, getNode_updNode]
  split <;> rfl

theorem blocked_setNext (w : World) (m : Nat) (p : Option Nat) (n : Nat) :
    (getNode (setNext w m p) n).blocked = (getNode w n).blocked := by
  rw [setNext, getNode_updNode]
  split <;> rfl

theorem act_setPrev (w : World) (m : Nat) (p : Option Nat) (n : Nat) :
    (getNode (setPrev w m p) n).act = (getNode w n).act := by
  rw [setPrev, getNode_updNode]
  split <;> rfl

theorem act_setNext (w : World) (m : Nat) (p : Option Nat) (n : Nat) :
    (getNode (setNext w m p) n).act = (getNode w n).act := by
  rw [setNext, getNode_updNode]
  split <;> rfl

theorem heap_length_setPrev (w : World) (m : Nat) (p : Option Nat) :
    (setPrev w m p).heap.length = w.heap.length :=
  heap_length_updNode _ _ _

theorem heap_length_setNext (w : World) (m : Nat) (p : Option Nat) :
    (setNext w m p).heap.length = w.heap.length :=
  heap_length_updNode _ _ _

theorem disconnectNode_eq (w : World) (h p q : Nat)
    (hp : (getNode w h).prev = some p) (hq : (getNode w h).next = some q) :
    disconnectNode w h = setPrev (setNext (setPrev w q (some p)) p (some q)) h none := by
  unfold disconnectNode
  simp only [hp, hq]

/-- Rebuilding a doubly-linked chain after the element between `ids1` and
`ids2` has been unlinked: if the two cut ends have been spliced to each other
and everything else is untouched, the concatenation is a chain again. -/
theorem dlinked_after_disconnect (w w' : World) (a b h : Nat) (ids1 ids2 : List Nat)
    (hdl1 : dlinkedB w a ids1 h = true)
    (hdl2 : dlinkedB w h ids2 b = true)
    (ha : a ∉ ids1) (hnd1 : ids1.Nodup) (hnd2 : ids2.Nodup)
    (hb1 : b ∉ ids1) (hb2 : b ∉ ids2) (hbh : b ≠ h)
    (hsep1 : h ∉ ids1) (hsep2 : h ∉ ids2)
    (hqid1 : firstAnchor b ids2 ∉ ids1)
    (hpid2 : lastAnchor a ids1 ∉ ids2)
    (hpq : lastAnchor a ids1 ≠ firstAnchor b ids2)
    (hint : ∀ n, n ≠ h → n ≠ lastAnchor a ids1 → n ≠ firstAnchor b ids2 →
      getNode w' n = getNode w n)
    (hnext_all : ∀ n, n ≠ lastAnchor a ids1 →
      (getNode w' n).next = (getNode w n).next)
    (hprev_all : ∀ n, n ≠ h → n ≠ firstAnchor b ids2 →
      (getNode w' n).prev = (getNode w n).prev)
    (hpn : (getNode w' (lastAnchor a ids1)).next = some (firstAnchor b ids2))
    (hqp : (getNode w' (firstAnchor b ids2)).prev = some (lastAnchor a ids1)) :
    dlinkedB w' a (ids1 ++ ids2) b = true := by
  cases ids2 with
  | nil =>
    rw [List.append_nil]
    exact dlinked_swap_end w w' ids1 a h b hdl1 ha hnd1
      (fun n _ hne => hnext_all n hne)
      (fun n hn => hprev_all n (fun e => hsep1 (by rw [← e]; exact hn))
        (fun e => hb1 (by have he2 : n = b := e; rw [← he2]; exact hn)))
      hpn hqp
  | cons y rest =>
    apply (dlinked_split w' b ids1 a y rest).mpr
    have hfa : firstAnchor b (y :: rest) = y := rfl
    constructor
    · exact dlinked_swap_end w w' ids1 a h y hdl1 ha hnd1
        (fun n _ hne => hnext_all n hne)
        (fun n hn => hprev_all n (fun e => hsep1 (by rw [← e]; exact hn))
          (fun e => hqid1 (by rw [hfa]; have he2 : n = y := e; rw [← he2]; exact hn)))
        (by rw [hfa] at hpn; exact hpn)
        (by rw [hfa] at hqp; exact hqp)
    · have hdl2' : dlinkedB w y rest b = true := by
        simp only [dlinkedB, Bool.and_eq_true, beq_iff_eq] at hdl2
        exact hdl2.2
      apply dlinked_congr_mem w w' rest y b
      · intro n hn
        apply hint
        · exact fun e => hsep2 (e ▸ (by simp [hn] : n ∈ y :: rest))
        · exact fun e => hpid2 (e ▸ (by simp [hn] : n ∈ y :: rest))
        · rw [hfa]
          exact fun e => (List.nodup_cons.mp hnd2).1 (e ▸ hn)
      · exact hnext_all y (fun e => hpq (by rw [hfa]; exact e.symm ▸ rfl))
      · exact hprev_all b hbh (fun e => hb2 (by rw [hfa] at e; simp [e]))
      · exact hdl2'

/-- Effect of `connection_base::disconnect` on a chain node: the chain closes
up around the node, the node's `prev` becomes null while its `next` is
preserved, nothing else changes, and no disconnected node becomes
connected. -/
theorem disconnect_chain (w : World) (sg : Sig) (ids1 ids2 : List Nat) (h : Nat)
    (hgood : goodSigB w sg (ids1 ++ h :: ids2) = true) :
    goodSigB (disconnectNode w h) sg (ids1 ++ ids2) = true ∧
    (getNode (disconnectNode w h) h).prev = none ∧
    (getNode (disconnectNode w h) h).next = (getNode w h).next ∧
    (disconnectNode w h).heap.length = w.heap.length ∧
    (disconnectNode w h).sigs = w.sigs ∧
    (disconnectNode w h).tl = w.tl ∧
    (∀ n, isConnected (disconnectNode w h) n = true → isConnected w n = true) ∧
    (∀ n, n ≠ lastAnchor sg.headId ids1 →
      (getNode (disconnectNode w h) n).next = (getNode w n).next) ∧
    (∀ n, (getNode (disconnectNode w h) n).blocked = (getNode w n).blocked ∧
      (getNode (disconnectNode w h) n).act = (getNode w n).act) ∧
    (∀ n, n ≠ h → isConnected w n = true → isConnected (disconnectNode w h) n = true) := by
  obtain ⟨hdl, hhp0, htn0, hhin, htin, hht, hnd, hbound, hbh, hbt⟩ :=
    goodSig_parts w sg (ids1 ++ h :: ids2) hgood
  set p := lastAnchor sg.headId ids1 with hpdef
  set q := firstAnchor sg.tailId ids2 with hqdef
  obtain ⟨hdl1, hdl2⟩ := (dlinked_split w sg.tailId ids1 sg.headId h ids2).mp hdl
  have hmemh : h ∈ ids1 ++ h :: ids2 := by simp
  have hsplitnd := hnd
  have hnd1 : ids1.Nodup := hsplitnd.of_append_left
  have hnd2' : (h :: ids2).Nodup := hsplitnd.of_append_right
  have hdisj : ids1.Disjoint (h :: ids2) := List.disjoint_of_nodup_append hsplitnd
  have hh1 : h ∉ ids1 := fun hc => hdisj hc (by simp)
  have hh2 : h ∉ ids2 := (List.nodup_cons.mp hnd2').1
  have hpmem : p ∈ sg.headId :: ids1 := hpdef ▸ lastAnchor_mem sg.headId ids1
  have hqmem : q ∈ ids2 ∨ q = sg.tailId := hqdef ▸ firstAnchor_mem sg.tailId ids2
  have hhh : (getNode w h).prev = some p := (dlinked_last w h ids1 sg.headId hdl1).2
  have hpn : (getNode w p).next = some h := (dlinked_last w h ids1 sg.headId hdl1).1
  have hhn : (getNode w h).next = some q := dlinked_next_first w h sg.tailId ids2 hdl2
  have hqp : (getNode w q).prev = some h := dlinked_prev_first w h sg.tailId ids2 hdl2
  have hheadh : h ≠ sg.headId := fun e => hhin (e ▸ hmemh)
  have htailh : h ≠ sg.tailId := fun e => htin (e ▸ hmemh)
  have hph : p ≠ h := by
    rcases List.mem_cons.mp hpmem with he | hm
    · exact he ▸ (fun e => hheadh e.symm)
    · exact fun e => hh1 (e ▸ hm)
  have hqh : q ≠ h := by
    rcases hqmem with hm | he
    · exact fun e => hh2 (e ▸ hm)
    · exact he ▸ (fun e => htailh e.symm)
  have hpq : p ≠ q := by
    rcases List.mem_cons.mp hpmem with hep | hmp
    · rcases hqmem with hmq | heq
      · intro e
        exact hhin (by rw [← hep, e]; simp [hmq])
      · intro e
        exact hht (by rw [← hep, e, heq])
    · rcases hqmem with hmq | heq
      · intro e
        exact hdisj hmp (by rw [e]; simp [hmq])
      · intro e
        exact htin (by rw [← heq, ← e]; simp [hmp])
  have hqhead : q ≠ sg.headId := by
    rcases hqmem with hm | he
    · exact fun e => hhin (by simp [e ▸ hm])
    · exact he ▸ fun e => hht e.symm
  have hptail : p ≠ sg.tailId := by
    rcases List.mem_cons.mp hpmem with he | hm
    · exact he ▸ hht
    · exact fun e => htin (by simp [e ▸ hm])
  have hh_lt : h < w.heap.length := hbound h hmemh
  have hp_lt : p < w.heap.length := by
    rcases List.mem_cons.mp hpmem with he | hm
    · exact he ▸ hbh
    · exact hbound p (by simp [hm])
  have hq_lt : q < w.heap.length := by
    rcases hqmem with hm | he
    · exact hbound q (by simp [hm])
    · exact he ▸ hbt
  set W1 := setPrev w q (some p) with hW1
  set W2 := setNext W1 p (some q) with hW2
  set w' := setPrev W2 h none with hw'
  have hdis : disconnectNode w h = w' := disconnectNode_eq w h p q hhh hhn
  have hlen1 : W1.heap.length = w.heap.length := heap_length_setPrev _ _ _
  have hlen2 : W2.heap.length = w.heap.length := by
    rw [hW2, heap_length_setNext, hlen1]
  have hlen' : w'.heap.length = w.heap.length := by
    rw [hw', heap_length_setPrev, hlen2]
  have f_next : ∀ n, (getNode w' n).next =
      if n = p then some q else (getNode w n).next := by
    intro n
    rw [hw', next_setPrev]
    by_cases hn : n = p
    · subst hn
      rw [if_pos rfl, hW2, next_setNext_self _ _ _ (hlen1 ▸ hp_lt)]
    · rw [if_neg hn, hW2, next_setNext_ne _ _ _ _ (fun e => hn e.symm), hW1, next_setPrev]
  have f_prev : ∀ n, (getNode w' n).prev =
      if n = h then none else if n = q then some p else (getNode w n).prev := by
    intro n
    by_cases hn : n = h
    · subst hn
      rw [if_pos rfl, hw', prev_setPrev_self _ _ _ (hlen2 ▸ hh_lt)]
    · rw [if_neg hn, hw', prev_setPrev_ne _ _ _ _ (fun e => hn e.symm), hW2, prev_setNext]
      by_cases hnq : n = q
      · subst hnq
        rw [if_pos rfl, hW1, prev_setPrev_self _ _ _ hq_lt]
      · rw [if_neg hnq, hW1, prev_setPrev_ne _ _ _ _ (fun e => hnq e.symm)]
  have f_blocked : ∀ n, (getNode w' n).blocked = (getNode w n).blocked := by
    intro n
    rw [hw', blocked_setPrev, hW2, blocked_setNext, hW1, blocked_setPrev]
  have f_act : ∀ n, (getNode w' n).act = (getNode w n).act := by
    intro n
    rw [hw', act_setPrev, hW2, act_setNext, hW1, act_setPrev]
  have f_full : ∀ n, n ≠ h → n ≠ p → n ≠ q → getNode w' n = getNode w n := by
    intro n h1 h2 h3
    rw [hw', setPrev, getNode_updNode_ne _ _ _ _ (fun e => h1 e.symm),
      hW2, setNext, getNode_updNode_ne _ _ _ _ (fun e => h2 e.symm),
      hW1, setPrev, getNode_updNode_ne _ _ _ _ (fun e => h3 e.symm)]
  have hhin1 : sg.headId ∉ ids1 := fun hc => hhin (by simp [hc])
  have hnd2 : ids2.Nodup := (List.nodup_cons.mp hnd2').2
  have hb1 : sg.tailId ∉ ids1 := fun hc => htin (by simp [hc])
  have hb2 : sg.tailId ∉ ids2 := fun hc => htin (by simp [hc])
  have hqid1 : q ∉ ids1 := by
    rcases hqmem with hm | he
    · exact fun hc => hdisj hc (by simp [hm])
    · exact he ▸ hb1
  have hpid2 : p ∉ ids2 := by
    rcases List.mem_cons.mp hpmem with he | hm
    · exact fun hc => hhin (by rw [← he]; simp [hc])
    · exact fun hc => hdisj hm (by simp [hc])
  have hdl' : dlinkedB w' sg.headId (ids1 ++ ids2) sg.tailId = true := by
    apply dlinked_after_disconnect w w' sg.headId sg.tailId h ids1 ids2 hdl1 hdl2
      hhin1 hnd1 hnd2 hb1 hb2 (fun e => htailh e.symm) hh1 hh2 hqid1 hpid2 hpq
    · exact fun n h1 h2 h3 => f_full n h1 h2 h3
    · exact fun n hne => by rw [f_next n, if_neg hne]
    · exact fun n h1 h2 => by rw [f_prev n, if_neg h1, if_neg h2]
    · rw [f_next p, if_pos rfl]
    · rw [f_prev q, if_neg hqh, if_pos rfl]
  have hgood' : goodSigB w' sg (ids1 ++ ids2) = true := by
    have hhp' : (getNode w' sg.headId).prev = none := by
      rw [f_prev sg.headId, if_neg (fun e => hheadh e.symm),
        if_neg (fun e => hqhead e.symm)]
      exact hhp0
    have htn' : (getNode w' sg.tailId).next = none := by
      rw [f_next sg.tailId, if_neg (fun e => hptail e.symm)]
      exact htn0
    have hsub : (ids1 ++ ids2).Sublist (ids1 ++ h :: ids2) :=
      List.Sublist.append_left (List.sublist_cons_self h ids2) ids1
    have hnd' : (sg.headId :: sg.tailId :: (ids1 ++ ids2)).Nodup := by
      rw [List.nodup_cons, List.nodup_cons]
      refine ⟨?_, ?_, hnd.sublist hsub⟩
      · intro hc
        rcases List.mem_cons.mp hc with he | hm
        · exact hht he
        · exact hhin (hsub.mem hm)
      · intro hc
        exact htin (hsub.mem hc)
    simp only [goodSigB, Bool.and_eq_true, beq_iff_eq]
    refine ⟨⟨⟨⟨hdl', hhp'⟩, htn'⟩, (nodupB_iff _).mpr hnd'⟩, ?_⟩
    rw [List.all_eq_true]
    intro n hn
    rw [hlen']
    simp only [decide_eq_true_eq]
    rcases List.mem_cons.mp hn with he | hn2
    · exact he ▸ hbh
    · rcases List.mem_cons.mp hn2 with he | hn3
      · exact he ▸ hbt
      · exact hbound n (by
          rcases List.mem_append.mp hn3 with hm | hm
          · simp [hm]
          · simp [hm])
  rw [hdis]
  refine ⟨hgood', ?_, ?_, hlen', ?_, ?_, ?_, ?_, ?_, ?_⟩
  · rw [f_prev h, if_pos rfl]
  · rw [f_next h, if_neg (fun e => hph e.symm)]
  · rw [hw', setPrev, sigs_updNode, hW2, setNext, sigs_updNode, hW1, setPrev, sigs_updNode]
  · rw [hw', setPrev, tl_updNode, hW2, setNext, tl_updNode, hW1, setPrev, tl_updNode]
  · intro n hc
    rw [isConnected, f_prev n] at hc
    by_cases h1 : n = h
    · rw [if_pos h1] at hc
      simp at hc
    · rw [if_neg h1] at hc
      by_cases h2 : n = q
      · rw [h2, isConnected, hqp]
        rfl
      · rw [if_neg h2] at hc
        exact hc
  · intro n hne
    rw [f_next n, if_neg hne]
  · intro n
    exact ⟨f_blocked n, f_act n⟩
  · intro n h1 hc
    rw [isConnected, f_prev n, if_neg h1]
    by_cases h2 : n = q
    · rw [if_pos h2]
      rfl
    · rw [if_neg h2]
      exact hc

/-! ### Connecting a new node -/

theorem getNode_append (w : World) (nd : Node) (n : Nat) :
    getNode { w with heap := w.heap ++ [nd] } n =
      if n = w.heap.length then nd else getNode w n := by
  by_cases h : n = w.heap.length
  · subst h
    simp [getNode, getD_append_self]
  · rw [if_neg h]
    rcases Nat.lt_or_ge n w.heap.length with hlt | hge
    · exact getD_append_lt _ _ _ _ hlt
    · have hgt : w.heap.length < n := Nat.lt_of_le_of_ne hge (fun e => h e.symm)
      show (w.heap ++ [nd]).getD n dfltNode = w.heap.getD n dfltNode
      rw [List.getD_eq_default _ _ (by simp [Nat.succ_le_of_lt hgt]),
        List.getD_eq_default _ _ (Nat.le_of_lt hgt)]

/-- Field-level description of `signal::make_link(l, act)` when `l->prev` is
the node `p`. -/
theorem makeLink_fields (w : World) (l : Nat) (act : SlotAct) (p : Nat)
    (hlp : (getNode w l).prev = some p)
    (hpl : p < w.heap.length) (hll : l < w.heap.length) :
    (makeLink w l act).2 = w.heap.length ∧
    (makeLink w l act).1.heap.length = w.heap.length + 1 ∧
    (makeLink w l act).1.sigs = w.sigs ∧
    (makeLink w l act).1.tl = w.tl ∧
    getNode (makeLink w l act).1 w.heap.length =
      { prev := some p, next := some l, blocked := false, act := act } ∧
    (getNode (makeLink w l act).1 p).next = some w.heap.length ∧
    (getNode (makeLink w l act).1 l).prev = some w.heap.length ∧
    (∀ n, n ≠ p → n ≠ w.heap.length →
      (getNode (makeLink w l act).1 n).next = (getNode w n).next) ∧
    (∀ n, n ≠ l → n ≠ w.heap.length →
      (getNode (makeLink w l act).1 n).prev = (getNode w n).prev) ∧
    (∀ n, n ≠ w.heap.length →
      (getNode (makeLink w l act).1 n).blocked = (getNode w n).blocked ∧
      (getNode (makeLink w l act).1 n).act = (getNode w n).act) ∧
    (∀ n, n ≠ p → n ≠ l → n ≠ w.heap.length →
      getNode (makeLink w l act).1 n = getNode w n) := by
  have hpnew : p ≠ w.heap.length := Nat.ne_of_lt hpl
  have hlnew : l ≠ w.heap.length := Nat.ne_of_lt hll
  set newId := w.heap.length with hnew
  set nd : Node := { prev := some p, next := some l, blocked := false, act := act }
    with hnd
  set w1 : World := { w with heap := w.heap ++ [nd] } with hw1def
  have hw1 : (makeLink w l act) =
      (setPrev (setNext w1 p (some newId)) l (some newId), newId) := by
    unfold makeLink
    rw [hlp]
  have hlen1 : w1.heap.length = w.heap.length + 1 := by simp [hw1def]
  have hg1 : ∀ n, getNode w1 n = if n = newId then nd else getNode w n :=
    fun n => getNode_append w nd n
  set w2 := setNext w1 p (some newId) with hw2
  set w3 := setPrev w2 l (some newId) with hw3
  have hlen2 : w2.heap.length = w1.heap.length := heap_length_setNext _ _ _
  have hlen3 : w3.heap.length = w2.heap.length := heap_length_setPrev _ _ _
  rw [hw1]
  refine ⟨rfl, ?_, ?_, ?_, ?_, ?_, ?_, ?_, ?_, ?_, ?_⟩
  · rw [hlen3, hlen2, hlen1]
  · rw [hw3, setPrev, sigs_updNode, hw2, setNext, sigs_updNode, hw1def]
  · rw [hw3, setPrev, tl_updNode, hw2, setNext, tl_updNode, hw1def]
  · rw [hw3, setPrev, getNode_updNode_ne _ _ _ _ (fun e => hlnew (by rw [e])),
      hw2, setNext, getNode_updNode_ne _ _ _ _ (fun e => hpnew (by rw [e])),
      hg1 newId, if_pos rfl]
  · rw [hw3, next_setPrev, hw2,
      next_setNext_self _ _ _ (by rw [hlen1]; exact Nat.lt_succ_of_lt hpl)]
  · rw [hw3, prev_setPrev_self _ _ _
      (by rw [hlen2, hlen1]; exact Nat.lt_succ_of_lt hll)]
  · intro n hnp hnn
    rw [hw3, next_setPrev, hw2, next_setNext_ne _ _ _ _ (fun e => hnp e.symm),
      hg1 n, if_neg hnn]
  · intro n hnl hnn
    rw [hw3, prev_setPrev_ne _ _ _ _ (fun e => hnl e.symm), hw2, prev_setNext,
      hg1 n, if_neg hnn]
  · intro n hnn
    constructor
    · rw [hw3, blocked_setPrev, hw2, blocked_setNext, hg1 n, if_neg hnn]
    · rw [hw3, act_setPrev, hw2, act_setNext, hg1 n, if_neg hnn]
  · intro n hnp hnl hnn
    rw [hw3, setPrev, getNode_updNode_ne _ _ _ _ (fun e => hnl e.symm),
      hw2, setNext, getNode_updNode_ne _ _ _ _ (fun e => hnp e.symm),
      hg1 n, if_neg hnn]

theorem dlinked_congr_fields (w w' : World) :
    ∀ (ids : List Nat) (a b : Nat),
    (∀ n ∈ ids, (getNode w' n).next = (getNode w n).next ∧
      (getNode w' n).prev = (getNode w n).prev) →
    (getNode w' a).next = (getNode w a).next →
    (getNode w' b).prev = (getNode w b).prev →
    dlinkedB w a ids b = true → dlinkedB w' a ids b = true := by
  intro ids
  induction ids with
  | nil =>
    intro a b _ hna hpb h
    simp only [dlinkedB, Bool.and_eq_true, beq_iff_eq] at h ⊢
    rw [hna, hpb]
    exact h
  | cons x xs ih =>
    intro a b hint hna hpb h
    simp only [dlinkedB, Bool.and_eq_true, beq_iff_eq] at h ⊢
    obtain ⟨⟨h1, h2⟩, h3⟩ := h
    refine ⟨⟨by rw [hna]; exact h1, by rw [(hint x (by simp)).2]; exact h2⟩, ?_⟩
    exact ih x b (fun n hn => hint n (by simp [hn]))
      (hint x (by simp)).1 hpb h3

theorem dlinked_swap_front (w w' : World) (ids : List Nat) (a a' b : Nat)
    (hdl : dlinkedB w a ids b = true)
    (hb : b ∉ ids) (hnd : ids.Nodup)
    (hnint : ∀ n ∈ ids, (getNode w' n).next = (getNode w n).next)
    (hpint : ∀ n ∈ ids ++ [b], n ≠ firstAnchor b ids →
      (getNode w' n).prev = (getNode w n).prev)
    (hfn : (getNode w' a').next = some (firstAnchor b ids))
    (hfp : (getNode w' (firstAnchor b ids)).prev = some a') :
    dlinkedB w' a' ids b = true := by
  cases ids with
  | nil =>
    simp only [firstAnchor] at hfn hfp
    simp [dlinkedB, hfn, hfp]
  | cons y rest =>
    have hfa : firstAnchor b (y :: rest) = y := rfl
    simp only [dlinkedB, Bool.and_eq_true, beq_iff_eq] at hdl ⊢
    obtain ⟨⟨h1, h2⟩, h3⟩ := hdl
    refine ⟨⟨by rw [hfn]; rfl, by rw [hfa] at hfp; exact hfp⟩, ?_⟩
    apply dlinked_congr_fields w w' rest y b
    · intro n hn
      have hy_not : y ∉ rest := (List.nodup_cons.mp hnd).1
      refine ⟨hnint n (by simp [hn]), hpint n (by simp [hn]) ?_⟩
      rw [hfa]
      exact fun e => hy_not (e ▸ hn)
    · exact hnint y (by simp)
    · refine hpint b (by simp) ?_
      rw [hfa]
      exact fun e => hb (by rw [e]; simp)
    · exact h3

/-- Effect of `signal::connect(slot, flags)` on a well-formed signal: the new
node is linked right after `head` (`connect_as_first_slot`) or right before
`tail` (default), everything else is untouched, and no disconnected node
becomes connected. -/
theorem connect_chain (w : World) (i : Nat) (sg : Sig) (ids : List Nat)
    (asFirst : Bool) (act : SlotAct)
    (hsg : w.sigs.get? i = some sg)
    (hgood : goodSigB w sg ids = true) :
    goodSigB (connect w i asFirst act).1 sg
      (cond asFirst (w.heap.length :: ids) (ids ++ [w.heap.length])) = true ∧
    (connect w i asFirst act).2 = w.heap.length ∧
    (connect w i asFirst act).1.heap.length = w.heap.length + 1 ∧
    (connect w i asFirst act).1.sigs = w.sigs ∧
    (connect w i asFirst act).1.tl = w.tl ∧
    getNode (connect w i asFirst act).1 w.heap.length =
      { prev := some (cond asFirst sg.headId (lastAnchor sg.headId ids)),
        next := some (cond asFirst (firstAnchor sg.tailId ids) sg.tailId),
        blocked := false, act := act } ∧
    (∀ n, isConnected (connect w i asFirst act).1 n = true →
      isConnected w n = true ∨ n = w.heap.length) ∧
    (∀ n, isConnected w n = true →
      isConnected (connect w i asFirst act).1 n = true) ∧
    (∀ n, n ≠ w.heap.length →
      (getNode (connect w i asFirst act).1 n).blocked = (getNode w n).blocked ∧
      (getNode (connect w i asFirst act).1 n).act = (getNode w n).act) ∧
    (∀ n, n ≠ cond asFirst sg.headId (lastAnchor sg.headId ids) →
      n ≠ w.heap.length →
      (getNode (connect w i asFirst act).1 n).next = (getNode w n).next) := by
  obtain ⟨hdl, hhp0, htn0, hhin, htin, hht, hnd, hbound, hbh, hbt⟩ :=
    goodSig_parts w sg ids hgood
  have hoob : getNode w w.heap.length = dfltNode :=
    List.getD_eq_default _ _ (Nat.le_refl _)
  have hnotc_new : isConnected w w.heap.length = false := by
    rw [isConnected, hoob]
    rfl
  cases asFirst with
  | true =>
    have hq0 : (getNode w sg.headId).next = some (firstAnchor sg.tailId ids) :=
      dlinked_next_first w sg.headId sg.tailId ids hdl
    set q0 := firstAnchor sg.tailId ids with hq0def
    have hq0p : (getNode w q0).prev = some sg.headId :=
      dlinked_prev_first w sg.headId sg.tailId ids hdl
    have hq0mem : q0 ∈ ids ∨ q0 = sg.tailId := firstAnchor_mem sg.tailId ids
    have hq0lt : q0 < w.heap.length := by
      rcases hq0mem with hm | he
      · exact hbound q0 hm
      · exact he ▸ hbt
    have hq0head : q0 ≠ sg.headId := by
      rcases hq0mem with hm | he
      · exact fun e => hhin (e ▸ hm)
      · exact he ▸ fun e => hht e.symm
    have hconn : connect w i true act = makeLink w q0 act := by
      unfold connect
      rw [hsg]
      simp only [cond_true, hq0, Option.getD_some]
      rfl
    obtain ⟨hm2, hmlen, hmsigs, hmtl, hmnew, hmpn, hmlp, hmnext, hmprev, hmba, hmfull⟩ :=
      makeLink_fields w q0 act sg.headId hq0p hbh hq0lt
    rw [hconn]
    have hnewlt : ∀ n ∈ sg.headId :: sg.tailId :: ids, n ≠ w.heap.length := by
      intro n hn
      rcases List.mem_cons.mp hn with he | hn2
      · exact he ▸ Nat.ne_of_lt hbh
      · rcases List.mem_cons.mp hn2 with he | hn3
        · exact he ▸ Nat.ne_of_lt hbt
        · exact Nat.ne_of_lt (hbound n hn3)
    have hdl' : dlinkedB (makeLink w q0 act).1 sg.headId (w.heap.length :: ids)
        sg.tailId = true := by
      simp only [dlinkedB, Bool.and_eq_true, beq_iff_eq]
      refine ⟨⟨hmpn, by rw [hmnew]⟩, ?_⟩
      apply dlinked_swap_front w (makeLink w q0 act).1 ids sg.headId w.heap.length
        sg.tailId hdl htin hnd
      · intro n hn
        exact hmnext n (fun e => hhin (e ▸ hn)) (hnewlt n (by simp [hn]))
      · intro n hn hne
        refine hmprev n hne (hnewlt n ?_)
        rcases List.mem_append.mp hn with hm | hm
        · simp [hm]
        · simp at hm
          simp [hm]
      · rw [hmnew]
      · exact hmlp
    refine ⟨?_, hm2, hmlen, hmsigs, hmtl, by rw [hmnew]; rfl, ?_, ?_, hmba, ?_⟩
    · simp only [goodSigB, cond_true, Bool.and_eq_true, beq_iff_eq]
      refine ⟨⟨⟨⟨hdl', ?_⟩, ?_⟩, ?_⟩, ?_⟩
      · rw [hmprev sg.headId (fun e => hq0head e.symm) (Nat.ne_of_lt hbh)]
        exact hhp0
      · rw [hmnext sg.tailId (fun e => hht e.symm) (Nat.ne_of_lt hbt)]
        exact htn0
      · rw [nodupB_iff]
        rw [List.nodup_cons, List.nodup_cons, List.nodup_cons]
        refine ⟨?_, ?_, ?_, hnd⟩
        · intro hc
          rcases List.mem_cons.mp hc with he | hc2
          · exact hht he
          · rcases List.mem_cons.mp hc2 with he | hc3
            · exact Nat.ne_of_lt hbh he
            · exact hhin hc3
        · intro hc
          rcases List.mem_cons.mp hc with he | hc2
          · exact Nat.ne_of_lt hbt he
          · exact htin hc2
        · intro hc
          exact Nat.ne_of_lt (hbound _ hc) rfl
      · rw [List.all_eq_true]
        intro n hn
        rw [hmlen]
        simp only [decide_eq_true_eq]
        rcases List.mem_cons.mp hn with he | hn2
        · exact he ▸ Nat.lt_succ_of_lt hbh
        · rcases List.mem_cons.mp hn2 with he | hn3
          · exact he ▸ Nat.lt_succ_of_lt hbt
          · rcases List.mem_cons.mp hn3 with he | hn4
            · exact he ▸ Nat.lt_succ_self _
            · exact Nat.lt_succ_of_lt (hbound n hn4)
    · intro n hc
      by_cases hnn : n = w.heap.length
      · exact Or.inr hnn
      · by_cases hnq : n = q0
        · subst hnq
          exact Or.inl (by rw [isConnected, hq0p]; rfl)
        · left
          rw [isConnected, hmprev n hnq hnn] at hc
          exact hc
    · intro n hc
      by_cases hnq : n = q0
      · subst hnq
        rw [isConnected, hmlp]
        rfl
      · by_cases hnn : n = w.heap.length
        · rw [hnn, hnotc_new] at hc
          simp at hc
        · rw [isConnected, hmprev n hnq hnn]
          exact hc
    · intro n h1 h2
      exact hmnext n h1 h2
  | false =>
    have hp0 := dlinked_last w sg.tailId ids sg.headId hdl
    set p0 := lastAnchor sg.headId ids with hp0def
    have hp0n : (getNode w p0).next = some sg.tailId := hp0.1
    have htp : (getNode w sg.tailId).prev = some p0 := hp0.2
    have hp0mem : p0 ∈ sg.headId :: ids := lastAnchor_mem sg.headId ids
    have hp0lt : p0 < w.heap.length := by
      rcases List.mem_cons.mp hp0mem with he | hm
      · exact he ▸ hbh
      · exact hbound p0 hm
    have hp0tail : p0 ≠ sg.tailId := by
      rcases List.mem_cons.mp hp0mem with he | hm
      · exact he ▸ hht
      · exact fun e => htin (e ▸ hm)
    have hconn : connect w i false act = makeLink w sg.tailId act := by
      unfold connect
      rw [hsg]
      simp
    obtain ⟨hm2, hmlen, hmsigs, hmtl, hmnew, hmpn, hmlp, hmnext, hmprev, hmba, hmfull⟩ :=
      makeLink_fields w sg.tailId act p0 htp hp0lt hbt
    rw [hconn]
    have hnewlt : ∀ n ∈ sg.headId :: sg.tailId :: ids, n ≠ w.heap.length := by
      intro n hn
      rcases List.mem_cons.mp hn with he | hn2
      · exact he ▸ Nat.ne_of_lt hbh
      · rcases List.mem_cons.mp hn2 with he | hn3
        · exact he ▸ Nat.ne_of_lt hbt
        · exact Nat.ne_of_lt (hbound n hn3)
    have hdl' : dlinkedB (makeLink w sg.tailId act).1 sg.headId
        (ids ++ [w.heap.length]) sg.tailId = true := by
      apply (dlinked_split (makeLink w sg.tailId act).1 sg.tailId ids sg.headId
        w.heap.length []).mpr
      constructor
      · apply dlinked_swap_end w (makeLink w sg.tailId act).1 ids sg.headId
          sg.tailId w.heap.length hdl hhin hnd
        · intro n hn hne
          refine hmnext n hne (hnewlt n ?_)
          rcases List.mem_cons.mp hn with he | hm
          · simp [he]
          · simp [hm]
        · intro n hn
          exact hmprev n (fun e => htin (e ▸ hn)) (hnewlt n (by simp [hn]))
        · exact hmpn
        · rw [hmnew]
      · simp only [dlinkedB, Bool.and_eq_true, beq_iff_eq]
        exact ⟨by rw [hmnew], hmlp⟩
    refine ⟨?_, hm2, hmlen, hmsigs, hmtl, by rw [hmnew]; rfl, ?_, ?_, hmba, ?_⟩
    · simp only [goodSigB, cond_false, Bool.and_eq_true, beq_iff_eq]
      refine ⟨⟨⟨⟨hdl', ?_⟩, ?_⟩, ?_⟩, ?_⟩
      · rw [hmprev sg.headId (fun e => hht e) (Nat.ne_of_lt hbh)]
        exact hhp0
      · rw [hmnext sg.tailId (fun e => hp0tail e.symm) (Nat.ne_of_lt hbt)]
        exact htn0
      · rw [nodupB_iff]
        rw [List.nodup_cons, List.nodup_cons]
        refine ⟨?_, ?_, ?_⟩
        · intro hc
          rcases List.mem_cons.mp hc with he | hc2
          · exact hht he
          · rcases List.mem_append.mp hc2 with hm | hm
            · exact hhin hm
            · simp at hm
              exact Nat.ne_of_lt hbh hm
        · intro hc
          rcases List.mem_append.mp hc with hm | hm
          · exact htin hm
          · simp at hm
            exact Nat.ne_of_lt hbt hm
        · rw [List.nodup_append]
          refine ⟨hnd, by simp, ?_⟩
          intro n hn
          simp only [List.mem_singleton]
          exact fun e => Nat.ne_of_lt (hbound n hn) e
      · rw [List.all_eq_true]
        intro n hn
        rw [hmlen]
        simp only [decide_eq_true_eq]
        rcases List.mem_cons.mp hn with he | hn2
        · exact he ▸ Nat.lt_succ_of_lt hbh
        · rcases List.mem_cons.mp hn2 with he | hn3
          · exact he ▸ Nat.lt_succ_of_lt hbt
          · rcases List.mem_append.mp hn3 with hm | hm
            · exact Nat.lt_succ_of_lt (hbound n hm)
            · simp at hm
              exact hm ▸ Nat.lt_succ_self _
    · intro n hc
      by_cases hnn : n = w.heap.length
      · exact Or.inr hnn
      · by_cases hnt : n = sg.tailId
        · subst hnt
          exact Or.inl (by rw [isConnected, htp]; rfl)
        · left
          rw [isConnected, hmprev n hnt hnn] at hc
          exact hc
    · intro n hc
      by_cases hnt : n = sg.tailId
      · subst hnt
        rw [isConnected, hmlp]
        rfl
      · by_cases hnn : n = w.heap.length
        · rw [hnn, hnotc_new] at hc
          simp at hc
        · rw [isConnected, hmprev n hnt hnn]
          exact hc
    · intro n h1 h2
      exact hmnext n h1 h2

/-! ### Heap operations commute with thread-local updates -/

theorem getNode_withTL (w : World) (t : TL) (n : Nat) :
    getNode { w with tl := t } n = getNode w n := rfl

theorem makeLink_withTL (w : World) (t : TL) (l : Nat) (a : SlotAct) :
    makeLink { w with tl := t } l a =
      ({ (makeLink w l a).1 with tl := t }, (makeLink w l a).2) := by
  unfold makeLink
  simp only [getNode_withTL]
  cases hlp : (getNode w l).prev with
  | none => rfl
  | some p => rfl

theorem connect_withTL (w : World) (t : TL) (i : Nat) (f : Bool) (a : SlotAct) :
    connect { w with tl := t } i f a =
      ({ (connect w i f a).1 with tl := t }, (connect w i f a).2) := by
  unfold connect
  show (match w.sigs.get? i with
    | none => ({ w with tl := t }, 0)
    | some sg => _) = _
  cases hsg : w.sigs.get? i with
  | none => rfl
  | some sg =>
    simp only [getNode_withTL]
    exact makeLink_withTL w t _ a

theorem disconnectNode_withTL (w : World) (t : TL) (n : Nat) :
    disconnectNode { w with tl := t } n = { disconnectNode w n with tl := t } := by
  unfold disconnectNode
  simp only [getNode_withTL]
  cases hp : (getNode w n).prev with
  | none => rfl
  | some p =>
    cases hq : (getNode w n).next with
    | none => rfl
    | some q => rfl

theorem setCurrentConn_eq_withTL (w : World) (c : Option Nat) :
    setCurrentConn w c = { w with tl := { currentConn := c, aborted := w.tl.aborted } } := rfl

theorem setAborted_eq_withTL (w : World) (b : Bool) :
    setAborted w b = { w with tl := { currentConn := w.tl.currentConn, aborted := b } } := rfl

/-! ### Single steps of the emission loop -/

/-- A well-linked segment hanging between two chain nodes, as walked by the
loop: from `a.next` the walk visits exactly `ids` and then stands at `e`. -/
theorem dlinked_seg_to (w : World) (tl : Nat) :
    ∀ (ids : List Nat) (a e : Nat), dlinkedB w a ids e = true →
    (∀ n ∈ ids, n ≠ tl) →
    segB w tl ((getNode w a).next.getD tl) ids e = true := by
  intro ids
  induction ids with
  | nil =>
    intro a e hdl _
    simp only [dlinkedB, Bool.and_eq_true, beq_iff_eq] at hdl
    rw [hdl.1]
    simp [segB]
  | cons x xs ih =>
    intro a e hdl hnb
    simp only [dlinkedB, Bool.and_eq_true, beq_iff_eq] at hdl
    obtain ⟨⟨hax, _⟩, hrest⟩ := hdl
    rw [hax]
    have h1 : (x == x : Bool) = true := by simp
    have h2 : (!(x == tl)) = true := by simp [hnb x (by simp)]
    simp only [Option.getD_some, segB, h1, h2, Bool.true_and, Bool.and_true]
    exact ih x e hrest (fun n hn => hnb n (by simp [hn]))

/-- One executing step of the emission loop: the node at `cur` is connected
and unblocked, its body runs inside a `connection_scope`, the emission is not
aborted afterwards, and the loop advances through the re-read `next`. -/
theorem runLoop_exec_step (nested : World → Nat → Int → Option (World × Bool))
    (fuel : Nat) (w : World) (i : Nat) (arg : Int) (cur tl : Nat)
    (vals : List Int) (execs : List Nat) (err : Bool)
    (w2 w3 : World) (v : Int) (e : Bool) (nxt : Nat)
    (hne : cur ≠ tl)
    (hconn : isConnected w cur = true)
    (hunb : (getNode w cur).blocked = false)
    (hact : runAct nested (setCurrentConn w (some cur)) i arg (getNode w cur).act
      = some (w2, some v, e))
    (hw3 : setCurrentConn w2 w.tl.currentConn = w3)
    (hab : w3.tl.aborted = false)
    (hnxt : (getNode w3 cur).next = some nxt) :
    runLoop nested (fuel + 1) w i arg cur tl vals execs err =
      runLoop nested fuel w3 i arg nxt tl (vals ++ [v]) (execs ++ [cur]) (err || e) := by
  have hlive : ((getNode w cur).prev.isSome && !(getNode w cur).blocked) = true := by
    rw [isConnected] at hconn
    rw [hconn, hunb]
    rfl
  rw [runLoop, if_neg hne]
  simp only []
  simp only [hlive, if_true]
  rw [hact]
  simp only []
  rw [hw3]
  rw [hab, if_neg (by simp)]
  rw [hnxt]
  simp only [Option.getD_some]

/-- One executing step after which the emission stands aborted: the loop
stops at once, keeping the world the slot body produced. -/
theorem runLoop_abort_step (nested : World → Nat → Int → Option (World × Bool))
    (fuel : Nat) (w : World) (i : Nat) (arg : Int) (cur tl : Nat)
    (vals : List Int) (execs : List Nat) (err : Bool)
    (w2 w3 : World) (v : Int) (e : Bool)
    (hne : cur ≠ tl)
    (hconn : isConnected w cur = true)
    (hunb : (getNode w cur).blocked = false)
    (hact : runAct nested (setCurrentConn w (some cur)) i arg (getNode w cur).act
      = some (w2, some v, e))
    (hw3 : setCurrentConn w2 w.tl.currentConn = w3)
    (hab : w3.tl.aborted = true) :
    runLoop nested (fuel + 1) w i arg cur tl vals execs err =
      some ⟨w3, vals ++ [v], execs ++ [cur], err || e⟩ := by
  have hlive : ((getNode w cur).prev.isSome && !(getNode w cur).blocked) = true := by
    rw [isConnected] at hconn
    rw [hconn, hunb]
    rfl
  rw [runLoop, if_neg hne]
  simp only []
  simp only [hlive, if_true]
  rw [hact]
  simp only []
  rw [hw3]
  rw [hab, if_pos rfl]

/-! ### C2: connecting a slot while the emission is in progress -/

/-- An emission during which slot `c` connects a new slot with
`connect_as_first_slot`: the walk executes exactly the pre-existing chain
`ids1 ++ c :: ids2` — not the new node — and ends in the world the connect
produced. -/
theorem connect_front_emission (w : World) (i : Nat) (arg : Int) (sg : Sig)
    (ids1 ids2 : List Nat) (c : Nat) (vn vc : Int) (k : Nat)
    (hsg : w.sigs.get? i = some sg)
    (hgood : goodSigB w sg (ids1 ++ c :: ids2) = true)
    (hret : ∀ n ∈ ids1 ++ ids2, isRet (getNode w n).act = true)
    (hunb : ∀ n ∈ ids1 ++ c :: ids2, (getNode w n).blocked = false)
    (hact : (getNode w c).act = .connectFront (.ret vn) vc) :
    ∃ vs, invoke (ids1.length + (1 + (ids2.length + (k + 1))) + 1) w i arg =
      some ⟨(connect w i true (.ret vn)).1, vs, ids1 ++ c :: ids2, false⟩ := by
  obtain ⟨hdl, hhp, htn, hhin, htin, hht, hnd, hbound, hbh, hbt⟩ :=
    goodSig_parts w sg (ids1 ++ c :: ids2) hgood
  have hcmem : c ∈ ids1 ++ c :: ids2 := by simp
  have hclt : c < w.heap.length := hbound c hcmem
  have hchead : c ≠ sg.headId := fun e => hhin (e ▸ hcmem)
  have hctail : c ≠ sg.tailId := fun e => htin (e ▸ hcmem)
  obtain ⟨hdl1, hdl2⟩ := (dlinked_split w sg.tailId ids1 sg.headId c ids2).mp hdl
  have hcp : (getNode w c).prev = some (lastAnchor sg.headId ids1) :=
    (dlinked_last w c ids1 sg.headId hdl1).2
  obtain ⟨hgood2, hnew2, hlen2, hsigs2, htl2, hnode2, hto, hfrom, hba2, hnx2⟩ :=
    connect_chain w i sg (ids1 ++ c :: ids2) true (.ret vn) hsg hgood
  simp only [Bool.cond_true] at hgood2 hnode2 hnx2
  obtain ⟨hdl', _, _, _, _, _, _, hbound', _, _⟩ :=
    goodSig_parts _ sg (w.heap.length :: (ids1 ++ c :: ids2)) hgood2
  have hdlsplit : dlinkedB (connect w i true (.ret vn)).1 sg.headId
      ((w.heap.length :: ids1) ++ c :: ids2) sg.tailId = true := hdl'
  obtain ⟨_, hdl2'⟩ := (dlinked_split (connect w i true (.ret vn)).1 sg.tailId
    (w.heap.length :: ids1) sg.headId c ids2).mp hdlsplit
  -- the prefix before c
  have hids1tl : ∀ n ∈ ids1, n ≠ sg.tailId :=
    fun n hn e => htin (e ▸ List.mem_append_left _ hn)
  have hseg1 : segB w sg.tailId ((getNode w sg.headId).next.getD sg.tailId) ids1 c
      = true := dlinked_seg_to w sg.tailId ids1 sg.headId c hdl1 hids1tl
  have hseg1' : segB (setAborted w false) sg.tailId
      ((getNode (setAborted w false) sg.headId).next.getD sg.tailId) ids1 c = true := by
    rw [segB_congr (setAborted w false) w sg.tailId (fun n => rfl)]
    exact hseg1
  have hinert1 : ∀ n ∈ ids1, isInert (getNode (setAborted w false) n).act = true :=
    fun n hn => isRet_inert _ (hret n (List.mem_append_left _ hn))
  have hconn1 : ∀ n ∈ ids1, isConnected w n = true :=
    dlinked_connected w c ids1 sg.headId hdl1
  have hlive1 : liveIds (setAborted w false) ids1 = ids1 :=
    liveIds_all _ _ (fun n hn => hconn1 n hn)
      (fun n hn => hunb n (List.mem_append_left _ hn))
  have herr1 : inertErr (setAborted w false) ids1 = false :=
    inertErr_of_ret _ _ (fun n hn => hret n (List.mem_append_left _ hn))
  -- the step at c
  have hconnc : isConnected (setAborted w false) c = true := by
    show (getNode w c).prev.isSome = true
    rw [hcp]
    rfl
  have hunbc : (getNode (setAborted w false) c).blocked = false :=
    hunb c hcmem
  have hract : ∀ nested, runAct nested (setCurrentConn (setAborted w false) (some c))
      i arg (getNode (setAborted w false) c).act =
      some ({ (connect w i true (.ret vn)).1 with
        tl := { currentConn := some c, aborted := false } }, some vc, false) := by
    intro nested
    show runAct nested (setCurrentConn (setAborted w false) (some c)) i arg
      (getNode w c).act = _
    rw [hact]
    show some ((connect (setCurrentConn (setAborted w false) (some c)) i true
      (.ret vn)).1, some vc, false) = _
    rw [show setCurrentConn (setAborted w false) (some c) =
      { w with tl := { currentConn := some c, aborted := false } } from rfl]
    rw [connect_withTL]
  have hw3 : setCurrentConn ({ (connect w i true (.ret vn)).1 with
      tl := { currentConn := some c, aborted := false } })
      (setAborted w false).tl.currentConn
      = setAborted (connect w i true (.ret vn)).1 false := by
    show ({ (connect w i true (.ret vn)).1 with
      tl := { currentConn := w.tl.currentConn, aborted := false } } : World) =
      { (connect w i true (.ret vn)).1 with
        tl := { currentConn := (connect w i true (.ret vn)).1.tl.currentConn
                , aborted := false } }
    rw [htl2]
  have hcnext' : (getNode (setAborted (connect w i true (.ret vn)).1 false) c).next
      = some (firstAnchor sg.tailId ids2) := by
    show (getNode (connect w i true (.ret vn)).1 c).next = _
    exact dlinked_next_first _ c sg.tailId ids2 hdl2'
  -- the suffix after c, walked in the connected world
  have hids2mem : ∀ n ∈ ids2, n ∈ ids1 ++ c :: ids2 := by
    intro n hn
    simp [hn]
  have hseg2 : segB (setAborted (connect w i true (.ret vn)).1 false) sg.tailId
      (firstAnchor sg.tailId ids2) ids2 sg.tailId = true := by
    have hw := dlinked_seg (connect w i true (.ret vn)).1 sg.tailId ids2 c hdl2'
      (fun n hn e => htin (e ▸ hids2mem n hn))
    rw [dlinked_next_first _ c sg.tailId ids2 hdl2'] at hw
    rw [segB_congr (setAborted (connect w i true (.ret vn)).1 false)
      (connect w i true (.ret vn)).1 sg.tailId (fun n => rfl)]
    simpa using hw
  have hactpres : ∀ n ∈ ids2,
      (getNode (connect w i true (.ret vn)).1 n).act = (getNode w n).act :=
    fun n hn => (hba2 n (Nat.ne_of_lt (hbound n (hids2mem n hn)))).2
  have hblkpres : ∀ n ∈ ids2,
      (getNode (connect w i true (.ret vn)).1 n).blocked = (getNode w n).blocked :=
    fun n hn => (hba2 n (Nat.ne_of_lt (hbound n (hids2mem n hn)))).1
  have hinert2 : ∀ n ∈ ids2,
      isInert (getNode (setAborted (connect w i true (.ret vn)).1 false) n).act
        = true := by
    intro n hn
    show isInert (getNode (connect w i true (.ret vn)).1 n).act = true
    rw [hactpres n hn]
    exact isRet_inert _ (hret n (List.mem_append_right _ hn))
  have hconn2 : ∀ n ∈ ids2, isConnected (connect w i true (.ret vn)).1 n = true :=
    dlinked_connected _ sg.tailId ids2 c hdl2'
  have hlive2 : liveIds (setAborted (connect w i true (.ret vn)).1 false) ids2
      = ids2 := by
    apply liveIds_all
    · intro n hn
      exact hconn2 n hn
    · intro n hn
      show (getNode (connect w i true (.ret vn)).1 n).blocked = false
      rw [hblkpres n hn]
      exact hunb n (List.mem_append_right _ (List.mem_cons_of_mem _ hn))
  have herr2 : inertErr (setAborted (connect w i true (.ret vn)).1 false) ids2
      = false := by
    apply inertErr_of_ret
    intro n hn
    show isRet (getNode (connect w i true (.ret vn)).1 n).act = true
    rw [hactpres n hn]
    exact hret n (List.mem_append_right _ hn)
  have hfin : setAborted (setAborted (connect w i true (.ret vn)).1 false)
      w.tl.aborted = (connect w i true (.ret vn)).1 := by
    show setAborted (connect w i true (.ret vn)).1 w.tl.aborted = _
    rw [← htl2]
    exact setAborted_self _
  -- assemble the emission
  rw [invoke]
  unfold invokeAux
  rw [hsg]
  simp only []
  rw [runLoop_seg _ ids1 (setAborted w false) i arg sg.tailId
    ((getNode (setAborted w false) sg.headId).next.getD sg.tailId) c [] [] false
    (1 + (ids2.length + (k + 1))) hseg1' hinert1 rfl]
  simp only [List.nil_append, Bool.false_or]
  rw [hlive1, herr1]
  rw [show 1 + (ids2.length + (k + 1)) = (ids2.length + (k + 1)) + 1 from
    Nat.add_comm _ _]
  rw [runLoop_exec_step _ (ids2.length + (k + 1)) (setAborted w false) i arg c
    sg.tailId _ ids1 false _ (setAborted (connect w i true (.ret vn)).1 false) vc
    false (firstAnchor sg.tailId ids2) hctail hconnc hunbc (hract _) hw3 rfl hcnext']
  rw [runLoop_seg _ ids2 (setAborted (connect w i true (.ret vn)).1 false) i arg
    sg.tailId (firstAnchor sg.tailId ids2) sg.tailId _ _ _ (k + 1) hseg2 hinert2 rfl]
  rw [runLoop_at_tail]
  simp only []
  rw [hlive2, herr2, hfin]
  refine ⟨inertVals (setAborted w false) arg ids1 ++ [vc] ++
    inertVals (setAborted (connect w i true (.ret vn)).1 false) arg ids2, ?_⟩
  simp

/-- An emission during which slot `c` appends a new slot with the default
flags: since the loop re-reads `current->next` after every slot, the walk
reaches the new node before `tail` and executes it, after all the
pre-existing slots. -/
theorem connect_back_emission (w : World) (i : Nat) (arg : Int) (sg : Sig)
    (ids1 ids2 : List Nat) (c : Nat) (vn vc : Int) (k : Nat)
    (hsg : w.sigs.get? i = some sg)
    (hgood : goodSigB w sg (ids1 ++ c :: ids2) = true)
    (hret : ∀ n ∈ ids1 ++ ids2, isRet (getNode w n).act = true)
    (hunb : ∀ n ∈ ids1 ++ c :: ids2, (getNode w n).blocked = false)
    (hact : (getNode w c).act = .connectBack (.ret vn) vc) :
    ∃ vs, invoke (ids1.length + (1 + (ids2.length + (k + 1))) + 1) w i arg =
      some ⟨(connect w i false (.ret vn)).1, vs,
        (ids1 ++ c :: ids2) ++ [w.heap.length], false⟩ := by
  obtain ⟨hdl, hhp, htn, hhin, htin, hht, hnd, hbound, hbh, hbt⟩ :=
    goodSig_parts w sg (ids1 ++ c :: ids2) hgood
  have hcmem : c ∈ ids1 ++ c :: ids2 := by simp
  have hclt : c < w.heap.length := hbound c hcmem
  have hchead : c ≠ sg.headId := fun e => hhin (e ▸ hcmem)
  have hctail : c ≠ sg.tailId := fun e => htin (e ▸ hcmem)
  obtain ⟨hdl1, hdl2⟩ := (dlinked_split w sg.tailId ids1 sg.headId c ids2).mp hdl
  have hcp : (getNode w c).prev = some (lastAnchor sg.headId ids1) :=
    (dlinked_last w c ids1 sg.headId hdl1).2
  obtain ⟨hgood2, hnew2, hlen2, hsigs2, htl2, hnode2, hto, hfrom, hba2, hnx2⟩ :=
    connect_chain w i sg (ids1 ++ c :: ids2) false (.ret vn) hsg hgood
  simp only [Bool.cond_false] at hgood2 hnode2 hnx2
  obtain ⟨hdl', _, _, _, _, _, _, hbound', _, _⟩ :=
    goodSig_parts _ sg ((ids1 ++ c :: ids2) ++ [w.heap.length]) hgood2
  have hdlsplit : dlinkedB (connect w i false (.ret vn)).1 sg.headId
      (ids1 ++ c :: (ids2 ++ [w.heap.length])) sg.tailId = true := by
    have : (ids1 ++ c :: ids2) ++ [w.heap.length] =
      ids1 ++ c :: (ids2 ++ [w.heap.length]) := by simp
    rw [← this]
    exact hdl'
  obtain ⟨_, hdl2'⟩ := (dlinked_split (connect w i false (.ret vn)).1 sg.tailId
    ids1 sg.headId c (ids2 ++ [w.heap.length])).mp hdlsplit
  -- the prefix before c
  have hids1tl : ∀ n ∈ ids1, n ≠ sg.tailId :=
    fun n hn e => htin (e ▸ List.mem_append_left _ hn)
  have hseg1 : segB w sg.tailId ((getNode w sg.headId).next.getD sg.tailId) ids1 c
      = true := dlinked_seg_to w sg.tailId ids1 sg.headId c hdl1 hids1tl
  have hseg1' : segB (setAborted w false) sg.tailId
      ((getNode (setAborted w false) sg.headId).next.getD sg.tailId) ids1 c = true := by
    rw [segB_congr (setAborted w false) w sg.tailId (fun n => rfl)]
    exact hseg1
  have hinert1 : ∀ n ∈ ids1, isInert (getNode (setAborted w false) n).act = true :=
    fun n hn => isRet_inert _ (hret n (List.mem_append_left _ hn))
  have hconn1 : ∀ n ∈ ids1, isConnected w n = true :=
    dlinked_connected w c ids1 sg.headId hdl1
  have hlive1 : liveIds (setAborted w false) ids1 = ids1 :=
    liveIds_all _ _ (fun n hn => hconn1 n hn)
      (fun n hn => hunb n (List.mem_append_left _ hn))
  have herr1 : inertErr (setAborted w false) ids1 = false :=
    inertErr_of_ret _ _ (fun n hn => hret n (List.mem_append_left _ hn))
  -- the step at c
  have hconnc : isConnected (setAborted w false) c = true := by
    show (getNode w c).prev.isSome = true
    rw [hcp]
    rfl
  have hunbc : (getNode (setAborted w false) c).blocked = false :=
    hunb c hcmem
  have hract : ∀ nested, runAct nested (setCurrentConn (setAborted w false) (some c))
      i arg (getNode (setAborted w false) c).act =
      some ({ (connect w i false (.ret vn)).1 with
        tl := { currentConn := some c, aborted := false } }, some vc, false) := by
    intro nested
    show runAct nested (setCurrentConn (setAborted w false) (some c)) i arg
      (getNode w c).act = _
    rw [hact]
    show some ((connect (setCurrentConn (setAborted w false) (some c)) i false
      (.ret vn)).1, some vc, false) = _
    rw [show setCurrentConn (setAborted w false) (some c) =
      { w with tl := { currentConn := some c, aborted := false } } from rfl]
    rw [connect_withTL]
  have hw3 : setCurrentConn ({ (connect w i false (.ret vn)).1 with
      tl := { currentConn := some c, aborted := false } })
      (setAborted w false).tl.currentConn
      = setAborted (connect w i false (.ret vn)).1 false := by
    show ({ (connect w i false (.ret vn)).1 with
      tl := { currentConn := w.tl.currentConn, aborted := false } } : World) =
      { (connect w i false (.ret vn)).1 with
        tl := { currentConn := (connect w i false (.ret vn)).1.tl.currentConn
                , aborted := false } }
    rw [htl2]
  have hcnext' : (getNode (setAborted (connect w i false (.ret vn)).1 false) c).next
      = some (firstAnchor sg.tailId (ids2 ++ [w.heap.length])) := by
    show (getNode (connect w i false (.ret vn)).1 c).next = _
    exact dlinked_next_first _ c sg.tailId (ids2 ++ [w.heap.length]) hdl2'
  -- the suffix after c, including the freshly appended node
  have hids2mem : ∀ n ∈ ids2, n ∈ ids1 ++ c :: ids2 := by
    intro n hn
    simp [hn]
  have hsufftl : ∀ n ∈ ids2 ++ [w.heap.length], n ≠ sg.tailId := by
    intro n hn
    rcases List.mem_append.mp hn with hm | hm
    · exact fun e => htin (e ▸ hids2mem n hm)
    · simp at hm
      subst hm
      exact fun e => Nat.ne_of_lt hbt e.symm
  have hseg2 : segB (setAborted (connect w i false (.ret vn)).1 false) sg.tailId
      (firstAnchor sg.tailId (ids2 ++ [w.heap.length])) (ids2 ++ [w.heap.length])
      sg.tailId = true := by
    have hw := dlinked_seg (connect w i false (.ret vn)).1 sg.tailId
      (ids2 ++ [w.heap.length]) c hdl2' hsufftl
    rw [dlinked_next_first _ c sg.tailId (ids2 ++ [w.heap.length]) hdl2'] at hw
    rw [segB_congr (setAborted (connect w i false (.ret vn)).1 false)
      (connect w i false (.ret vn)).1 sg.tailId (fun n => rfl)]
    simpa using hw
  have hactpres : ∀ n ∈ ids2,
      (getNode (connect w i false (.ret vn)).1 n).act = (getNode w n).act :=
    fun n hn => (hba2 n (Nat.ne_of_lt (hbound n (hids2mem n hn)))).2
  have hblkpres : ∀ n ∈ ids2,
      (getNode (connect w i false (.ret vn)).1 n).blocked = (getNode w n).blocked :=
    fun n hn => (hba2 n (Nat.ne_of_lt (hbound n (hids2mem n hn)))).1
  have hinert2 : ∀ n ∈ ids2 ++ [w.heap.length],
      isInert (getNode (setAborted (connect w i false (.ret vn)).1 false) n).act
        = true := by
    intro n hn
    show isInert (getNode (connect w i false (.ret vn)).1 n).act = true
    rcases List.mem_append.mp hn with hm | hm
    · rw [hactpres n hm]
      exact isRet_inert _ (hret n (List.mem_append_right _ hm))
    · simp at hm
      subst hm
      rw [hnode2]
      rfl
  have hconn2 : ∀ n ∈ ids2 ++ [w.heap.length],
      isConnected (connect w i false (.ret vn)).1 n = true :=
    dlinked_connected _ sg.tailId (ids2 ++ [w.heap.length]) c hdl2'
  have hlive2 : liveIds (setAborted (connect w i false (.ret vn)).1 false)
      (ids2 ++ [w.heap.length]) = ids2 ++ [w.heap.length] := by
    apply liveIds_all
    · intro n hn
      exact hconn2 n hn
    · intro n hn
      show (getNode (connect w i false (.ret vn)).1 n).blocked = false
      rcases List.mem_append.mp hn with hm | hm
      · rw [hblkpres n hm]
        exact hunb n (List.mem_append_right _ (List.mem_cons_of_mem _ hm))
      · simp at hm
        subst hm
        rw [hnode2]
  have herr2 : inertErr (setAborted (connect w i false (.ret vn)).1 false)
      (ids2 ++ [w.heap.length]) = false := by
    apply inertErr_of_ret
    intro n hn
    show isRet (getNode (connect w i false (.ret vn)).1 n).act = true
    rcases List.mem_append.mp hn with hm | hm
    · rw [hactpres n hm]
      exact hret n (List.mem_append_right _ hm)
    · simp at hm
      subst hm
      rw [hnode2]
      rfl
  have hfin : setAborted (setAborted (connect w i false (.ret vn)).1 false)
      w.tl.aborted = (connect w i false (.ret vn)).1 := by
    show setAborted (connect w i false (.ret vn)).1 w.tl.aborted = _
    rw [← htl2]
    exact setAborted_self _
  -- assemble the emission
  rw [invoke]
  unfold invokeAux
  rw [hsg]
  simp only []
  rw [runLoop_seg _ ids1 (setAborted w false) i arg sg.tailId
    ((getNode (setAborted w false) sg.headId).next.getD sg.tailId) c [] [] false
    (1 + (ids2.length + (k + 1))) hseg1' hinert1 rfl]
  simp only [List.nil_append, Bool.false_or]
  rw [hlive1, herr1]
  rw [show 1 + (ids2.length + (k + 1)) = (ids2.length + (k + 1)) + 1 from
    Nat.add_comm _ _]
  rw [runLoop_exec_step _ (ids2.length + (k + 1)) (setAborted w false) i arg c
    sg.tailId _ ids1 false _ (setAborted (connect w i false (.ret vn)).1 false) vc
    false (firstAnchor sg.tailId (ids2 ++ [w.heap.length])) hctail hconnc hunbc
    (hract _) hw3 rfl hcnext']
  rw [show ids2.length + (k + 1) = (ids2 ++ [w.heap.length]).length + k by
    simp only [List.length_append, List.length_cons, List.length_nil]
    omega]
  rw [runLoop_seg _ (ids2 ++ [w.heap.length])
    (setAborted (connect w i false (.ret vn)).1 false) i arg sg.tailId
    (firstAnchor sg.tailId (ids2 ++ [w.heap.length])) sg.tailId _ _ _ k
    hseg2 hinert2 rfl]
  rw [runLoop_at_tail]
  simp only []
  rw [hlive2, herr2, hfin]
  refine ⟨inertVals (setAborted w false) arg ids1 ++ [vc] ++
    inertVals (setAborted (connect w i false (.ret vn)).1 false) arg
      (ids2 ++ [w.heap.length]), ?_⟩
  simp

/-- C2: connecting a slot while an emission of the signal is in progress.
When chain slot `c`'s body connects a new slot with `connect_as_first_slot`
(world `wF`), the emission executes exactly the pre-existing slots
`ids1 ++ c :: ids2` — the new node, although it ends connected and linked
directly after `head`, is not executed.  When `c`'s body connects with the
default flags (world `wB`), the new node is linked before `tail` and the same
emission does execute it, after all the pre-existing slots. -/
theorem claim_C2 (wF wB : World) (i : Nat) (arg : Int) (sg : Sig)
    (ids1 ids2 : List Nat) (c : Nat) (vnF vnB vF vB : Int) (F : Nat)
    (hsgF : wF.sigs.get? i = some sg)
    (hgoodF : goodSigB wF sg (ids1 ++ c :: ids2) = true)
    (hretF : ∀ n ∈ ids1 ++ ids2, isRet (getNode wF n).act = true)
    (hunbF : ∀ n ∈ ids1 ++ c :: ids2, (getNode wF n).blocked = false)
    (hactF : (getNode wF c).act = .connectFront (.ret vnF) vF)
    (hsgB : wB.sigs.get? i = some sg)
    (hgoodB : goodSigB wB sg (ids1 ++ c :: ids2) = true)
    (hretB : ∀ n ∈ ids1 ++ ids2, isRet (getNode wB n).act = true)
    (hunbB : ∀ n ∈ ids1 ++ c :: ids2, (getNode wB n).blocked = false)
    (hactB : (getNode wB c).act = .connectBack (.ret vnB) vB)
    (hF : ids1.length + ids2.length + 3 ≤ F) :
    (∃ r, invoke F wF i arg = some r ∧
      r.execs = ids1 ++ c :: ids2 ∧
      wF.heap.length ∉ r.execs ∧
      isConnected r.world wF.heap.length = true ∧
      (getNode r.world sg.headId).next = some wF.heap.length) ∧
    (∃ r, invoke F wB i arg = some r ∧
      r.execs = (ids1 ++ c :: ids2) ++ [wB.heap.length]) := by
  obtain ⟨k, rfl⟩ : ∃ k, F = ids1.length + (1 + (ids2.length + (k + 1))) + 1 :=
    ⟨F - ids1.length - ids2.length - 3, by omega⟩
  constructor
  · obtain ⟨vs, hinv⟩ := connect_front_emission wF i arg sg ids1 ids2 c vnF vF k
      hsgF hgoodF hretF hunbF hactF
    obtain ⟨_, _, _, _, _, _, _, hbound, _, _⟩ :=
      goodSig_parts wF sg (ids1 ++ c :: ids2) hgoodF
    obtain ⟨hgood2, _, _, _, _, hnode2, _, _, _, _⟩ :=
      connect_chain wF i sg (ids1 ++ c :: ids2) true (.ret vnF) hsgF hgoodF
    simp only [Bool.cond_true] at hgood2 hnode2
    obtain ⟨hdl', _, _, _, _, _, _, _, _, _⟩ :=
      goodSig_parts _ sg (wF.heap.length :: (ids1 ++ c :: ids2)) hgood2
    refine ⟨_, hinv, rfl, ?_, ?_, ?_⟩
    · intro hmem
      exact absurd (hbound _ hmem) (lt_irrefl _)
    · show isConnected (connect wF i true (.ret vnF)).1 wF.heap.length = true
      rw [isConnected, hnode2]
      rfl
    · show (getNode (connect wF i true (.ret vnF)).1 sg.headId).next
        = some wF.heap.length
      exact dlinked_next_first _ sg.headId sg.tailId
        (wF.heap.length :: (ids1 ++ c :: ids2)) hdl'
  · obtain ⟨vs, hinv⟩ := connect_back_emission wB i arg sg ids1 ids2 c vnB vB k
      hsgB hgoodB hretB hunbB hactB
    exact ⟨_, hinv, rfl⟩

/-- C2 witness: slot 2 of the example worlds connects a new slot (heap id 4)
returning 9, as first slot in `exWorldCF` and appended in `exWorldCB`. -/
theorem claim_C2_witness :
    (exWorldCF.sigs.get? 0 = some exSig ∧
      goodSigB exWorldCF exSig ([] ++ 2 :: [3]) = true ∧
      (∀ n ∈ [] ++ [3], isRet (getNode exWorldCF n).act = true) ∧
      (∀ n ∈ [] ++ 2 :: [3], (getNode exWorldCF n).blocked = false) ∧
      (getNode exWorldCF 2).act = .connectFront (.ret 9) 1 ∧
      exWorldCB.sigs.get? 0 = some exSig ∧
      goodSigB exWorldCB exSig ([] ++ 2 :: [3]) = true ∧
      (∀ n ∈ [] ++ [3], isRet (getNode exWorldCB n).act = true) ∧
      (∀ n ∈ [] ++ 2 :: [3], (getNode exWorldCB n).blocked = false) ∧
      (getNode exWorldCB 2).act = .connectBack (.ret 9) 1 ∧
      ([] : List Nat).length + [3].length + 3 ≤ 4) ∧
    ((∃ r, invoke 4 exWorldCF 0 0 = some r ∧
      r.execs = [] ++ 2 :: [3] ∧
      exWorldCF.heap.length ∉ r.execs ∧
      isConnected r.world exWorldCF.heap.length = true ∧
      (getNode r.world exSig.headId).next = some exWorldCF.heap.length) ∧
    (∃ r, invoke 4 exWorldCB 0 0 = some r ∧
      r.execs = ([] ++ 2 :: [3]) ++ [exWorldCB.heap.length])) :=
  ⟨⟨by decide, by decide, by decide, by decide, by decide, by decide, by decide,
    by decide, by decide, by decide, by decide⟩,
    claim_C2 exWorldCF exWorldCB 0 0 exSig [] [3] 2 9 9 1 1 4 (by decide)
      (by decide) (by decide) (by decide) (by decide) (by decide) (by decide)
      (by decide) (by decide) (by decide) (by decide)⟩

/-! ### C3: permanence of disconnection -/

theorem isConnected_oob (w : World) (n : Nat) (h : w.heap.length ≤ n) :
    isConnected w n = false := by
  rw [isConnected, getNode, List.getD_eq_default _ _ h]
  rfl

theorem sigs_get_single (sg sg' : Sig) (i : Nat)
    (h : ([sg] : List Sig).get? i = some sg') : i = 0 ∧ sg' = sg := by
  cases i with
  | zero =>
    refine ⟨rfl, ?_⟩
    simpa using h.symm
  | succ j => simp at h

theorem tl_disconnectNode (w : World) (n : Nat) :
    (disconnectNode w n).tl = w.tl := by
  simp only [disconnectNode]
  cases hp : (getNode w n).prev with
  | none => rfl
  | some p =>
    cases hq : (getNode w n).next with
    | none => rfl
    | some q => rfl

theorem sigs_disconnectNode (w : World) (n : Nat) :
    (disconnectNode w n).sigs = w.sigs := by
  simp only [disconnectNode]
  cases hp : (getNode w n).prev with
  | none => rfl
  | some p =>
    cases hq : (getNode w n).next with
    | none => rfl
    | some q => rfl

theorem heap_length_disconnectNode (w : World) (n : Nat) :
    (disconnectNode w n).heap.length = w.heap.length := by
  simp only [disconnectNode]
  cases hp : (getNode w n).prev with
  | none => rfl
  | some p =>
    cases hq : (getNode w n).next with
    | none =>
      show (setPrev (setNext w p none) n none).heap.length = _
      rw [heap_length_setPrev, heap_length_setNext]
    | some q =>
      show (setPrev (setNext (setPrev w q (some p)) p (some q)) n none).heap.length = _
      rw [heap_length_setPrev, heap_length_setNext, heap_length_setPrev]

theorem dlinkedB_congr_eq (w' w : World)
    (hf : ∀ n, (getNode w' n).next = (getNode w n).next ∧
      (getNode w' n).prev = (getNode w n).prev) :
    ∀ (ids : List Nat) (a b : Nat), dlinkedB w' a ids b = dlinkedB w a ids b := by
  intro ids
  induction ids with
  | nil =>
    intro a b
    simp only [dlinkedB, (hf a).1, (hf b).2]
  | cons x xs ih =>
    intro a b
    simp only [dlinkedB, (hf a).1, (hf x).2, ih]

/-- A world transformation that keeps every link, the heap size, `sigs` and
the thread-locals preserves the whole chain well-formedness predicate. -/
theorem goodSigB_congr_links (w' w : World) (sg : Sig) (ids : List Nat)
    (hf : ∀ n, (getNode w' n).next = (getNode w n).next ∧
      (getNode w' n).prev = (getNode w n).prev)
    (hlen : w'.heap.length = w.heap.length) :
    goodSigB w' sg ids = goodSigB w sg ids := by
  unfold goodSigB
  rw [dlinkedB_congr_eq w' w hf ids _ _, (hf sg.headId).2, (hf sg.tailId).1, hlen]

theorem goodSigB_withTL (w : World) (t : TL) (sg : Sig) (ids : List Nat) :
    goodSigB { w with tl := t } sg ids = goodSigB w sg ids :=
  goodSigB_congr_links _ _ _ _ (fun _ => ⟨rfl, rfl⟩) rfl

theorem SigWorldInv_withTL (w : World) (t : TL) (sg : Sig)
    (hcc : ∀ c, t.currentConn = some c → c ≠ sg.headId ∧ c ≠ sg.tailId)
    (hinv : SigWorldInv w sg) : SigWorldInv { w with tl := t } sg := by
  obtain ⟨hsigs, ⟨ids, hgood, hcov⟩, _⟩ := hinv
  refine ⟨hsigs, ⟨ids, ?_, ?_⟩, hcc⟩
  · rw [goodSigB_withTL]
    exact hgood
  · intro n hlt hconn
    exact hcov n hlt hconn

theorem DiscInv_withTL (sg : Sig) (h : Nat) (w : World) (t : TL)
    (hcc : ∀ c, t.currentConn = some c → c ≠ sg.headId ∧ c ≠ sg.tailId)
    (hw : DiscInv sg h w) : DiscInv sg h { w with tl := t } :=
  ⟨SigWorldInv_withTL w t sg hcc hw.1, hw.2.1, hw.2.2⟩

/-- A world transformation that keeps all links, sizes, `sigs`, the
thread-locals and connectivity (such as `block` / `unblock`) preserves the
disconnected-node invariant. -/
theorem links_preserves (sg : Sig) (h : Nat) (w w' : World)
    (hf : ∀ n, (getNode w' n).next = (getNode w n).next ∧
      (getNode w' n).prev = (getNode w n).prev)
    (hlen : w'.heap.length = w.heap.length)
    (hsigs : w'.sigs = w.sigs) (htl : w'.tl = w.tl)
    (hw : DiscInv sg h w) : DiscInv sg h w' := by
  obtain ⟨⟨hs, ⟨ids, hgood, hcov⟩, hcc⟩, hd, hlt⟩ := hw
  have hic : ∀ n, isConnected w' n = isConnected w n := by
    intro n
    rw [isConnected, isConnected, (hf n).2]
  refine ⟨⟨hsigs.trans hs, ⟨ids, ?_, ?_⟩, ?_⟩, ?_, ?_⟩
  · rw [goodSigB_congr_links w' w sg ids hf hlen]
    exact hgood
  · intro n hlt' hconn
    exact hcov n (hlen ▸ hlt') ((hic n) ▸ hconn)
  · intro c hc
    exact hcc c (htl ▸ hc)
  · rw [hic h]
    exact hd
  · rw [hlen]
    exact hlt

/-- `signal::connect` preserves the disconnected-node invariant: the new node
is allocated at a fresh heap id, so an existing disconnected node stays
disconnected. -/
theorem conn_preserves (sg : Sig) (h : Nat) (w : World) (i : Nat) (f : Bool)
    (a : SlotAct) (hw : DiscInv sg h w) : DiscInv sg h (connect w i f a).1 := by
  obtain ⟨⟨hsigs, ⟨ids, hgood, hcov⟩, hcc⟩, hd, hlt⟩ := hw
  cases i with
  | succ j =>
    have hget : w.sigs.get? (j + 1) = none := by
      rw [hsigs]
      rfl
    have hcw : connect w (j + 1) f a = (w, 0) := by
      unfold connect
      rw [hget]
    rw [hcw]
    exact ⟨⟨hsigs, ⟨ids, hgood, hcov⟩, hcc⟩, hd, hlt⟩
  | zero =>
    have hget : w.sigs.get? 0 = some sg := by
      rw [hsigs]
      rfl
    obtain ⟨hgood2, hnew2, hlen2, hsigs2, htl2, hnode2, hto, hfrom, hba2, hnx2⟩ :=
      connect_chain w 0 sg ids f a hget hgood
    have hdisc' : isConnected (connect w 0 f a).1 h = false := by
      cases hval : isConnected (connect w 0 f a).1 h with
      | false => rfl
      | true =>
        rcases hto h hval with hcw | hnew
        · rw [hd] at hcw
          exact Bool.noConfusion hcw
        · exact absurd hnew (Nat.ne_of_lt hlt)
    refine ⟨⟨by rw [hsigs2, hsigs],
      ⟨cond f (w.heap.length :: ids) (ids ++ [w.heap.length]), hgood2, ?_⟩, ?_⟩,
      hdisc', ?_⟩
    · intro n hlt' hconn'
      rcases hto n hconn' with hcw | hnew
      · have hnlt : n < w.heap.length := by
          by_contra hge
          rw [isConnected_oob w n (le_of_not_lt hge)] at hcw
          exact Bool.noConfusion hcw
        rcases hcov n hnlt hcw with hmem | hs
        · left
          cases f <;> simp [hmem]
        · right
          exact hs
      · subst hnew
        left
        cases f <;> simp
    · intro c hc
      rw [htl2] at hc
      exact hcc c hc
    · rw [hlen2]
      exact Nat.lt_succ_of_lt hlt

/-- `disconnect` on any non-sentinel handle preserves the disconnected-node
invariant; in particular a disconnected node never becomes connected. -/
theorem disc_preserves (sg : Sig) (h : Nat) (w : World) (n : Nat)
    (hnh : n ≠ sg.headId) (hnt : n ≠ sg.tailId)
    (hw : DiscInv sg h w) : DiscInv sg h (disconnectNode w n) := by
  obtain ⟨⟨hsigs, ⟨ids, hgood, hcov⟩, hcc⟩, hd, hlt⟩ := hw
  cases hcn : isConnected w n with
  | false =>
    have hpn : (getNode w n).prev = none := by
      rw [isConnected] at hcn
      exact Option.not_isSome_iff_eq_none.mp (by simp [hcn])
    rw [disconnectNode_of_disconnected w n hpn]
    exact ⟨⟨hsigs, ⟨ids, hgood, hcov⟩, hcc⟩, hd, hlt⟩
  | true =>
    have hnlt : n < w.heap.length := by
      by_contra hge
      rw [isConnected_oob w n (le_of_not_lt hge)] at hcn
      exact Bool.noConfusion hcn
    have hmem : n ∈ ids := by
      rcases hcov n hnlt hcn with hm | hs | ht
      · exact hm
      · exact absurd hs hnh
      · exact absurd ht hnt
    obtain ⟨l1, l2, rfl⟩ := List.append_of_mem hmem
    obtain ⟨hgoodD, hprevD, hnextD, hlenD, hsigsD, htlD, hconnD, hnxD, hbaD, hkeepD⟩ :=
      disconnect_chain w sg l1 l2 n hgood
    have hdiscN : isConnected (disconnectNode w n) n = false := by
      rw [isConnected, hprevD]
      rfl
    refine ⟨⟨by rw [hsigsD, hsigs], ⟨l1 ++ l2, hgoodD, ?_⟩, ?_⟩, ?_, ?_⟩
    · intro m hlt' hconn'
      have hmw : isConnected w m = true := hconnD m hconn'
      have hmlt : m < w.heap.length := by rw [← hlenD]; exact hlt'
      rcases hcov m hmlt hmw with hm | hs
      · rcases List.mem_append.mp hm with hm1 | hm2
        · left
          exact List.mem_append_left _ hm1
        · rcases List.mem_cons.mp hm2 with he | hm3
          · subst he
            rw [hdiscN] at hconn'
            exact Bool.noConfusion hconn'
          · left
            exact List.mem_append_right _ hm3
      · right
        exact hs
    · intro c hc
      rw [htlD] at hc
      exact hcc c hc
    · cases hval : isConnected (disconnectNode w n) h with
      | false => rfl
      | true =>
        have := hconnD h hval
        rw [hd] at this
        exact Bool.noConfusion this
    · rw [hlenD]
      exact hlt

theorem clearLoop_at_tail (fuel : Nat) (w : World) (tl : Nat) :
    clearLoop fuel w tl tl = w := by
  cases fuel with
  | zero => rfl
  | succ fuel =>
    rw [clearLoop, if_pos rfl]

/-- `clear_without_lock` leaves every node off the walked segment untouched. -/
theorem clearLoop_untouched (tl : Nat) : ∀ (ids : List Nat) (w : World) (cur k n : Nat),
    segB w tl cur ids tl = true → ids.Nodup → n ∉ ids →
    getNode (clearLoop (ids.length + k) w cur tl) n = getNode w n := by
  intro ids
  induction ids with
  | nil =>
    intro w cur k n hseg _ _
    rw [(segB_nil w tl cur tl).mp hseg]
    rw [show ([] : List Nat).length + k = k by simp]
    rw [clearLoop_at_tail]
  | cons x xs ih =>
    intro w cur k n hseg hnd hnmem
    obtain ⟨heq, hne, hseg'⟩ := (segB_cons w tl cur tl x xs).mp hseg
    subst heq
    rw [show (cur :: xs).length + k = (xs.length + k) + 1 by simp [Nat.add_right_comm]]
    rw [clearLoop, if_neg hne]
    simp only []
    have hcur_not_xs : cur ∉ xs := (List.nodup_cons.mp hnd).1
    have hncur : n ≠ cur := fun e => hnmem (by simp [e])
    have hw1next : ∀ m ∈ xs,
        (getNode (setPrev (setNext w cur (some tl)) cur none) m).next
          = (getNode w m).next := by
      intro m hm
      have hcm : cur ≠ m := fun e => hcur_not_xs (e ▸ hm)
      rw [next_setPrev, setNext, getNode_updNode_ne _ _ _ _ hcm]
    have hseg1 : segB (setPrev (setNext w cur (some tl)) cur none) tl
        ((getNode w cur).next.getD tl) xs tl = true := by
      rw [segB_congr_mem _ w tl xs _ _ hw1next]
      exact hseg'
    rw [ih _ _ k n hseg1 (List.nodup_cons.mp hnd).2 (fun hm => hnmem (by simp [hm]))]
    rw [setPrev, getNode_updNode_ne _ _ _ _ (fun e => hncur e.symm),
      setNext, getNode_updNode_ne _ _ _ _ (fun e => hncur e.symm)]

/-- What `signal::clear` does to the world as a whole: the signal's chain
becomes empty (the sentinels point at each other), sizes, `sigs` and the
thread-locals survive, and every node off the old chain is untouched. -/
theorem clearSig_chain (w : World) (i : Nat) (sg : Sig) (ids : List Nat)
    (hsg : w.sigs.get? i = some sg)
    (hgood : goodSigB w sg ids = true) :
    goodSigB (clearSig w i) sg [] = true ∧
    (clearSig w i).heap.length = w.heap.length ∧
    (clearSig w i).tl = w.tl ∧
    (∀ n, n ∉ ids → n ≠ sg.headId → n ≠ sg.tailId →
      getNode (clearSig w i) n = getNode w n) := by
  obtain ⟨hdl, hhp, htn, hhin, htin, hht, hnd, hbound, hbh, hbt⟩ :=
    goodSig_parts w sg ids hgood
  have hseg := goodSig_seg w sg ids hgood
  set start := (getNode w sg.headId).next.getD sg.tailId with hstart
  set w1 := clearLoop (w.heap.length + 1) w start sg.tailId with hw1
  obtain ⟨hsigs1, hlen1, htl1⟩ := clearLoop_basic (w.heap.length + 1) w start sg.tailId
  have hlenle : ids.length ≤ w.heap.length := nodup_lt_length ids _ hnd hbound
  have huntouched : ∀ n, n ∉ ids → getNode w1 n = getNode w n := by
    intro n hn
    rw [hw1, show w.heap.length + 1 = ids.length + (w.heap.length + 1 - ids.length)
      from by omega]
    exact clearLoop_untouched sg.tailId ids w start _ n hseg hnd hn
  set cw := setPrev (setNext w1 sg.headId (some sg.tailId)) sg.tailId (some sg.headId)
    with hcw
  have hclear : clearSig w i = cw := by
    unfold clearSig
    rw [hsg]
  rw [hclear]
  have hlen2 : cw.heap.length = w.heap.length := by
    rw [hcw, heap_length_setPrev, heap_length_setNext, hlen1]
  have hg_head : getNode cw sg.headId =
      { getNode w sg.headId with next := some sg.tailId } := by
    rw [hcw, setPrev, getNode_updNode_ne _ _ _ _ (fun e => hht e.symm),
      setNext, getNode_updNode_self _ _ _ (by rw [hlen1]; exact hbh),
      huntouched sg.headId hhin]
  have hg_tail_prev : (getNode cw sg.tailId).prev = some sg.headId := by
    rw [hcw, prev_setPrev_self _ _ _
      (by rw [heap_length_setNext, hlen1]; exact hbt)]
  have hg_tail_next : (getNode cw sg.tailId).next = (getNode w sg.tailId).next := by
    rw [hcw, next_setPrev, setNext, getNode_updNode_ne _ _ _ _ (fun e => hht e),
      huntouched sg.tailId htin]
  refine ⟨?_, hlen2, ?_, ?_⟩
  · simp only [goodSigB, dlinkedB, Bool.and_eq_true, beq_iff_eq,
      List.all_eq_true, List.mem_cons]
    refine ⟨⟨⟨⟨⟨?_, ?_⟩, ?_⟩, ?_⟩, ?_⟩, ?_⟩
    · rw [hg_head]
    · exact hg_tail_prev
    · rw [hg_head]
      exact hhp
    · rw [hg_tail_next]
      exact htn
    · rw [nodupB_iff]
      simp [hht]
    · intro n hn
      rw [hlen2]
      simp only [decide_eq_true_eq]
      rcases hn with he | hn2
      · exact he ▸ hbh
      · rcases hn2 with he | hn3
        · exact he ▸ hbt
        · simp at hn3
  · rw [hcw, setPrev, tl_updNode, setNext, tl_updNode, htl1]
  · intro n hnm hnh hnt
    rw [hcw, setPrev, getNode_updNode_ne _ _ _ _ (fun e => hnt e.symm),
      setNext, getNode_updNode_ne _ _ _ _ (fun e => hnh e.symm),
      huntouched n hnm]

/-- `signal::clear` preserves the disconnected-node invariant. -/
theorem clear_preserves (sg : Sig) (h : Nat) (w : World) (i : Nat)
    (htail : h ≠ sg.tailId)
    (hw : DiscInv sg h w) : DiscInv sg h (clearSig w i) := by
  obtain ⟨⟨hsigs, ⟨ids, hgood, hcov⟩, hcc⟩, hd, hlt⟩ := hw
  cases i with
  | succ j =>
    have hget : w.sigs.get? (j + 1) = none := by
      rw [hsigs]
      rfl
    have hcw : clearSig w (j + 1) = w := by
      unfold clearSig
      rw [hget]
    rw [hcw]
    exact ⟨⟨hsigs, ⟨ids, hgood, hcov⟩, hcc⟩, hd, hlt⟩
  | zero =>
    have hget : w.sigs.get? 0 = some sg := by
      rw [hsigs]
      rfl
    obtain ⟨hkill, hkeep, hnext_cw, hsigs_cw⟩ :=
      clearSig_disconnects w 0 sg ids hget hgood
    obtain ⟨hgood0, hlen0, htl0, hun0⟩ := clearSig_chain w 0 sg ids hget hgood
    refine ⟨⟨by rw [hsigs_cw, hsigs], ⟨[], hgood0, ?_⟩, ?_⟩, ?_, ?_⟩
    · intro m hlt' hconn'
      right
      by_contra hnot
      push_neg at hnot
      obtain ⟨hmh, hmt⟩ := hnot
      by_cases hmem : m ∈ ids
      · rw [hkill m hmem] at hconn'
        exact Bool.noConfusion hconn'
      · have hum : getNode (clearSig w 0) m = getNode w m := hun0 m hmem hmh hmt
        rw [isConnected, hum] at hconn'
        have hmw : isConnected w m = true := hconn'
        have hmlt : m < w.heap.length := by rw [← hlen0]; exact hlt'
        rcases hcov m hmlt hmw with hm | hs | ht
        · exact hmem hm
        · exact hmh hs
        · exact hmt ht
    · intro c hc
      rw [htl0] at hc
      exact hcc c hc
    · exact hkeep h htail hd
    · rw [hlen0]
      exact hlt

/-- Every slot body preserves the disconnected-node invariant, provided the
re-entrant `invoke` it may perform does. -/
theorem runAct_preserves (sg : Sig) (h : Nat)
    (nested : World → Nat → Int → Option (World × Bool))
    (hnest : ∀ w j a2 p, DiscInv sg h w → nested w j a2 = some p →
      DiscInv sg h p.1) :
    ∀ (a : SlotAct) (w : World) (i : Nat) (arg : Int) (w2 : World)
      (v : Option Int) (e : Bool),
    DiscInv sg h w → runAct nested w i arg a = some (w2, v, e) →
    DiscInv sg h w2 := by
  intro a
  induction a with
  | ret v0 =>
    intro w i arg w2 v e hw heq
    simp only [runAct, Option.some.injEq, Prod.mk.injEq] at heq
    obtain ⟨rfl, -, -⟩ := heq
    exact hw
  | addToArg k0 =>
    intro w i arg w2 v e hw heq
    simp only [runAct, Option.some.injEq, Prod.mk.injEq] at heq
    obtain ⟨rfl, -, -⟩ := heq
    exact hw
  | raiseErr =>
    intro w i arg w2 v e hw heq
    simp only [runAct, Option.some.injEq, Prod.mk.injEq] at heq
    obtain ⟨rfl, -, -⟩ := heq
    exact hw
  | abortEmission v0 =>
    intro w i arg w2 v e hw heq
    simp only [runAct, Option.some.injEq, Prod.mk.injEq] at heq
    obtain ⟨rfl, -, -⟩ := heq
    exact DiscInv_withTL sg h w _ (fun c hc => hw.1.2.2 c hc) hw
  | disconnectSelf v0 =>
    intro w i arg w2 v e hw heq
    simp only [runAct] at heq
    cases hcc : w.tl.currentConn with
    | none =>
      rw [hcc] at heq
      simp only [Option.some.injEq, Prod.mk.injEq] at heq
      obtain ⟨rfl, -, -⟩ := heq
      exact hw
    | some cC =>
      rw [hcc] at heq
      simp only [Option.some.injEq, Prod.mk.injEq] at heq
      obtain ⟨rfl, -, -⟩ := heq
      obtain ⟨hnh, hnt⟩ := hw.1.2.2 cC hcc
      exact disc_preserves sg h w cC hnh hnt hw
  | connectBack a0 v0 iha =>
    intro w i arg w2 v e hw heq
    simp only [runAct, Option.some.injEq, Prod.mk.injEq] at heq
    obtain ⟨rfl, -, -⟩ := heq
    exact conn_preserves sg h w i false a0 hw
  | connectFront a0 v0 iha =>
    intro w i arg w2 v e hw heq
    simp only [runAct, Option.some.injEq, Prod.mk.injEq] at heq
    obtain ⟨rfl, -, -⟩ := heq
    exact conn_preserves sg h w i true a0 hw
  | invokeNested j argN v0 =>
    intro w i arg w2 v e hw heq
    simp only [runAct] at heq
    cases hn : nested w j argN with
    | none =>
      rw [hn] at heq
      exact absurd heq (by simp)
    | some p =>
      obtain ⟨wn, en⟩ := p
      rw [hn] at heq
      have hwn : DiscInv sg h wn := hnest w j argN (wn, en) hw hn
      cases en with
      | true =>
        simp only [if_true, Option.some.injEq, Prod.mk.injEq] at heq
        obtain ⟨rfl, -, -⟩ := heq
        exact hwn
      | false =>
        simp only [Bool.false_eq_true, if_false, Option.some.injEq,
          Prod.mk.injEq] at heq
        obtain ⟨rfl, -, -⟩ := heq
        exact hwn
  | seq a0 b0 iha ihb =>
    intro w i arg w2 v e hw heq
    simp only [runAct] at heq
    cases hra : runAct nested w i arg a0 with
    | none =>
      rw [hra] at heq
      exact absurd heq (by simp)
    | some t =>
      obtain ⟨wa, va, ea⟩ := t
      rw [hra] at heq
      have hwa : DiscInv sg h wa := iha w i arg wa va ea hw hra
      cases ea with
      | true =>
        simp only [if_true, Option.some.injEq, Prod.mk.injEq] at heq
        obtain ⟨rfl, -, -⟩ := heq
        exact hwa
      | false =>
        simp only [Bool.false_eq_true, if_false] at heq
        exact ihb wa i arg w2 v e hwa heq

/-- The emission loop preserves the disconnected-node invariant and never
executes a disconnected node. -/
theorem runLoop_preserves (sg : Sig) (h : Nat)
    (nested : World → Nat → Int → Option (World × Bool))
    (hnest : ∀ w j a2 p, DiscInv sg h w → nested w j a2 = some p →
      DiscInv sg h p.1) :
    ∀ (fuel : Nat) (w : World) (i : Nat) (arg : Int) (cur : Nat)
      (vals : List Int) (execs : List Nat) (err : Bool) (r : EmitResult),
    DiscInv sg h w →
    (∀ m ∈ execs, m ≠ h) →
    runLoop nested fuel w i arg cur sg.tailId vals execs err = some r →
    DiscInv sg h r.world ∧ ∀ m ∈ r.execs, m ≠ h := by
  intro fuel
  induction fuel with
  | zero =>
    intro w i arg cur vals execs err r hw hex heq
    rw [runLoop] at heq
    by_cases hct : cur = sg.tailId
    · rw [if_pos hct] at heq
      injection heq with h1
      subst h1
      exact ⟨hw, hex⟩
    · rw [if_neg hct] at heq
      exact absurd heq (by simp)
  | succ fuel ih =>
    intro w i arg cur vals execs err r hw hex heq
    rw [runLoop] at heq
    by_cases hct : cur = sg.tailId
    · rw [if_pos hct] at heq
      injection heq with h1
      subst h1
      exact ⟨hw, hex⟩
    · rw [if_neg hct] at heq
      simp only [] at heq
      cases hlive : ((getNode w cur).prev.isSome && !(getNode w cur).blocked) with
      | false =>
        rw [hlive, if_neg (by simp)] at heq
        exact ih w i arg _ vals execs err r hw hex heq
      | true =>
        rw [hlive, if_pos rfl] at heq
        have hconncur : isConnected w cur = true := by
          rw [isConnected]
          exact (Bool.and_eq_true _ _ |>.mp hlive).1
        have hcur_h : cur ≠ h := by
          intro e
          rw [e, hw.2.1] at hconncur
          exact Bool.noConfusion hconncur
        have hcurlt : cur < w.heap.length := by
          by_contra hge
          rw [isConnected_oob w cur (le_of_not_lt hge)] at hconncur
          exact Bool.noConfusion hconncur
        have hcurhead : cur ≠ sg.headId := by
          intro e
          obtain ⟨ids, hgood, -⟩ := hw.1.2.1
          obtain ⟨-, hhp, -, -, -, -, -, -, -, -⟩ := goodSig_parts w sg ids hgood
          rw [e, isConnected, hhp] at hconncur
          exact Bool.noConfusion hconncur
        have hwsc : DiscInv sg h (setCurrentConn w (some cur)) := by
          refine DiscInv_withTL sg h w _ ?_ hw
          intro cC hcC
          obtain rfl : cur = cC := Option.some.inj hcC
          exact ⟨hcurhead, hct⟩
        cases hra : runAct nested (setCurrentConn w (some cur)) i arg
            (getNode w cur).act with
        | none =>
          rw [hra] at heq
          exact absurd heq (by simp)
        | some trip =>
          obtain ⟨w2, v, e⟩ := trip
          rw [hra] at heq
          simp only [] at heq
          have hw2 : DiscInv sg h w2 :=
            runAct_preserves sg h nested hnest (getNode w cur).act
              (setCurrentConn w (some cur)) i arg w2 v e hwsc hra
          have hw3 : DiscInv sg h (setCurrentConn w2 w.tl.currentConn) := by
            refine DiscInv_withTL sg h w2 _ ?_ hw2
            intro cC hcC
            exact hw.1.2.2 cC hcC
          have hex' : ∀ m ∈ execs ++ [cur], m ≠ h := by
            intro m hm
            rcases List.mem_append.mp hm with hm1 | hm2
            · exact hex m hm1
            · simp at hm2
              subst hm2
              exact hcur_h
          cases hab : (setCurrentConn w2 w.tl.currentConn).tl.aborted with
          | true =>
            rw [hab, if_pos rfl] at heq
            injection heq with h1
            subst h1
            exact ⟨hw3, hex'⟩
          | false =>
            rw [hab, if_neg (by simp)] at heq
            exact ih _ i arg _ _ _ _ r hw3 hex' heq

/-- A whole `signal::invoke` preserves the disconnected-node invariant and
never executes a disconnected node. -/
theorem invoke_preserves (sg : Sig) (h : Nat) :
    ∀ (fuel : Nat) (w : World) (i : Nat) (arg : Int) (r : EmitResult),
    DiscInv sg h w → invoke fuel w i arg = some r →
    DiscInv sg h r.world ∧ ∀ m ∈ r.execs, m ≠ h := by
  intro fuel
  induction fuel with
  | zero =>
    intro w i arg r hw heq
    exact absurd heq (by simp [invoke])
  | succ fuel ih =>
    intro w i arg r hw heq
    rw [invoke] at heq
    generalize hN : (fun w2 j a2 => (invoke fuel w2 j a2).map
      fun r => (r.world, r.err)) = nst at heq
    unfold invokeAux at heq
    cases hget : w.sigs.get? i with
    | none =>
      rw [hget] at heq
      exact absurd heq (by simp)
    | some sg' =>
      rw [hget] at heq
      simp only [] at heq
      have hsigs : w.sigs = [sg] := hw.1.1
      obtain ⟨-, he⟩ : i = 0 ∧ sg' = sg := by
        rw [hsigs] at hget
        exact sigs_get_single sg sg' i hget
      rw [he] at heq
      have hnest : ∀ w2 j a2 p, DiscInv sg h w2 → nst w2 j a2 = some p →
          DiscInv sg h p.1 := by
        intro w2 j a2 p hw2 hp
        rw [← hN] at hp
        simp only [] at hp
        cases hi : invoke fuel w2 j a2 with
        | none =>
          rw [hi] at hp
          exact absurd hp (by simp)
        | some r2 =>
          rw [hi] at hp
          simp only [Option.map_some', Option.some.injEq] at hp
          rw [← hp]
          exact (ih w2 j a2 r2 hw2 hi).1
      have hw1 : DiscInv sg h (setAborted w false) :=
        DiscInv_withTL sg h w _ (fun c hc => hw.1.2.2 c hc) hw
      cases hrl : runLoop nst fuel (setAborted w false) i arg
          ((getNode (setAborted w false) sg.headId).next.getD sg.tailId)
          sg.tailId [] [] false with
      | none =>
        rw [hrl] at heq
        exact absurd heq (by simp)
      | some r0 =>
        rw [hrl] at heq
        simp only [] at heq
        injection heq with h1
        subst h1
        obtain ⟨hr0, hr0ex⟩ := runLoop_preserves sg h nst hnest fuel _ i arg _
          [] [] false r0 hw1 (by intro m hm; simp at hm) hrl
        refine ⟨?_, hr0ex⟩
        exact DiscInv_withTL sg h r0.world _ (fun c hc => hr0.1.2.2 c hc) hr0

/-- Every public API call preserves the disconnected-node invariant. -/
theorem step_preserves (sg : Sig) (h : Nat) (htail : h ≠ sg.tailId)
    (w w' : World) (hstep : Step w w') (hw : DiscInv sg h w) :
    DiscInv sg h w' := by
  cases hstep with
  | conn i f a => exact conn_preserves sg h w i f a hw
  | disc n hn =>
    have hsg_mem : sg ∈ w.sigs := by
      rw [hw.1.1]
      simp
    obtain ⟨h1, h2⟩ := hn sg hsg_mem
    exact disc_preserves sg h w n h1 h2 hw
  | block n =>
    refine links_preserves sg h w (blockNode w n) ?_ ?_ rfl rfl hw
    · intro m
      exact ⟨getNode_blockNode_next w n m, getNode_blockNode_prev w n m⟩
    · exact heap_length_updNode w n _
  | unblock n =>
    refine links_preserves sg h w (unblockNode w n) ?_ ?_ rfl rfl hw
    · intro m
      constructor
      · rw [unblockNode, getNode_updNode]
        split <;> rfl
      · rw [unblockNode, getNode_updNode]
        split <;> rfl
    · exact heap_length_updNode w n _
  | clearS i => exact clear_preserves sg h w i htail hw
  | inv i arg fuel r heqi => exact (invoke_preserves sg h fuel w i arg r hw heqi).1

/-- The disconnected-node invariant holds in every state reachable through
the public API. -/
theorem reach_preserves (sg : Sig) (h : Nat) (htail : h ≠ sg.tailId)
    (w w' : World) (hr : Reach w w') (hw : DiscInv sg h w) : DiscInv sg h w' := by
  induction hr with
  | refl => exact hw
  | tail w1 w2 hr01 hs12 ih => exact step_preserves sg h htail _ _ hs12 ih

/-- An emission during which slot `c` disconnects itself through its current
`connection` handle: the loop still advances through `c`'s kept `next`
pointer, so the walk executes the whole pre-existing chain, and the final
world is exactly the disconnected one. -/
theorem disconnect_self_emission (w : World) (i : Nat) (arg : Int) (sg : Sig)
    (ids1 ids2 : List Nat) (c : Nat) (vc : Int) (k : Nat)
    (hsg : w.sigs.get? i = some sg)
    (hgood : goodSigB w sg (ids1 ++ c :: ids2) = true)
    (hret : ∀ n ∈ ids1 ++ ids2, isRet (getNode w n).act = true)
    (hunb : ∀ n ∈ ids1 ++ c :: ids2, (getNode w n).blocked = false)
    (hact : (getNode w c).act = .disconnectSelf vc) :
    ∃ vs, invoke (ids1.length + (1 + (ids2.length + (k + 1))) + 1) w i arg =
      some ⟨disconnectNode w c, vs, ids1 ++ c :: ids2, false⟩ := by
  obtain ⟨hdl, hhp, htn, hhin, htin, hht, hnd, hbound, hbh, hbt⟩ :=
    goodSig_parts w sg (ids1 ++ c :: ids2) hgood
  have hcmem : c ∈ ids1 ++ c :: ids2 := by simp
  have hctail : c ≠ sg.tailId := fun e => htin (e ▸ hcmem)
  obtain ⟨hdl1, hdl2⟩ := (dlinked_split w sg.tailId ids1 sg.headId c ids2).mp hdl
  have hcp : (getNode w c).prev = some (lastAnchor sg.headId ids1) :=
    (dlinked_last w c ids1 sg.headId hdl1).2
  have hcn : (getNode w c).next = some (firstAnchor sg.tailId ids2) :=
    dlinked_next_first w c sg.tailId ids2 hdl2
  obtain ⟨hgoodD, hprevD, hnextD, hlenD, hsigsD, htlD, hconnD, hnxD, hbaD, hkeepD⟩ :=
    disconnect_chain w sg ids1 ids2 c hgood
  have hdisj : ids1.Disjoint (c :: ids2) := List.disjoint_of_nodup_append hnd
  have hc_not2 : c ∉ ids2 := (List.nodup_cons.mp hnd.of_append_right).1
  -- the prefix before c
  have hids1tl : ∀ n ∈ ids1, n ≠ sg.tailId :=
    fun n hn e => htin (e ▸ List.mem_append_left _ hn)
  have hseg1 : segB w sg.tailId ((getNode w sg.headId).next.getD sg.tailId) ids1 c
      = true := dlinked_seg_to w sg.tailId ids1 sg.headId c hdl1 hids1tl
  have hseg1' : segB (setAborted w false) sg.tailId
      ((getNode (setAborted w false) sg.headId).next.getD sg.tailId) ids1 c = true := by
    rw [segB_congr (setAborted w false) w sg.tailId (fun n => rfl)]
    exact hseg1
  have hinert1 : ∀ n ∈ ids1, isInert (getNode (setAborted w false) n).act = true :=
    fun n hn => isRet_inert _ (hret n (List.mem_append_left _ hn))
  have hconn1 : ∀ n ∈ ids1, isConnected w n = true :=
    dlinked_connected w c ids1 sg.headId hdl1
  have hlive1 : liveIds (setAborted w false) ids1 = ids1 :=
    liveIds_all _ _ (fun n hn => hconn1 n hn)
      (fun n hn => hunb n (List.mem_append_left _ hn))
  have herr1 : inertErr (setAborted w false) ids1 = false :=
    inertErr_of_ret _ _ (fun n hn => hret n (List.mem_append_left _ hn))
  -- the step at c
  have hconnc : isConnected (setAborted w false) c = true := by
    show (getNode w c).prev.isSome = true
    rw [hcp]
    rfl
  have hunbc : (getNode (setAborted w false) c).blocked = false :=
    hunb c hcmem
  have hract : ∀ nested, runAct nested (setCurrentConn (setAborted w false) (some c))
      i arg (getNode (setAborted w false) c).act =
      some ({ disconnectNode w c with
        tl := { currentConn := some c, aborted := false } }, some vc, false) := by
    intro nested
    show runAct nested (setCurrentConn (setAborted w false) (some c)) i arg
      (getNode w c).act = _
    rw [hact]
    show some (disconnectNode (setCurrentConn (setAborted w false) (some c)) c,
      some vc, false) = _
    rw [show setCurrentConn (setAborted w false) (some c) =
      { w with tl := { currentConn := some c, aborted := false } } from rfl]
    rw [disconnectNode_withTL]
  have hw3 : setCurrentConn ({ disconnectNode w c with
      tl := { currentConn := some c, aborted := false } })
      (setAborted w false).tl.currentConn
      = setAborted (disconnectNode w c) false := by
    show ({ disconnectNode w c with
      tl := { currentConn := w.tl.currentConn, aborted := false } } : World) =
      { disconnectNode w c with
        tl := { currentConn := (disconnectNode w c).tl.currentConn
                , aborted := false } }
    rw [htlD]
  have hcnext' : (getNode (setAborted (disconnectNode w c) false) c).next
      = some (firstAnchor sg.tailId ids2) := by
    show (getNode (disconnectNode w c) c).next = _
    rw [hnextD]
    exact hcn
  -- the suffix after c, walked in the disconnected world
  have hids2mem : ∀ n ∈ ids2, n ∈ ids1 ++ c :: ids2 := by
    intro n hn
    simp [hn]
  have hpnot2 : ∀ n ∈ ids2, n ≠ lastAnchor sg.headId ids1 := by
    intro n hn e
    rcases List.mem_cons.mp (lastAnchor_mem sg.headId ids1) with he | hm
    · exact hhin (by rw [← he, ← e]; exact hids2mem n hn)
    · exact hdisj (e ▸ hm) (List.mem_cons_of_mem _ hn)
  have hseg2 : segB (setAborted (disconnectNode w c) false) sg.tailId
      (firstAnchor sg.tailId ids2) ids2 sg.tailId = true := by
    have hw0 := dlinked_seg w sg.tailId ids2 c hdl2
      (fun n hn e => htin (e ▸ hids2mem n hn))
    rw [hcn] at hw0
    rw [segB_congr_mem (setAborted (disconnectNode w c) false) w sg.tailId ids2 _ _
      (fun n hn => hnxD n (hpnot2 n hn))]
    simpa using hw0
  have hinert2 : ∀ n ∈ ids2,
      isInert (getNode (setAborted (disconnectNode w c) false) n).act = true := by
    intro n hn
    show isInert (getNode (disconnectNode w c) n).act = true
    rw [(hbaD n).2]
    exact isRet_inert _ (hret n (List.mem_append_right _ hn))
  have hlive2 : liveIds (setAborted (disconnectNode w c) false) ids2 = ids2 := by
    apply liveIds_all
    · intro n hn
      show isConnected (disconnectNode w c) n = true
      exact hkeepD n (fun e => hc_not2 (e ▸ hn))
        (dlinked_connected w sg.tailId ids2 c hdl2 n hn)
    · intro n hn
      show (getNode (disconnectNode w c) n).blocked = false
      rw [(hbaD n).1]
      exact hunb n (hids2mem n hn)
  have herr2 : inertErr (setAborted (disconnectNode w c) false) ids2 = false := by
    apply inertErr_of_ret
    intro n hn
    show isRet (getNode (disconnectNode w c) n).act = true
    rw [(hbaD n).2]
    exact hret n (List.mem_append_right _ hn)
  have hfin : setAborted (setAborted (disconnectNode w c) false) w.tl.aborted
      = disconnectNode w c := by
    show setAborted (disconnectNode w c) w.tl.aborted = _
    rw [← htlD]
    exact setAborted_self _
  -- assemble the emission
  rw [invoke]
  unfold invokeAux
  rw [hsg]
  simp only []
  rw [runLoop_seg _ ids1 (setAborted w false) i arg sg.tailId
    ((getNode (setAborted w false) sg.headId).next.getD sg.tailId) c [] [] false
    (1 + (ids2.length + (k + 1))) hseg1' hinert1 rfl]
  simp only [List.nil_append, Bool.false_or]
  rw [hlive1, herr1]
  rw [show 1 + (ids2.length + (k + 1)) = (ids2.length + (k + 1)) + 1 from
    Nat.add_comm _ _]
  rw [runLoop_exec_step _ (ids2.length + (k + 1)) (setAborted w false) i arg c
    sg.tailId _ ids1 false _ (setAborted (disconnectNode w c) false) vc
    false (firstAnchor sg.tailId ids2) hctail hconnc hunbc (hract _) hw3 rfl hcnext']
  rw [runLoop_seg _ ids2 (setAborted (disconnectNode w c) false) i arg
    sg.tailId (firstAnchor sg.tailId ids2) sg.tailId _ _ _ (k + 1) hseg2 hinert2 rfl]
  rw [runLoop_at_tail]
  simp only []
  rw [hlive2, herr2, hfin]
  refine ⟨inertVals (setAborted w false) arg ids1 ++ [vc] ++
    inertVals (setAborted (disconnectNode w c) false) arg ids2, ?_⟩
  simp

/-- C3: disconnection is permanent.  In a world satisfying the single-signal
invariant, a node `h` whose connection reports `is_connected == false` keeps
reporting false in every state reachable through the public API (connect,
disconnect, block, unblock, clear, invoke) — no operation reconnects it.
Consequently a slot `c` that disconnects itself during an emission (world
`wD`) is executed exactly once in that emission — the loop still advances
through its kept `next` pointer — and never again: the next emission of the
same signal executes exactly the remaining slots. -/
theorem claim_C3 (w w' : World) (sg : Sig) (h : Nat)
    (wD : World) (iD : Nat) (arg arg2 : Int) (sgD : Sig) (ids1 ids2 : List Nat)
    (c : Nat) (vc : Int) (F : Nat)
    (hinv : SigWorldInv w sg)
    (hlt : h < w.heap.length)
    (htail : h ≠ sg.tailId)
    (hdisc : isConnected w h = false)
    (hreach : Reach w w')
    (hsgD : wD.sigs.get? iD = some sgD)
    (hgoodD : goodSigB wD sgD (ids1 ++ c :: ids2) = true)
    (hretD : ∀ n ∈ ids1 ++ ids2, isRet (getNode wD n).act = true)
    (hunbD : ∀ n ∈ ids1 ++ c :: ids2, (getNode wD n).blocked = false)
    (hactD : (getNode wD c).act = .disconnectSelf vc)
    (hF : ids1.length + ids2.length + 3 ≤ F) :
    isConnected w' h = false ∧
    (∃ r, invoke F wD iD arg = some r ∧
      r.execs = ids1 ++ c :: ids2 ∧
      r.world = disconnectNode wD c ∧
      isConnected r.world c = false ∧
      ∃ r2, invoke F r.world iD arg2 = some r2 ∧
        r2.execs = ids1 ++ ids2 ∧ c ∉ r2.execs) := by
  constructor
  · exact (reach_preserves sg h htail w w' hreach ⟨hinv, hdisc, hlt⟩).2.1
  · obtain ⟨k, hFk⟩ : ∃ k, F = ids1.length + (1 + (ids2.length + (k + 1))) + 1 :=
      ⟨F - ids1.length - ids2.length - 3, by omega⟩
    obtain ⟨hdlD, hhpD, htnD, hhinD, htinD, hhtD, hndD, hboundD, hbhD, hbtD⟩ :=
      goodSig_parts wD sgD (ids1 ++ c :: ids2) hgoodD
    obtain ⟨hgoodD2, hprevD, hnextD, hlenD, hsigsD, htlD, hconnD, hnxD, hbaD, hkeepD⟩ :=
      disconnect_chain wD sgD ids1 ids2 c hgoodD
    obtain ⟨vs, hfirst⟩ := disconnect_self_emission wD iD arg sgD ids1 ids2 c vc k
      hsgD hgoodD hretD hunbD hactD
    rw [← hFk] at hfirst
    have hc_notin : c ∉ ids1 ++ ids2 := by
      intro hcm
      rcases List.mem_append.mp hcm with h1 | h2
      · exact (List.disjoint_of_nodup_append hndD) h1 (by simp)
      · exact (List.nodup_cons.mp hndD.of_append_right).1 h2
    have hsgD' : (disconnectNode wD c).sigs.get? iD = some sgD := by
      rw [hsigsD]
      exact hsgD
    have hsegD' : segB (disconnectNode wD c) sgD.tailId
        ((getNode (disconnectNode wD c) sgD.headId).next.getD sgD.tailId)
        (ids1 ++ ids2) sgD.tailId = true :=
      goodSig_seg (disconnectNode wD c) sgD (ids1 ++ ids2) hgoodD2
    have hinertD' : ∀ n ∈ ids1 ++ ids2,
        isInert (getNode (disconnectNode wD c) n).act = true := by
      intro n hn
      rw [(hbaD n).2]
      exact isRet_inert _ (hretD n hn)
    have hsecond := invoke_inert (disconnectNode wD c) iD arg2 sgD (ids1 ++ ids2)
      (k + 2) hsgD' hsegD' hinertD'
    rw [show (ids1 ++ ids2).length + (k + 2) + 1
        = ids1.length + (1 + (ids2.length + (k + 1))) + 1 by
      simp only [List.length_append]
      omega] at hsecond
    rw [← hFk] at hsecond
    have hliveD : liveIds (disconnectNode wD c) (ids1 ++ ids2) = ids1 ++ ids2 := by
      apply liveIds_all
      · obtain ⟨hdl2, -, -, -, -, -, -, -, -, -⟩ :=
          goodSig_parts (disconnectNode wD c) sgD (ids1 ++ ids2) hgoodD2
        exact dlinked_connected _ sgD.tailId (ids1 ++ ids2) sgD.headId hdl2
      · intro n hn
        rw [(hbaD n).1]
        refine hunbD n ?_
        rcases List.mem_append.mp hn with h1 | h2
        · exact List.mem_append_left _ h1
        · exact List.mem_append_right _ (List.mem_cons_of_mem _ h2)
    have herrD : inertErr (disconnectNode wD c) (ids1 ++ ids2) = false := by
      apply inertErr_of_ret
      intro n hn
      rw [(hbaD n).2]
      exact hretD n hn
    rw [hliveD, herrD] at hsecond
    refine ⟨_, hfirst, rfl, rfl, ?_, ⟨_, hsecond, rfl, hc_notin⟩⟩
    show isConnected (disconnectNode wD c) c = false
    rw [isConnected, hprevD]
    rfl

/-- C3 witness: in `exWorldT`, node 4 is a tombstone; disconnecting node 2
and then connecting a fresh slot keeps node 4 disconnected.  In `exWorldD`,
slot 2 disconnects itself: the first emission executes nodes 2 and 3, the
second only node 3. -/
theorem claim_C3_witness :
    (SigWorldInv exWorldT exSig ∧ (4 : Nat) < exWorldT.heap.length ∧
      (4 : Nat) ≠ exSig.tailId ∧ isConnected exWorldT 4 = false ∧
      Reach exWorldT (connect (disconnectNode exWorldT 2) 0 false (.ret 3)).1 ∧
      exWorldD.sigs.get? 0 = some exSig ∧
      goodSigB exWorldD exSig ([] ++ 2 :: [3]) = true ∧
      (∀ n ∈ [] ++ [3], isRet (getNode exWorldD n).act = true) ∧
      (∀ n ∈ [] ++ 2 :: [3], (getNode exWorldD n).blocked = false) ∧
      (getNode exWorldD 2).act = .disconnectSelf 1 ∧
      ([] : List Nat).length + [3].length + 3 ≤ 4) ∧
    (isConnected (connect (disconnectNode exWorldT 2) 0 false (.ret 3)).1 4 = false ∧
    (∃ r, invoke 4 exWorldD 0 0 = some r ∧
      r.execs = [] ++ 2 :: [3] ∧
      r.world = disconnectNode exWorldD 2 ∧
      isConnected r.world 2 = false ∧
      ∃ r2, invoke 4 r.world 0 0 = some r2 ∧
        r2.execs = [] ++ [3] ∧ 2 ∉ r2.execs)) :=
  ⟨⟨⟨rfl, ⟨[2, 3], by decide, by decide⟩, fun cC hc => nomatch hc⟩,
    by decide, by decide, by decide,
    Reach.tail _ _ _ (Reach.tail _ _ _ (Reach.refl _)
      (Step.disc _ 2 (by decide))) (Step.conn _ 0 false (.ret 3)),
    by decide, by decide, by decide, by decide, by decide, by decide⟩,
    claim_C3 exWorldT (connect (disconnectNode exWorldT 2) 0 false (.ret 3)).1
      exSig 4 exWorldD 0 0 0 exSig [] [3] 2 1 4
      ⟨rfl, ⟨[2, 3], by decide, by decide⟩, fun cC hc => nomatch hc⟩
      (by decide) (by decide) (by decide)
      (Reach.tail _ _ _ (Reach.tail _ _ _ (Reach.refl _)
        (Step.disc _ 2 (by decide))) (Step.conn _ 0 false (.ret 3)))
      (by decide) (by decide) (by decide) (by decide) (by decide) (by decide)⟩

/-! ### C4: aborting an emission -/

/-- An emission during which slot `y` calls `abort_emission`: the walk
executes the prefix and `y` itself and then stops; the final world is exactly
the starting one — the abort flag lives in the per-emission `abort_scope` and
is restored on exit, and nothing else was touched. -/
theorem abort_inner_emission (w : World) (i : Nat) (arg : Int) (sg : Sig)
    (jds1 jds2 : List Nat) (y : Nat) (vy : Int) (k : Nat)
    (hsg : w.sigs.get? i = some sg)
    (hgood : goodSigB w sg (jds1 ++ y :: jds2) = true)
    (hret : ∀ n ∈ jds1, isRet (getNode w n).act = true)
    (hunb : ∀ n ∈ jds1 ++ y :: jds2, (getNode w n).blocked = false)
    (hact : (getNode w y).act = .abortEmission vy) :
    ∃ vs, invoke (jds1.length + (k + 1) + 1) w i arg =
      some ⟨w, vs, jds1 ++ [y], false⟩ := by
  obtain ⟨hdl, hhp, htn, hhin, htin, hht, hnd, hbound, hbh, hbt⟩ :=
    goodSig_parts w sg (jds1 ++ y :: jds2) hgood
  have hymem : y ∈ jds1 ++ y :: jds2 := by simp
  have hytail : y ≠ sg.tailId := fun e => htin (e ▸ hymem)
  obtain ⟨hdl1, hdl2⟩ := (dlinked_split w sg.tailId jds1 sg.headId y jds2).mp hdl
  have hyp : (getNode w y).prev = some (lastAnchor sg.headId jds1) :=
    (dlinked_last w y jds1 sg.headId hdl1).2
  have hids1tl : ∀ n ∈ jds1, n ≠ sg.tailId :=
    fun n hn e => htin (e ▸ List.mem_append_left _ hn)
  have hseg1 : segB w sg.tailId ((getNode w sg.headId).next.getD sg.tailId) jds1 y
      = true := dlinked_seg_to w sg.tailId jds1 sg.headId y hdl1 hids1tl
  have hseg1' : segB (setAborted w false) sg.tailId
      ((getNode (setAborted w false) sg.headId).next.getD sg.tailId) jds1 y = true := by
    rw [segB_congr (setAborted w false) w sg.tailId (fun n => rfl)]
    exact hseg1
  have hinert1 : ∀ n ∈ jds1, isInert (getNode (setAborted w false) n).act = true :=
    fun n hn => isRet_inert _ (hret n hn)
  have hlive1 : liveIds (setAborted w false) jds1 = jds1 :=
    liveIds_all _ _ (fun n hn => dlinked_connected w y jds1 sg.headId hdl1 n hn)
      (fun n hn => hunb n (List.mem_append_left _ hn))
  have herr1 : inertErr (setAborted w false) jds1 = false :=
    inertErr_of_ret _ _ (fun n hn => hret n hn)
  have hconny : isConnected (setAborted w false) y = true := by
    show (getNode w y).prev.isSome = true
    rw [hyp]
    rfl
  have hunby : (getNode (setAborted w false) y).blocked = false := hunb y hymem
  have hract : ∀ nested, runAct nested (setCurrentConn (setAborted w false) (some y))
      i arg (getNode (setAborted w false) y).act =
      some (setAborted (setCurrentConn (setAborted w false) (some y)) true,
        some vy, false) := by
    intro nested
    show runAct nested (setCurrentConn (setAborted w false) (some y)) i arg
      (getNode w y).act = _
    rw [hact]
    rfl
  rw [invoke]
  unfold invokeAux
  rw [hsg]
  simp only []
  rw [runLoop_seg _ jds1 (setAborted w false) i arg sg.tailId
    ((getNode (setAborted w false) sg.headId).next.getD sg.tailId) y [] [] false
    (k + 1) hseg1' hinert1 rfl]
  simp only [List.nil_append, Bool.false_or]
  rw [hlive1, herr1]
  rw [runLoop_abort_step _ k (setAborted w false) i arg y sg.tailId _ jds1 false
    _ ({ w with tl := { currentConn := w.tl.currentConn, aborted := true } }) vy
    false hytail hconny hunby (hract _) rfl rfl]
  simp only []
  refine ⟨inertVals (setAborted w false) arg jds1 ++ [vy], ?_⟩
  rfl

/-- An emission during which slot `c` calls `abort_emission` and then
disconnects itself: the walk stops right after `c`, and the final world is
the starting one with just `c` disconnected. -/
theorem abort_self_emission (w : World) (i : Nat) (arg : Int) (sg : Sig)
    (ids1 ids2 : List Nat) (c : Nat) (v1 v2 : Int) (k : Nat)
    (hsg : w.sigs.get? i = some sg)
    (hgood : goodSigB w sg (ids1 ++ c :: ids2) = true)
    (hret : ∀ n ∈ ids1, isRet (getNode w n).act = true)
    (hunb : ∀ n ∈ ids1 ++ c :: ids2, (getNode w n).blocked = false)
    (hact : (getNode w c).act = .seq (.abortEmission v1) (.disconnectSelf v2)) :
    ∃ vs, invoke (ids1.length + (k + 1) + 1) w i arg =
      some ⟨disconnectNode w c, vs, ids1 ++ [c], false⟩ := by
  obtain ⟨hdl, hhp, htn, hhin, htin, hht, hnd, hbound, hbh, hbt⟩ :=
    goodSig_parts w sg (ids1 ++ c :: ids2) hgood
  have hcmem : c ∈ ids1 ++ c :: ids2 := by simp
  have hctail : c ≠ sg.tailId := fun e => htin (e ▸ hcmem)
  obtain ⟨hdl1, hdl2⟩ := (dlinked_split w sg.tailId ids1 sg.headId c ids2).mp hdl
  have hcp : (getNode w c).prev = some (lastAnchor sg.headId ids1) :=
    (dlinked_last w c ids1 sg.headId hdl1).2
  obtain ⟨hgoodD, hprevD, hnextD, hlenD, hsigsD, htlD, hconnD, hnxD, hbaD, hkeepD⟩ :=
    disconnect_chain w sg ids1 ids2 c hgood
  have hids1tl : ∀ n ∈ ids1, n ≠ sg.tailId :=
    fun n hn e => htin (e ▸ List.mem_append_left _ hn)
  have hseg1 : segB w sg.tailId ((getNode w sg.headId).next.getD sg.tailId) ids1 c
      = true := dlinked_seg_to w sg.tailId ids1 sg.headId c hdl1 hids1tl
  have hseg1' : segB (setAborted w false) sg.tailId
      ((getNode (setAborted w false) sg.headId).next.getD sg.tailId) ids1 c = true := by
    rw [segB_congr (setAborted w false) w sg.tailId (fun n => rfl)]
    exact hseg1
  have hinert1 : ∀ n ∈ ids1, isInert (getNode (setAborted w false) n).act = true :=
    fun n hn => isRet_inert _ (hret n hn)
  have hlive1 : liveIds (setAborted w false) ids1 = ids1 :=
    liveIds_all _ _ (fun n hn => dlinked_connected w c ids1 sg.headId hdl1 n hn)
      (fun n hn => hunb n (List.mem_append_left _ hn))
  have herr1 : inertErr (setAborted w false) ids1 = false :=
    inertErr_of_ret _ _ (fun n hn => hret n hn)
  have hconnc : isConnected (setAborted w false) c = true := by
    show (getNode w c).prev.isSome = true
    rw [hcp]
    rfl
  have hunbc : (getNode (setAborted w false) c).blocked = false := hunb c hcmem
  have hract : ∀ nested, runAct nested (setCurrentConn (setAborted w false) (some c))
      i arg (getNode (setAborted w false) c).act =
      some ({ disconnectNode w c with
        tl := { currentConn := some c, aborted := true } }, some v2, false) := by
    intro nested
    show runAct nested (setCurrentConn (setAborted w false) (some c)) i arg
      (getNode w c).act = _
    rw [hact]
    show some (disconnectNode
      (setAborted (setCurrentConn (setAborted w false) (some c)) true) c,
      some v2, false) = _
    rw [show setAborted (setCurrentConn (setAborted w false) (some c)) true =
      { w with tl := { currentConn := some c, aborted := true } } from rfl]
    rw [disconnectNode_withTL]
  have hfin : setAborted ({ disconnectNode w c with
      tl := { currentConn := w.tl.currentConn, aborted := true } }) w.tl.aborted
      = disconnectNode w c := by
    show ({ disconnectNode w c with
      tl := { currentConn := w.tl.currentConn, aborted := w.tl.aborted } } : World)
      = disconnectNode w c
    rw [← htlD]
  rw [invoke]
  unfold invokeAux
  rw [hsg]
  simp only []
  rw [runLoop_seg _ ids1 (setAborted w false) i arg sg.tailId
    ((getNode (setAborted w false) sg.headId).next.getD sg.tailId) c [] [] false
    (k + 1) hseg1' hinert1 rfl]
  simp only [List.nil_append, Bool.false_or]
  rw [hlive1, herr1]
  rw [runLoop_abort_step _ k (setAborted w false) i arg c sg.tailId _ ids1 false
    _ ({ disconnectNode w c with
      tl := { currentConn := w.tl.currentConn, aborted := true } }) v2
    false hctail hconnc hunbc (hract _) rfl rfl]
  simp only []
  rw [hfin]
  exact ⟨inertVals (setAborted w false) arg ids1 ++ [v2], rfl⟩

/-- An emission of signal `i0` during which slot `x` re-entrantly invokes
signal `i1`, whose slot `y` calls `abort_emission`: the abort is confined to
the inner emission (the flag is saved and restored by the inner
`abort_scope`), so the outer emission still executes all its slots and the
final world is the starting one. -/
theorem nested_outer_emission (w : World) (i0 i1 : Nat) (arg argN : Int)
    (sg0 sg1 : Sig) (ids1 ids2 jds1 jds2 : List Nat) (x y : Nat) (vx vy : Int)
    (k : Nat)
    (hsg0 : w.sigs.get? i0 = some sg0)
    (hgood0 : goodSigB w sg0 (ids1 ++ x :: ids2) = true)
    (hret0 : ∀ n ∈ ids1 ++ ids2, isRet (getNode w n).act = true)
    (hunb0 : ∀ n ∈ ids1 ++ x :: ids2, (getNode w n).blocked = false)
    (hactx : (getNode w x).act = .invokeNested i1 argN vx)
    (hsg1 : w.sigs.get? i1 = some sg1)
    (hgood1 : goodSigB w sg1 (jds1 ++ y :: jds2) = true)
    (hret1 : ∀ n ∈ jds1, isRet (getNode w n).act = true)
    (hunb1 : ∀ n ∈ jds1 ++ y :: jds2, (getNode w n).blocked = false)
    (hacty : (getNode w y).act = .abortEmission vy)
    (hF2 : jds1.length + 2 ≤ ids1.length + (1 + (ids2.length + (k + 1)))) :
    ∃ vs, invoke (ids1.length + (1 + (ids2.length + (k + 1))) + 1) w i0 arg =
      some ⟨w, vs, ids1 ++ x :: ids2, false⟩ := by
  obtain ⟨hdl, hhp, htn, hhin, htin, hht, hnd, hbound, hbh, hbt⟩ :=
    goodSig_parts w sg0 (ids1 ++ x :: ids2) hgood0
  have hxmem : x ∈ ids1 ++ x :: ids2 := by simp
  have hxtail : x ≠ sg0.tailId := fun e => htin (e ▸ hxmem)
  obtain ⟨hdl1, hdl2⟩ := (dlinked_split w sg0.tailId ids1 sg0.headId x ids2).mp hdl
  have hxp : (getNode w x).prev = some (lastAnchor sg0.headId ids1) :=
    (dlinked_last w x ids1 sg0.headId hdl1).2
  have hxn : (getNode w x).next = some (firstAnchor sg0.tailId ids2) :=
    dlinked_next_first w x sg0.tailId ids2 hdl2
  -- the inner emission at the in-scope world
  have hgood1' : goodSigB (setCurrentConn (setAborted w false) (some x)) sg1
      (jds1 ++ y :: jds2) = true := by
    rw [goodSigB_congr_links (setCurrentConn (setAborted w false) (some x)) w sg1
      (jds1 ++ y :: jds2) (fun n => ⟨rfl, rfl⟩) rfl]
    exact hgood1
  obtain ⟨k2, hk2⟩ : ∃ k2, ids1.length + (1 + (ids2.length + (k + 1)))
      = jds1.length + (k2 + 1) + 1 :=
    ⟨ids1.length + (1 + (ids2.length + (k + 1))) - jds1.length - 2, by omega⟩
  obtain ⟨vsI, hinner⟩ := abort_inner_emission
    (setCurrentConn (setAborted w false) (some x)) i1 argN sg1 jds1 jds2 y vy k2
    hsg1 hgood1' (fun n hn => hret1 n hn) (fun n hn => hunb1 n hn)
    hacty
  rw [← hk2] at hinner
  -- the prefix before x
  have hids1tl : ∀ n ∈ ids1, n ≠ sg0.tailId :=
    fun n hn e => htin (e ▸ List.mem_append_left _ hn)
  have hseg1 : segB w sg0.tailId ((getNode w sg0.headId).next.getD sg0.tailId) ids1 x
      = true := dlinked_seg_to w sg0.tailId ids1 sg0.headId x hdl1 hids1tl
  have hseg1' : segB (setAborted w false) sg0.tailId
      ((getNode (setAborted w false) sg0.headId).next.getD sg0.tailId) ids1 x = true := by
    rw [segB_congr (setAborted w false) w sg0.tailId (fun n => rfl)]
    exact hseg1
  have hinert1 : ∀ n ∈ ids1, isInert (getNode (setAborted w false) n).act = true :=
    fun n hn => isRet_inert _ (hret0 n (List.mem_append_left _ hn))
  have hlive1 : liveIds (setAborted w false) ids1 = ids1 :=
    liveIds_all _ _ (fun n hn => dlinked_connected w x ids1 sg0.headId hdl1 n hn)
      (fun n hn => hunb0 n (List.mem_append_left _ hn))
  have herr1 : inertErr (setAborted w false) ids1 = false :=
    inertErr_of_ret _ _ (fun n hn => hret0 n (List.mem_append_left _ hn))
  -- the step at x, performing the nested emission
  have hconnx : isConnected (setAborted w false) x = true := by
    show (getNode w x).prev.isSome = true
    rw [hxp]
    rfl
  have hunbx : (getNode (setAborted w false) x).blocked = false := hunb0 x hxmem
  have hract : runAct (fun w2 j a2 =>
      (invoke (ids1.length + (1 + (ids2.length + (k + 1)))) w2 j a2).map
        fun r => (r.world, r.err))
      (setCurrentConn (setAborted w false) (some x)) i0 arg
      (getNode (setAborted w false) x).act
      = some (setCurrentConn (setAborted w false) (some x), some vx, false) := by
    show runAct _ (setCurrentConn (setAborted w false) (some x)) i0 arg
      (getNode w x).act = _
    rw [hactx]
    simp only [runAct]
    rw [hinner]
    simp only [Option.map_some']
    rfl
  -- the suffix after x, in the unchanged world
  have hseg2 : segB (setAborted w false) sg0.tailId
      (firstAnchor sg0.tailId ids2) ids2 sg0.tailId = true := by
    have hw0 := dlinked_seg w sg0.tailId ids2 x hdl2
      (fun n hn e => htin (e ▸ (by simp [hn] : n ∈ ids1 ++ x :: ids2)))
    rw [hxn] at hw0
    rw [segB_congr (setAborted w false) w sg0.tailId (fun n => rfl)]
    simpa using hw0
  have hinert2 : ∀ n ∈ ids2, isInert (getNode (setAborted w false) n).act = true :=
    fun n hn => isRet_inert _ (hret0 n (List.mem_append_right _ hn))
  have hlive2 : liveIds (setAborted w false) ids2 = ids2 :=
    liveIds_all _ _ (fun n hn => dlinked_connected w sg0.tailId ids2 x hdl2 n hn)
      (fun n hn => hunb0 n (by simp [hn]))
  have herr2 : inertErr (setAborted w false) ids2 = false :=
    inertErr_of_ret _ _ (fun n hn => hret0 n (List.mem_append_right _ hn))
  -- assemble the emission
  rw [invoke]
  unfold invokeAux
  rw [hsg0]
  simp only []
  rw [runLoop_seg _ ids1 (setAborted w false) i0 arg sg0.tailId
    ((getNode (setAborted w false) sg0.headId).next.getD sg0.tailId) x [] [] false
    (1 + (ids2.length + (k + 1))) hseg1' hinert1 rfl]
  simp only [List.nil_append, Bool.false_or]
  rw [hlive1, herr1]
  nth_rewrite 2 [show 1 + (ids2.length + (k + 1)) = (ids2.length + (k + 1)) + 1 from
    Nat.add_comm _ _]
  rw [runLoop_exec_step _ (ids2.length + (k + 1)) (setAborted w false) i0 arg x
    sg0.tailId _ ids1 false _ (setAborted w false) vx false
    (firstAnchor sg0.tailId ids2) hxtail hconnx hunbx hract rfl rfl
    (by show (getNode w x).next = _; exact hxn)]
  rw [runLoop_seg _ ids2 (setAborted w false) i0 arg sg0.tailId
    (firstAnchor sg0.tailId ids2) sg0.tailId _ _ _ (k + 1) hseg2 hinert2 rfl]
  rw [runLoop_at_tail]
  simp only []
  rw [hlive2, herr2]
  rw [show setAborted (setAborted w false) w.tl.aborted = w from setAborted_self w]
  refine ⟨inertVals (setAborted w false) arg ids1 ++ [vx] ++
    inertVals (setAborted w false) arg ids2, ?_⟩
  simp

/-- C4: `abort_emission` stops the current emission after the calling slot —
no later slot of that emission is executed — without disconnecting the
skipped slots: in world `wA`, slot `q` aborts (and disconnects itself, so the
effect on the following emission is observable), the skipped slots `ids2`
stay connected, and the next emission executes them.  In nested emissions
(world `wN`: the outer signal's slot `x` re-entrantly invokes signal `i1`
whose slot `y` aborts), only the innermost emission is cut short — the inner
walk stops at `y`, while the enclosing emission still executes all its slots,
because each `invoke` saves and restores the abort flag in its
`abort_scope`. -/
theorem claim_C4 (wA : World) (iA : Nat) (argA argA2 : Int) (sgA : Sig)
    (ids1 ids2 : List Nat) (q : Nat) (v1 v2 : Int)
    (wN : World) (i0 i1 : Nat) (arg argN : Int) (sg0 sg1 : Sig)
    (kds1 kds2 jds1 jds2 : List Nat) (x y : Nat) (vx vy : Int) (F : Nat)
    (hsgA : wA.sigs.get? iA = some sgA)
    (hgoodA : goodSigB wA sgA (ids1 ++ q :: ids2) = true)
    (hretA : ∀ n ∈ ids1 ++ ids2, isRet (getNode wA n).act = true)
    (hunbA : ∀ n ∈ ids1 ++ q :: ids2, (getNode wA n).blocked = false)
    (hactA : (getNode wA q).act = .seq (.abortEmission v1) (.disconnectSelf v2))
    (hsg0 : wN.sigs.get? i0 = some sg0)
    (hgood0 : goodSigB wN sg0 (kds1 ++ x :: kds2) = true)
    (hret0 : ∀ n ∈ kds1 ++ kds2, isRet (getNode wN n).act = true)
    (hunb0 : ∀ n ∈ kds1 ++ x :: kds2, (getNode wN n).blocked = false)
    (hactx : (getNode wN x).act = .invokeNested i1 argN vx)
    (hsg1 : wN.sigs.get? i1 = some sg1)
    (hgood1 : goodSigB wN sg1 (jds1 ++ y :: jds2) = true)
    (hret1 : ∀ n ∈ jds1, isRet (getNode wN n).act = true)
    (hunb1 : ∀ n ∈ jds1 ++ y :: jds2, (getNode wN n).blocked = false)
    (hacty : (getNode wN y).act = .abortEmission vy)
    (hFA : ids1.length + ids2.length + 3 ≤ F)
    (hFN : kds1.length + kds2.length + 3 ≤ F)
    (hFJ : jds1.length + 3 ≤ F) :
    (∃ r, invoke F wA iA argA = some r ∧
      r.execs = ids1 ++ [q] ∧
      (∀ n ∈ ids2, isConnected r.world n = true) ∧
      ∃ r2, invoke F r.world iA argA2 = some r2 ∧ r2.execs = ids1 ++ ids2) ∧
    (∃ r, invoke F wN i1 argN = some r ∧ r.execs = jds1 ++ [y] ∧ r.world = wN) ∧
    (∃ r, invoke F wN i0 arg = some r ∧ r.execs = kds1 ++ x :: kds2 ∧
      r.world = wN) := by
  refine ⟨?_, ?_, ?_⟩
  · obtain ⟨kA, hkA⟩ : ∃ kA, F = ids1.length + (kA + 1) + 1 :=
      ⟨F - ids1.length - 2, by omega⟩
    obtain ⟨vs, hfirst⟩ := abort_self_emission wA iA argA sgA ids1 ids2 q v1 v2 kA
      hsgA hgoodA (fun n hn => hretA n (List.mem_append_left _ hn)) hunbA hactA
    rw [← hkA] at hfirst
    obtain ⟨hdlA, -, -, -, -, -, hndA, -, -, -⟩ :=
      goodSig_parts wA sgA (ids1 ++ q :: ids2) hgoodA
    obtain ⟨-, hdl2A⟩ := (dlinked_split wA sgA.tailId ids1 sgA.headId q ids2).mp hdlA
    obtain ⟨hgoodD, hprevD, -, -, hsigsD, -, -, -, hbaD, hkeepD⟩ :=
      disconnect_chain wA sgA ids1 ids2 q hgoodA
    have hq_not2 : q ∉ ids2 := (List.nodup_cons.mp hndA.of_append_right).1
    have hconn2 : ∀ n ∈ ids2, isConnected (disconnectNode wA q) n = true := by
      intro n hn
      exact hkeepD n (fun e => hq_not2 (e ▸ hn))
        (dlinked_connected wA sgA.tailId ids2 q hdl2A n hn)
    obtain ⟨kB, hkB⟩ : ∃ kB, F = (ids1 ++ ids2).length + kB + 1 :=
      ⟨F - ids1.length - ids2.length - 1, by simp only [List.length_append]; omega⟩
    have hsg' : (disconnectNode wA q).sigs.get? iA = some sgA := by
      rw [hsigsD]
      exact hsgA
    have hseg' : segB (disconnectNode wA q) sgA.tailId
        ((getNode (disconnectNode wA q) sgA.headId).next.getD sgA.tailId)
        (ids1 ++ ids2) sgA.tailId = true :=
      goodSig_seg (disconnectNode wA q) sgA (ids1 ++ ids2) hgoodD
    have hinert' : ∀ n ∈ ids1 ++ ids2,
        isInert (getNode (disconnectNode wA q) n).act = true := by
      intro n hn
      rw [(hbaD n).2]
      exact isRet_inert _ (hretA n hn)
    have hsecond := invoke_inert (disconnectNode wA q) iA argA2 sgA (ids1 ++ ids2)
      kB hsg' hseg' hinert'
    rw [← hkB] at hsecond
    have hliveD : liveIds (disconnectNode wA q) (ids1 ++ ids2) = ids1 ++ ids2 := by
      apply liveIds_all
      · obtain ⟨hdl2, -, -, -, -, -, -, -, -, -⟩ :=
          goodSig_parts (disconnectNode wA q) sgA (ids1 ++ ids2) hgoodD
        exact dlinked_connected _ sgA.tailId (ids1 ++ ids2) sgA.headId hdl2
      · intro n hn
        rw [(hbaD n).1]
        refine hunbA n ?_
        rcases List.mem_append.mp hn with h1 | h2
        · exact List.mem_append_left _ h1
        · exact List.mem_append_right _ (List.mem_cons_of_mem _ h2)
    have herrD : inertErr (disconnectNode wA q) (ids1 ++ ids2) = false := by
      apply inertErr_of_ret
      intro n hn
      rw [(hbaD n).2]
      exact hretA n hn
    rw [hliveD, herrD] at hsecond
    exact ⟨_, hfirst, rfl, hconn2, _, hsecond, rfl⟩
  · obtain ⟨kJ, hkJ⟩ : ∃ kJ, F = jds1.length + (kJ + 1) + 1 :=
      ⟨F - jds1.length - 2, by omega⟩
    obtain ⟨vs, hinner⟩ := abort_inner_emission wN i1 argN sg1 jds1 jds2 y vy kJ
      hsg1 hgood1 hret1 hunb1 hacty
    rw [← hkJ] at hinner
    exact ⟨_, hinner, rfl, rfl⟩
  · obtain ⟨kN, hkN⟩ : ∃ kN, F = kds1.length + (1 + (kds2.length + (kN + 1))) + 1 :=
      ⟨F - kds1.length - kds2.length - 3, by omega⟩
    obtain ⟨vs, houter⟩ := nested_outer_emission wN i0 i1 arg argN sg0 sg1
      kds1 kds2 jds1 jds2 x y vx vy kN hsg0 hgood0 hret0 hunb0 hactx hsg1 hgood1
      hret1 hunb1 hacty (by omega)
    rw [← hkN] at houter
    exact ⟨_, houter, rfl, rfl⟩

/-- C4 witness: in `exWorldA` slot 2 aborts and disconnects itself (slot 3 is
skipped, stays connected, and runs in the next emission); in `exWorldN`
signal 1's slot 6 aborts the inner emission only, and signal 0's emission
executes both of its slots. -/
theorem claim_C4_witness :
    (exWorldA.sigs.get? 0 = some exSig ∧
      goodSigB exWorldA exSig ([] ++ 2 :: [3]) = true ∧
      (∀ n ∈ [] ++ [3], isRet (getNode exWorldA n).act = true) ∧
      (∀ n ∈ [] ++ 2 :: [3], (getNode exWorldA n).blocked = false) ∧
      (getNode exWorldA 2).act = .seq (.abortEmission 1) (.disconnectSelf 4) ∧
      exWorldN.sigs.get? 0 = some exSig ∧
      goodSigB exWorldN exSig ([] ++ 4 :: [5]) = true ∧
      (∀ n ∈ [] ++ [5], isRet (getNode exWorldN n).act = true) ∧
      (∀ n ∈ [] ++ 4 :: [5], (getNode exWorldN n).blocked = false) ∧
      (getNode exWorldN 4).act = .invokeNested 1 0 11 ∧
      exWorldN.sigs.get? 1 = some exSigN ∧
      goodSigB exWorldN exSigN ([] ++ 6 :: [7]) = true ∧
      (∀ n ∈ ([] : List Nat), isRet (getNode exWorldN n).act = true) ∧
      (∀ n ∈ [] ++ 6 :: [7], (getNode exWorldN n).blocked = false) ∧
      (getNode exWorldN 6).act = .abortEmission 1) ∧
    ((∃ r, invoke 4 exWorldA 0 0 = some r ∧
      r.execs = [] ++ [2] ∧
      (∀ n ∈ [3], isConnected r.world n = true) ∧
      ∃ r2, invoke 4 r.world 0 0 = some r2 ∧ r2.execs = [] ++ [3]) ∧
    (∃ r, invoke 4 exWorldN 1 0 = some r ∧ r.execs = [] ++ [6] ∧
      r.world = exWorldN) ∧
    (∃ r, invoke 4 exWorldN 0 0 = some r ∧ r.execs = [] ++ 4 :: [5] ∧
      r.world = exWorldN)) :=
  ⟨⟨by decide, by decide, by decide, by decide, by decide, by decide, by decide,
    by decide, by decide, by decide, by decide, by decide, by decide, by decide,
    by decide⟩,
    claim_C4 exWorldA 0 0 0 exSig [] [3] 2 1 4 exWorldN 0 1 0 0 exSig exSigN
      [] [5] [] [7] 4 6 11 1 4
      (by decide) (by decide) (by decide) (by decide) (by decide) (by decide)
      (by decide) (by decide) (by decide) (by decide) (by decide) (by decide)
      (by decide) (by decide) (by decide) (by decide) (by decide) (by decide)⟩

/-! ### C9: the `stable_list` size counter -/

theorem getL_setL (w : LWorld) (m : Nat) (nd : LNode) (n : Nat) :
    getL (setL w m nd) n = if m = n ∧ m < w.heap.length then nd else getL w n := by
  by_cases hmn : m = n
  · subst hmn
    by_cases hlt : m < w.heap.length
    · simp [getL, setL, getD_set_self _ _ _ _ hlt, hlt]
    · simp only [getL, setL]
      rw [set_oob _ _ _ (Nat.le_of_not_lt hlt)]
      simp [hlt]
  · simp [getL, setL, getD_set_ne _ _ _ _ _ hmn, hmn]

theorem heap_length_setL (w : LWorld) (m : Nat) (nd : LNode) :
    (setL w m nd).heap.length = w.heap.length := by
  simp [setL]

theorem elements_setL (w : LWorld) (m : Nat) (nd : LNode) :
    (setL w m nd).elements = w.elements := rfl

theorem headId_setL (w : LWorld) (m : Nat) (nd : LNode) :
    (setL w m nd).headId = w.headId := rfl

theorem tailId_setL (w : LWorld) (m : Nat) (nd : LNode) :
    (setL w m nd).tailId = w.tailId := rfl

theorem prev_setNextL (w : LWorld) (m : Nat) (p : Option Nat) (n : Nat) :
    (getL (setNextL w m p) n).prev = (getL w n).prev := by
  rw [setNextL, getL_setL]
  split
  · next h => rw [← h.1]
  · rfl

theorem next_setPrevL (w : LWorld) (m : Nat) (p : Option Nat) (n : Nat) :
    (getL (setPrevL w m p) n).next = (getL w n).next := by
  rw [setPrevL, getL_setL]
  split
  · next h => rw [← h.1]
  · rfl

theorem val_setPrevL (w : LWorld) (m : Nat) (p : Option Nat) (n : Nat) :
    (getL (setPrevL w m p) n).val = (getL w n).val := by
  rw [setPrevL, getL_setL]
  split
  · next h => rw [← h.1]
  · rfl

theorem val_setNextL (w : LWorld) (m : Nat) (p : Option Nat) (n : Nat) :
    (getL (setNextL w m p) n).val = (getL w n).val := by
  rw [setNextL, getL_setL]
  split
  · next h => rw [← h.1]
  · rfl

theorem prev_setPrevL_self (w : LWorld) (m : Nat) (p : Option Nat)
    (h : m < w.heap.length) : (getL (setPrevL w m p) m).prev = p := by
  rw [setPrevL, getL_setL, if_pos ⟨rfl, h⟩]

theorem prev_setPrevL_ne (w : LWorld) (m : Nat) (p : Option Nat) (n : Nat)
    (h : m ≠ n) : (getL (setPrevL w m p) n).prev = (getL w n).prev := by
  rw [setPrevL, getL_setL, if_neg (fun hc => h hc.1)]

theorem next_setNextL_self (w : LWorld) (m : Nat) (p : Option Nat)
    (h : m < w.heap.length) : (getL (setNextL w m p) m).next = p := by
  rw [setNextL, getL_setL, if_pos ⟨rfl, h⟩]

theorem next_setNextL_ne (w : LWorld) (m : Nat) (p : Option Nat) (n : Nat)
    (h : m ≠ n) : (getL (setNextL w m p) n).next = (getL w n).next := by
  rw [setNextL, getL_setL, if_neg (fun hc => h hc.1)]

theorem getL_setPrevL_ne (w : LWorld) (m : Nat) (p : Option Nat) (n : Nat)
    (h : m ≠ n) : getL (setPrevL w m p) n = getL w n := by
  rw [setPrevL, getL_setL, if_neg (fun hc => h hc.1)]

theorem getL_setNextL_ne (w : LWorld) (m : Nat) (p : Option Nat) (n : Nat)
    (h : m ≠ n) : getL (setNextL w m p) n = getL w n := by
  rw [setNextL, getL_setL, if_neg (fun hc => h hc.1)]

theorem heap_length_setPrevL (w : LWorld) (m : Nat) (p : Option Nat) :
    (setPrevL w m p).heap.length = w.heap.length := heap_length_setL _ _ _

theorem heap_length_setNextL (w : LWorld) (m : Nat) (p : Option Nat) :
    (setNextL w m p).heap.length = w.heap.length := heap_length_setL _ _ _

theorem elements_setPrevL (w : LWorld) (m : Nat) (p : Option Nat) :
    (setPrevL w m p).elements = w.elements := rfl

theorem elements_setNextL (w : LWorld) (m : Nat) (p : Option Nat) :
    (setNextL w m p).elements = w.elements := rfl

theorem headId_setPrevL (w : LWorld) (m : Nat) (p : Option Nat) :
    (setPrevL w m p).headId = w.headId := rfl

theorem headId_setNextL (w : LWorld) (m : Nat) (p : Option Nat) :
    (setNextL w m p).headId = w.headId := rfl

theorem tailId_setPrevL (w : LWorld) (m : Nat) (p : Option Nat) :
    (setPrevL w m p).tailId = w.tailId := rfl

theorem tailId_setNextL (w : LWorld) (m : Nat) (p : Option Nat) :
    (setNextL w m p).tailId = w.tailId := rfl

theorem getL_append (w : LWorld) (nd : LNode) (n : Nat) :
    getL { w with heap := w.heap ++ [nd] } n =
      if n = w.heap.length then nd else getL w n := by
  by_cases hn : n = w.heap.length
  · subst hn
    simp [getL, getD_append_self]
  · simp only [getL, if_neg hn]
    by_cases hlt : n < w.heap.length
    · exact getD_append_lt _ _ _ _ hlt
    · have hge : w.heap.length ≤ n := Nat.le_of_not_lt hlt
      rw [List.getD_eq_default _ _ (by simp; omega),
        List.getD_eq_default _ _ hge]

theorem dlinkedL_split (w : LWorld) (b : Nat) :
    ∀ (ids1 : List Nat) (a h : Nat) (ids2 : List Nat),
    dlinkedLB w a (ids1 ++ h :: ids2) b = true ↔
      (dlinkedLB w a ids1 h = true ∧ dlinkedLB w h ids2 b = true) := by
  intro ids1
  induction ids1 with
  | nil =>
    intro a h ids2
    simp [dlinkedLB, Bool.and_eq_true, and_assoc]
  | cons x xs ih =>
    intro a h ids2
    rw [List.cons_append]
    simp only [dlinkedLB, Bool.and_eq_true]
    rw [ih x h ids2]
    tauto

theorem dlinkedL_prev_first (w : LWorld) (a b : Nat) (ids : List Nat)
    (h : dlinkedLB w a ids b = true) :
    (getL w (firstAnchor b ids)).prev = some a := by
  cases ids with
  | nil =>
    simp only [dlinkedLB, Bool.and_eq_true, beq_iff_eq] at h
    simpa [firstAnchor] using h.2
  | cons x xs =>
    simp only [dlinkedLB, Bool.and_eq_true, beq_iff_eq] at h
    exact h.1.2

theorem dlinkedL_next_first (w : LWorld) (a b : Nat) (ids : List Nat)
    (h : dlinkedLB w a ids b = true) :
    (getL w a).next = some (firstAnchor b ids) := by
  cases ids with
  | nil =>
    simp only [dlinkedLB, Bool.and_eq_true, beq_iff_eq] at h
    simpa [firstAnchor] using h.1
  | cons x xs =>
    simp only [dlinkedLB, Bool.and_eq_true, beq_iff_eq] at h
    exact h.1.1

theorem dlinkedL_last (w : LWorld) (b : Nat) :
    ∀ (ids : List Nat) (a : Nat), dlinkedLB w a ids b = true →
    (getL w (lastAnchor a ids)).next = some b ∧
    (getL w b).prev = some (lastAnchor a ids) := by
  intro ids
  induction ids with
  | nil =>
    intro a h
    simp only [dlinkedLB, Bool.and_eq_true, beq_iff_eq] at h
    exact ⟨h.1, h.2⟩
  | cons x xs ih =>
    intro a h
    simp only [dlinkedLB, Bool.and_eq_true, beq_iff_eq] at h
    exact ih x (by simp [h.2])

theorem dlinkedL_congr_fields (w w' : LWorld) :
    ∀ (ids : List Nat) (a b : Nat),
    (∀ n ∈ ids, (getL w' n).next = (getL w n).next ∧
      (getL w' n).prev = (getL w n).prev) →
    (getL w' a).next = (getL w a).next →
    (getL w' b).prev = (getL w b).prev →
    dlinkedLB w a ids b = true → dlinkedLB w' a ids b = true := by
  intro ids
  induction ids with
  | nil =>
    intro a b _ hna hpb h
    simp only [dlinkedLB, Bool.and_eq_true, beq_iff_eq] at h ⊢
    rw [hna, hpb]
    exact h
  | cons x xs ih =>
    intro a b hint hna hpb h
    simp only [dlinkedLB, Bool.and_eq_true, beq_iff_eq] at h ⊢
    obtain ⟨⟨h1, h2⟩, h3⟩ := h
    refine ⟨⟨by rw [hna]; exact h1, by rw [(hint x (by simp)).2]; exact h2⟩, ?_⟩
    exact ih x b (fun n hn => hint n (by simp [hn]))
      (hint x (by simp)).1 hpb h3

theorem dlinkedL_swap_end (w w' : LWorld) :
    ∀ (ids : List Nat) (a h h' : Nat),
    dlinkedLB w a ids h = true →
    a ∉ ids → ids.Nodup →
    (∀ n ∈ a :: ids, n ≠ lastAnchor a ids → (getL w' n).next = (getL w n).next) →
    (∀ n ∈ ids, (getL w' n).prev = (getL w n).prev) →
    (getL w' (lastAnchor a ids)).next = some h' →
    (getL w' h').prev = some (lastAnchor a ids) →
    dlinkedLB w' a ids h' = true := by
  intro ids
  induction ids with
  | nil =>
    intro a h h' _ _ _ _ _ hbn hbp
    simp only [lastAnchor] at hbn hbp
    simp [dlinkedLB, hbn, hbp]
  | cons x xs ih =>
    intro a h h' hdl ha hnd hnint hpint hbn hbp
    simp only [dlinkedLB, Bool.and_eq_true, beq_iff_eq] at hdl
    obtain ⟨⟨h1, h2⟩, h3⟩ := hdl
    have hlam : lastAnchor a (x :: xs) = lastAnchor x xs := rfl
    have hane : a ≠ lastAnchor a (x :: xs) := by
      rw [hlam]
      intro he
      exact ha (he ▸ lastAnchor_mem x xs)
    simp only [dlinkedLB, Bool.and_eq_true, beq_iff_eq]
    refine ⟨⟨?_, ?_⟩, ?_⟩
    · rw [hnint a (by simp) hane]
      exact h1
    · rw [hpint x (by simp)]
      exact h2
    · exact ih x h h' h3 (List.nodup_cons.mp hnd).1 (List.nodup_cons.mp hnd).2
        (fun n hn hne => hnint n (List.mem_cons_of_mem a hn) (hlam ▸ hne))
        (fun n hn => hpint n (by simp [hn]))
        (hlam ▸ hbn) (hlam ▸ hbp)

theorem dlinkedL_swap_front (w w' : LWorld) (ids : List Nat) (a a' b : Nat)
    (hdl : dlinkedLB w a ids b = true)
    (hb : b ∉ ids) (hnd : ids.Nodup)
    (hnint : ∀ n ∈ ids, (getL w' n).next = (getL w n).next)
    (hpint : ∀ n ∈ ids ++ [b], n ≠ firstAnchor b ids →
      (getL w' n).prev = (getL w n).prev)
    (hfn : (getL w' a').next = some (firstAnchor b ids))
    (hfp : (getL w' (firstAnchor b ids)).prev = some a') :
    dlinkedLB w' a' ids b = true := by
  cases ids with
  | nil =>
    simp only [firstAnchor] at hfn hfp
    simp [dlinkedLB, hfn, hfp]
  | cons y rest =>
    have hfa : firstAnchor b (y :: rest) = y := rfl
    simp only [dlinkedLB, Bool.and_eq_true, beq_iff_eq] at hdl ⊢
    obtain ⟨⟨h1, h2⟩, h3⟩ := hdl
    refine ⟨⟨by rw [hfn]; rfl, by rw [hfa] at hfp; exact hfp⟩, ?_⟩
    apply dlinkedL_congr_fields w w' rest y b
    · intro n hn
      have hy_not : y ∉ rest := (List.nodup_cons.mp hnd).1
      refine ⟨hnint n (by simp [hn]), hpint n (by simp [hn]) ?_⟩
      rw [hfa]
      exact fun e => hy_not (e ▸ hn)
    · exact hnint y (by simp)
    · refine hpint b (by simp) ?_
      rw [hfa]
      exact fun e => hb (by rw [e]; simp)
    · exact h3

/-- Splitting a chain at a boundary between two sublists: the prefix reaches
the first node of the suffix (or the far anchor), and the suffix hangs off
the last node of the prefix. -/
theorem dlinkedL_split_boundary (w : LWorld) (a b : Nat) (l1 l2 : List Nat)
    (h : dlinkedLB w a (l1 ++ l2) b = true) :
    dlinkedLB w a l1 (firstAnchor b l2) = true ∧
    dlinkedLB w (lastAnchor a l1) l2 b = true := by
  cases l2 with
  | nil =>
    rw [List.append_nil] at h
    refine ⟨h, ?_⟩
    obtain ⟨hn, hp⟩ := dlinkedL_last w b l1 a h
    simp [dlinkedLB, firstAnchor, lastAnchor, hn, hp]
  | cons c rest =>
    obtain ⟨h1, h2⟩ := (dlinkedL_split w b l1 a c rest).mp h
    refine ⟨h1, ?_⟩
    obtain ⟨hn, hp⟩ := dlinkedL_last w c l1 a h1
    simp only [dlinkedLB, Bool.and_eq_true, beq_iff_eq]
    exact ⟨⟨hn, hp⟩, h2⟩

theorem goodList_parts (w : LWorld) (ids : List Nat)
    (h : goodListB w ids = true) :
    dlinkedLB w w.headId ids w.tailId = true ∧
    (getL w w.headId).prev = none ∧
    (getL w w.tailId).next = none ∧
    w.headId ∉ ids ∧ w.tailId ∉ ids ∧ w.headId ≠ w.tailId ∧
    ids.Nodup ∧ (∀ n ∈ ids, n < w.heap.length) ∧
    w.headId < w.heap.length ∧ w.tailId < w.heap.length := by
  simp only [goodListB, Bool.and_eq_true, beq_iff_eq, List.all_eq_true,
    decide_eq_true_eq, nodupB_iff, List.nodup_cons, List.mem_cons] at h
  obtain ⟨⟨⟨⟨hdl, hhp⟩, htn⟩, ⟨hh, ht, hnd⟩⟩, hbound⟩ := h
  refine ⟨hdl, hhp, htn, ?_, ?_, ?_, hnd, ?_, ?_, ?_⟩
  · intro hmem
    exact hh (Or.inr hmem)
  · exact ht
  · intro heq
    exact hh (Or.inl heq)
  · intro n hn
    exact hbound n (Or.inr (Or.inr hn))
  · exact hbound _ (Or.inl rfl)
  · exact hbound _ (Or.inr (Or.inl rfl))

theorem makeLinkL_fields (w : LWorld) (l : Nat) (v : Int) (p : Nat)
    (hlp : (getL w l).prev = some p)
    (hpl : p < w.heap.length) (hll : l < w.heap.length) :
    (makeLinkL w l v).2 = w.heap.length ∧
    (makeLinkL w l v).1.heap.length = w.heap.length + 1 ∧
    (makeLinkL w l v).1.elements = w.elements + 1 ∧
    (makeLinkL w l v).1.headId = w.headId ∧
    (makeLinkL w l v).1.tailId = w.tailId ∧
    getL (makeLinkL w l v).1 w.heap.length =
      { prev := some p, next := some l, val := v } ∧
    (getL (makeLinkL w l v).1 p).next = some w.heap.length ∧
    (getL (makeLinkL w l v).1 l).prev = some w.heap.length ∧
    (∀ n, n ≠ p → n ≠ w.heap.length →
      (getL (makeLinkL w l v).1 n).next = (getL w n).next) ∧
    (∀ n, n ≠ l → n ≠ w.heap.length →
      (getL (makeLinkL w l v).1 n).prev = (getL w n).prev) ∧
    (∀ n, n ≠ p → n ≠ l → n ≠ w.heap.length →
      getL (makeLinkL w l v).1 n = getL w n) := by
  have hpnew : p ≠ w.heap.length := Nat.ne_of_lt hpl
  have hlnew : l ≠ w.heap.length := Nat.ne_of_lt hll
  set newId := w.heap.length with hnew
  set nd : LNode := { prev := some p, next := some l, val := v } with hnd
  set w1 : LWorld := { w with heap := w.heap ++ [nd] } with hw1def
  have hw1 : makeLinkL w l v =
      ({ setPrevL (setNextL w1 p (some newId)) l (some newId) with
        elements := (setPrevL (setNextL w1 p (some newId)) l (some newId)).elements
          + 1 }, newId) := by
    unfold makeLinkL
    rw [hlp]
  have hlen1 : w1.heap.length = w.heap.length + 1 := by simp [hw1def]
  have hg1 : ∀ n, getL w1 n = if n = newId then nd else getL w n :=
    fun n => getL_append w nd n
  set w2 := setNextL w1 p (some newId) with hw2
  set w3 := setPrevL w2 l (some newId) with hw3
  have hlen2 : w2.heap.length = w1.heap.length := heap_length_setNextL _ _ _
  have hlen3 : w3.heap.length = w2.heap.length := heap_length_setPrevL _ _ _
  have hget3 : ∀ n, getL { w3 with elements := w3.elements + 1 } n = getL w3 n :=
    fun n => rfl
  rw [hw1]
  refine ⟨rfl, ?_, ?_, ?_, ?_, ?_, ?_, ?_, ?_, ?_, ?_⟩
  · show w3.heap.length = w.heap.length + 1
    rw [hlen3, hlen2, hlen1]
  · show w3.elements + 1 = w.elements + 1
    rw [hw3, elements_setPrevL, hw2, elements_setNextL, hw1def]
  · show w3.headId = w.headId
    rw [hw3, headId_setPrevL, hw2, headId_setNextL, hw1def]
  · show w3.tailId = w.tailId
    rw [hw3, tailId_setPrevL, hw2, tailId_setNextL, hw1def]
  · rw [hget3, hw3, getL_setPrevL_ne _ _ _ _ (fun e => hlnew (by rw [e])),
      hw2, getL_setNextL_ne _ _ _ _ (fun e => hpnew (by rw [e])),
      hg1 newId, if_pos rfl]
  · rw [hget3, hw3, next_setPrevL, hw2,
      next_setNextL_self _ _ _ (by rw [hlen1]; exact Nat.lt_succ_of_lt hpl)]
  · rw [hget3, hw3, prev_setPrevL_self _ _ _
      (by rw [hlen2, hlen1]; exact Nat.lt_succ_of_lt hll)]
  · intro n hnp hnn
    rw [hget3, hw3, next_setPrevL, hw2, next_setNextL_ne _ _ _ _ (fun e => hnp e.symm),
      hg1 n, if_neg hnn]
  · intro n hnl hnn
    rw [hget3, hw3, prev_setPrevL_ne _ _ _ _ (fun e => hnl e.symm), hw2, prev_setNextL,
      hg1 n, if_neg hnn]
  · intro n hnp hnl hnn
    rw [hget3, hw3, getL_setPrevL_ne _ _ _ _ (fun e => hnl e.symm),
      hw2, getL_setNextL_ne _ _ _ _ (fun e => hnp e.symm),
      hg1 n, if_neg hnn]

/-- Effect of `make_link` before an arbitrary position on a well-formed
`stable_list`: the new node joins the chain between the two sublists and the
`elements` counter grows by exactly one. -/
theorem insertL_chain (w : LWorld) (l1 l2 : List Nat) (v : Int)
    (hgood : goodListB w (l1 ++ l2) = true) :
    goodListB (makeLinkL w (posOfL w l2) v).1 (l1 ++ w.heap.length :: l2) = true ∧
    (makeLinkL w (posOfL w l2) v).1.elements = w.elements + 1 := by
  obtain ⟨hdl, hhp, htn, hhin, htin, hht, hnd, hbound, hbh, hbt⟩ :=
    goodList_parts w (l1 ++ l2) hgood
  have hpos : posOfL w l2 = firstAnchor w.tailId l2 := by
    cases l2 <;> rfl
  obtain ⟨hdlA, hdlB⟩ := dlinkedL_split_boundary w w.headId w.tailId l1 l2 hdl
  have hqp : (getL w (firstAnchor w.tailId l2)).prev
      = some (lastAnchor w.headId l1) :=
    dlinkedL_prev_first w (lastAnchor w.headId l1) w.tailId l2 hdlB
  have hpmem : lastAnchor w.headId l1 ∈ w.headId :: l1 := lastAnchor_mem _ _
  have hqmem : firstAnchor w.tailId l2 ∈ l2 ∨ firstAnchor w.tailId l2 = w.tailId :=
    firstAnchor_mem _ _
  have hplt : lastAnchor w.headId l1 < w.heap.length := by
    rcases List.mem_cons.mp hpmem with he | hm
    · rw [he]
      exact hbh
    · exact hbound _ (List.mem_append_left _ hm)
  have hqlt : firstAnchor w.tailId l2 < w.heap.length := by
    rcases hqmem with hm | he
    · exact hbound _ (List.mem_append_right _ hm)
    · rw [he]
      exact hbt
  have hdisj : l1.Disjoint l2 := List.disjoint_of_nodup_append hnd
  have hq_notl1 : ∀ n ∈ l1, n ≠ firstAnchor w.tailId l2 := by
    intro n hn e
    rcases hqmem with hm | he
    · exact hdisj hn (e ▸ hm)
    · exact htin (List.mem_append_left _ ((e.trans he) ▸ hn))
  have hp_notl2 : ∀ n ∈ l2, n ≠ lastAnchor w.headId l1 := by
    intro n hn e
    rcases List.mem_cons.mp hpmem with he | hm
    · exact hhin (List.mem_append_right _ ((e.trans he) ▸ hn))
    · exact hdisj (e ▸ hm) hn
  have htl_ne_p : w.tailId ≠ lastAnchor w.headId l1 := by
    intro e
    rcases List.mem_cons.mp hpmem with he | hm
    · exact hht (by rw [he] at e; exact e.symm)
    · exact htin (List.mem_append_left _ (e ▸ hm))
  have hq_nothead : firstAnchor w.tailId l2 ≠ w.headId := by
    intro e
    rcases hqmem with hm | he
    · exact hhin (List.mem_append_right _ (e ▸ hm))
    · exact hht (by rw [← he, e])
  rw [hpos]
  obtain ⟨hm2, hmlen, hmel, hmhead, hmtail, hmnew, hmpn, hmqp, hmnext, hmprev,
    hmfull⟩ := makeLinkL_fields w (firstAnchor w.tailId l2) v
    (lastAnchor w.headId l1) hqp hplt hqlt
  refine ⟨?_, hmel⟩
  have hnewA : dlinkedLB (makeLinkL w (firstAnchor w.tailId l2) v).1 w.headId l1
      w.heap.length = true := by
    apply dlinkedL_swap_end w _ l1 w.headId (firstAnchor w.tailId l2) w.heap.length
      hdlA (fun hm => hhin (List.mem_append_left _ hm)) (hnd.of_append_left)
    · intro n hn hne
      refine hmnext n hne ?_
      rcases List.mem_cons.mp hn with he | hm
      · exact he ▸ Nat.ne_of_lt hbh
      · exact Nat.ne_of_lt (hbound n (List.mem_append_left _ hm))
    · intro n hn
      exact hmprev n (hq_notl1 n hn)
        (Nat.ne_of_lt (hbound n (List.mem_append_left _ hn)))
    · exact hmpn
    · rw [hmnew]
  have hnewB : dlinkedLB (makeLinkL w (firstAnchor w.tailId l2) v).1
      w.heap.length l2 w.tailId = true := by
    apply dlinkedL_swap_front w _ l2 (lastAnchor w.headId l1) w.heap.length
      w.tailId hdlB (fun hm => htin (List.mem_append_right _ hm))
      (hnd.of_append_right)
    · intro n hn
      exact hmnext n (hp_notl2 n hn)
        (Nat.ne_of_lt (hbound n (List.mem_append_right _ hn)))
    · intro n hn hne
      refine hmprev n hne ?_
      rcases List.mem_append.mp hn with hm | hm
      · exact Nat.ne_of_lt (hbound n (List.mem_append_right _ hm))
      · simp at hm
        exact hm ▸ Nat.ne_of_lt hbt
    · rw [hmnew]
    · exact hmqp
  have hdl' : dlinkedLB (makeLinkL w (firstAnchor w.tailId l2) v).1 w.headId
      (l1 ++ w.heap.length :: l2) w.tailId = true :=
    (dlinkedL_split _ w.tailId l1 w.headId w.heap.length l2).mpr ⟨hnewA, hnewB⟩
  simp only [goodListB, Bool.and_eq_true, beq_iff_eq, List.all_eq_true,
    decide_eq_true_eq, hmhead, hmtail, hmlen]
  refine ⟨⟨⟨⟨hdl', ?_⟩, ?_⟩, ?_⟩, ?_⟩
  · rw [hmprev w.headId (fun e => hq_nothead e.symm) (Nat.ne_of_lt hbh)]
    exact hhp
  · rw [hmnext w.tailId (fun e => htl_ne_p e) (Nat.ne_of_lt hbt)]
    exact htn
  · rw [nodupB_iff, List.nodup_cons, List.nodup_cons, List.nodup_middle,
      List.nodup_cons]
    have hnew_notin : w.heap.length ∉ l1 ++ l2 := by
      intro hm
      exact absurd (hbound _ hm) (lt_irrefl _)
    refine ⟨?_, ?_, hnew_notin, hnd⟩
    · intro hc
      rcases List.mem_cons.mp hc with he | hc2
      · exact hht he
      · rcases (List.mem_append.mp hc2) with hm | hm
        · exact hhin (List.mem_append_left _ hm)
        · rcases List.mem_cons.mp hm with he | hm2
          · exact Nat.ne_of_lt hbh he
          · exact hhin (List.mem_append_right _ hm2)
    · intro hc
      rcases (List.mem_append.mp hc) with hm | hm
      · exact htin (List.mem_append_left _ hm)
      · rcases List.mem_cons.mp hm with he | hm2
        · exact Nat.ne_of_lt hbt he
        · exact htin (List.mem_append_right _ hm2)
  · intro n hn
    rcases List.mem_cons.mp hn with he | hn2
    · exact he ▸ Nat.lt_succ_of_lt hbh
    · rcases List.mem_cons.mp hn2 with he | hn3
      · exact he ▸ Nat.lt_succ_of_lt hbt
      · rcases List.mem_append.mp hn3 with hm | hm
        · exact Nat.lt_succ_of_lt (hbound n (List.mem_append_left _ hm))
        · rcases List.mem_cons.mp hm with he | hm2
          · exact he ▸ Nat.lt_succ_self _
          · exact Nat.lt_succ_of_lt (hbound n (List.mem_append_right _ hm2))

theorem dlinkedLB_congr_eq (w' w : LWorld) (hf : ∀ n, getL w' n = getL w n) :
    ∀ (ids : List Nat) (a b : Nat), dlinkedLB w' a ids b = dlinkedLB w a ids b := by
  intro ids
  induction ids with
  | nil =>
    intro a b
    simp only [dlinkedLB, hf a, hf b]
  | cons x xs ih =>
    intro a b
    simp only [dlinkedLB, hf a, hf x, ih]

theorem goodListB_congr (w' w : LWorld) (ids : List Nat)
    (hf : ∀ n, getL w' n = getL w n)
    (hh : w'.headId = w.headId) (ht : w'.tailId = w.tailId)
    (hlen : w'.heap.length = w.heap.length) :
    goodListB w' ids = goodListB w ids := by
  unfold goodListB
  rw [dlinkedLB_congr_eq w' w hf ids _ _, hf, hf, hh, ht, hlen]

/-- Effect of `stable_list::erase` on a chain node: the neighbours are
relinked around it and the `elements` counter shrinks by exactly one. -/
theorem eraseL_chain (w : LWorld) (l1 l2 : List Nat) (n : Nat)
    (hgood : goodListB w (l1 ++ n :: l2) = true) :
    goodListB (eraseL w n) (l1 ++ l2) = true ∧
    (eraseL w n).elements = w.elements - 1 := by
  obtain ⟨hdl, hhp, htn, hhin, htin, hht, hnd, hbound, hbh, hbt⟩ :=
    goodList_parts w (l1 ++ n :: l2) hgood
  have hnmem : n ∈ l1 ++ n :: l2 := by simp
  obtain ⟨hdl1, hdl2⟩ := (dlinkedL_split w w.tailId l1 w.headId n l2).mp hdl
  have np : (getL w n).prev = some (lastAnchor w.headId l1) :=
    (dlinkedL_last w n l1 w.headId hdl1).2
  have nn : (getL w n).next = some (firstAnchor w.tailId l2) :=
    dlinkedL_next_first w n w.tailId l2 hdl2
  set p := lastAnchor w.headId l1 with hpdef
  set q := firstAnchor w.tailId l2 with hqdef
  set w' := setPrevL (setNextL w p (some q)) q (some p) with hwde
  have herase : eraseL w n =
      { w' with elements := w'.elements - 1 } := by
    simp only [eraseL]
    rw [np, nn]
  have hdisj : l1.Disjoint (n :: l2) := List.disjoint_of_nodup_append hnd
  have hn_not1 : n ∉ l1 := fun hc => hdisj hc (by simp)
  have hn_not2 : n ∉ l2 := (List.nodup_cons.mp hnd.of_append_right).1
  have hpmem : p ∈ w.headId :: l1 := hpdef ▸ lastAnchor_mem _ _
  have hqmem : q ∈ l2 ∨ q = w.tailId := hqdef ▸ firstAnchor_mem _ _
  have hplt : p < w.heap.length := by
    rcases List.mem_cons.mp hpmem with he | hm
    · rw [he]
      exact hbh
    · exact hbound _ (List.mem_append_left _ hm)
  have hqlt : q < w.heap.length := by
    rcases hqmem with hm | he
    · exact hbound _ (by simp [hm])
    · rw [he]
      exact hbt
  have hq_notl1 : ∀ m ∈ l1, m ≠ q := by
    intro m hm e
    rcases hqmem with hq2 | he
    · exact hdisj hm (e ▸ List.mem_cons_of_mem _ hq2)
    · exact htin (List.mem_append_left _ ((e.trans he) ▸ hm))
  have hp_notl2 : ∀ m ∈ l2, m ≠ p := by
    intro m hm e
    rcases List.mem_cons.mp hpmem with he | hp2
    · exact hhin (by simp [(e.trans he) ▸ hm])
    · exact hdisj (e ▸ hp2) (List.mem_cons_of_mem _ hm)
  have htl_ne_p : w.tailId ≠ p := by
    intro e
    rcases List.mem_cons.mp hpmem with he | hm
    · exact hht (e.trans he).symm
    · exact htin (List.mem_append_left _ (e ▸ hm))
  have hhd_ne_q : w.headId ≠ q := by
    intro e
    rcases hqmem with hm | he
    · exact hhin (by simp [e ▸ hm])
    · exact hht (e.trans he)
  -- field bookkeeping of the relink
  have hnext' : ∀ m, m ≠ p → (getL w' m).next = (getL w m).next := by
    intro m hmp
    rw [hwde, next_setPrevL, next_setNextL_ne _ _ _ _ (fun e => hmp e.symm)]
  have hpnext' : (getL w' p).next = some q := by
    rw [hwde, next_setPrevL, next_setNextL_self _ _ _ hplt]
  have hprev' : ∀ m, m ≠ q → (getL w' m).prev = (getL w m).prev := by
    intro m hmq
    rw [hwde, prev_setPrevL_ne _ _ _ _ (fun e => hmq e.symm), prev_setNextL]
  have hqprev' : (getL w' q).prev = some p := by
    rw [hwde, prev_setPrevL_self _ _ _ (by rw [heap_length_setNextL]; exact hqlt)]
  have hlen' : w'.heap.length = w.heap.length := by
    rw [hwde, heap_length_setPrevL, heap_length_setNextL]
  have hhead' : w'.headId = w.headId := by
    rw [hwde, headId_setPrevL, headId_setNextL]
  have htail' : w'.tailId = w.tailId := by
    rw [hwde, tailId_setPrevL, tailId_setNextL]
  -- the relinked chain
  have hdl' : dlinkedLB w' w.headId (l1 ++ l2) w.tailId = true := by
    cases l2 with
    | nil =>
      rw [List.append_nil]
      have hqtl : q = w.tailId := hqdef
      apply dlinkedL_swap_end w w' l1 w.headId n w.tailId hdl1
        (fun hm => hhin (List.mem_append_left _ hm)) hnd.of_append_left
      · intro m hm hme
        exact hnext' m (hpdef ▸ hme)
      · intro m hm
        exact hprev' m (hq_notl1 m hm)
      · rw [← hqtl]
        exact hpnext'
      · rw [← hqtl]
        exact hqprev'
    | cons c rest =>
      have hqc : q = c := hqdef
      have hc_notrest : c ∉ rest := by
        have := hnd.of_append_right
        exact ((List.nodup_cons.mp (List.nodup_cons.mp this).2).1)
      apply (dlinkedL_split w' w.tailId l1 w.headId c rest).mpr
      constructor
      · apply dlinkedL_swap_end w w' l1 w.headId n c hdl1
          (fun hm => hhin (List.mem_append_left _ hm)) hnd.of_append_left
        · intro m hm hme
          exact hnext' m (hpdef ▸ hme)
        · intro m hm
          exact hprev' m (hq_notl1 m hm)
        · rw [← hqc]
          exact hpnext'
        · rw [← hqc]
          exact hqprev'
      · have hdl2c : dlinkedLB w c rest w.tailId = true := by
          simp only [dlinkedLB, Bool.and_eq_true] at hdl2
          exact hdl2.2
        apply dlinkedL_congr_fields w w' rest c w.tailId
        · intro m hm
          have hm2 : m ∈ c :: rest := List.mem_cons_of_mem _ hm
          refine ⟨hnext' m (hp_notl2 m hm2), hprev' m ?_⟩
          rw [hqc]
          exact fun e => hc_notrest (e ▸ hm)
        · exact hnext' c (hp_notl2 c (by simp))
        · refine hprev' w.tailId ?_
          intro e
          rw [hqc] at e
          refine htin ?_
          rw [e]
          simp
        · exact hdl2c
  have hnd2 : (l1 ++ l2).Nodup := by
    have hmid := hnd
    rw [List.nodup_middle] at hmid
    exact (List.nodup_cons.mp hmid).2
  rw [herase]
  have hfields : goodListB { w' with elements := w'.elements - 1 } (l1 ++ l2)
      = goodListB w' (l1 ++ l2) :=
    goodListB_congr _ _ _ (fun m => rfl) rfl rfl rfl
  constructor
  · rw [hfields]
    simp only [goodListB, Bool.and_eq_true, beq_iff_eq, List.all_eq_true,
      decide_eq_true_eq, hhead', htail', hlen']
    refine ⟨⟨⟨⟨hdl', ?_⟩, ?_⟩, ?_⟩, ?_⟩
    · rw [hprev' w.headId hhd_ne_q]
      exact hhp
    · rw [hnext' w.tailId htl_ne_p]
      exact htn
    · rw [nodupB_iff, List.nodup_cons, List.nodup_cons]
      refine ⟨?_, ?_, hnd2⟩
      · intro hc
        rcases List.mem_cons.mp hc with he | hc2
        · exact hht he
        · rcases List.mem_append.mp hc2 with hm | hm
          · exact hhin (List.mem_append_left _ hm)
          · exact hhin (by simp [hm])
      · intro hc
        rcases List.mem_append.mp hc with hm | hm
        · exact htin (List.mem_append_left _ hm)
        · exact htin (by simp [hm])
    · intro m hm
      rcases List.mem_cons.mp hm with he | hm2
      · rw [he]
        exact hbh
      · rcases List.mem_cons.mp hm2 with he | hm3
        · rw [he]
          exact hbt
        · rcases List.mem_append.mp hm3 with hx | hx
          · exact hbound _ (List.mem_append_left _ hx)
          · exact hbound _ (by simp [hx])
  · show w'.elements - 1 = w.elements - 1
    rw [hwde, elements_setPrevL, elements_setNextL]

theorem segLB_nil (w : LWorld) (tl cur endPt : Nat) :
    segLB w tl cur [] endPt = true ↔ cur = endPt := by
  simp [segLB]

theorem segLB_cons (w : LWorld) (tl cur endPt x : Nat) (xs : List Nat) :
    segLB w tl cur (x :: xs) endPt = true ↔
      cur = x ∧ cur ≠ tl ∧ segLB w tl ((getL w x).next.getD tl) xs endPt = true := by
  simp [segLB, and_assoc]

theorem segLB_congr_mem (w1 w2 : LWorld) (tl : Nat) :
    ∀ (ids : List Nat) (cur endPt : Nat),
    (∀ n ∈ ids, (getL w1 n).next = (getL w2 n).next) →
    segLB w1 tl cur ids endPt = segLB w2 tl cur ids endPt := by
  intro ids
  induction ids with
  | nil => intro cur endPt _; rfl
  | cons x xs ih =>
    intro cur endPt hg
    simp only [segLB, hg x (by simp), ih _ _ (fun n hn => hg n (by simp [hn]))]

theorem dlinkedL_seg (w : LWorld) (b : Nat) :
    ∀ (ids : List Nat) (a : Nat), dlinkedLB w a ids b = true →
    (∀ n ∈ ids, n ≠ b) →
    segLB w b ((getL w a).next.getD b) ids b = true := by
  intro ids
  induction ids with
  | nil =>
    intro a hdl _
    simp only [dlinkedLB, Bool.and_eq_true, beq_iff_eq] at hdl
    rw [hdl.1]
    simp [segLB]
  | cons x xs ih =>
    intro a hdl hnb
    simp only [dlinkedLB, Bool.and_eq_true, beq_iff_eq] at hdl
    obtain ⟨⟨hax, _⟩, hrest⟩ := hdl
    rw [hax]
    have h1 : (x == x : Bool) = true := by simp
    have h2 : (!(x == b)) = true := by simp [hnb x (by simp)]
    simp only [Option.getD_some, segLB, h1, h2, Bool.true_and, Bool.and_true]
    exact ih x hrest (fun n hn => hnb n (by simp [hn]))

theorem eraseRangeLoopL_at_last (fuel : Nat) (w : LWorld) (firstId lastId : Nat) :
    eraseRangeLoopL fuel w lastId firstId lastId = w := by
  cases fuel with
  | zero => rfl
  | succ fuel => rw [eraseRangeLoopL, if_pos rfl]

/-- The erase-range walk of `stable_list::erase(first, last)` over a chain
segment: nodes off the segment are untouched, `elements` shrinks by the
segment's length, and the container's frame is preserved. -/
theorem eraseRangeLoopL_seg (lastId firstId : Nat) :
    ∀ (ids : List Nat) (w : LWorld) (cur : Nat) (k : Nat),
    segLB w lastId cur ids lastId = true → ids.Nodup →
    (∀ n ∈ ids, n < w.heap.length) →
    (∀ m, m ∉ ids → getL (eraseRangeLoopL (ids.length + k) w cur firstId lastId) m
      = getL w m) ∧
    (eraseRangeLoopL (ids.length + k) w cur firstId lastId).elements
      = w.elements - ids.length ∧
    (eraseRangeLoopL (ids.length + k) w cur firstId lastId).heap.length
      = w.heap.length ∧
    (eraseRangeLoopL (ids.length + k) w cur firstId lastId).headId = w.headId ∧
    (eraseRangeLoopL (ids.length + k) w cur firstId lastId).tailId = w.tailId := by
  intro ids
  induction ids with
  | nil =>
    intro w cur k hseg _ _
    rw [(segLB_nil w lastId cur lastId).mp hseg]
    rw [show ([] : List Nat).length + k = k by simp]
    rw [eraseRangeLoopL_at_last]
    exact ⟨fun m _ => rfl, by simp, rfl, rfl, rfl⟩
  | cons x xs ih =>
    intro w cur k hseg hnd hb
    obtain ⟨heq, hne, hseg'⟩ := (segLB_cons w lastId cur lastId x xs).mp hseg
    subst heq
    rw [show (cur :: xs).length + k = (xs.length + k) + 1 by
      simp [Nat.add_right_comm]]
    rw [eraseRangeLoopL, if_neg hne]
    simp only []
    have hlt : cur < w.heap.length := hb cur (by simp)
    have hcur_not_xs : cur ∉ xs := (List.nodup_cons.mp hnd).1
    set w1 := setNextL (setPrevL w cur (getL w firstId).prev) cur (some lastId)
      with hw1
    set w2 : LWorld := { w1 with elements := w1.elements - 1 } with hw2
    have hg2 : ∀ m, getL w2 m = getL w1 m := fun m => rfl
    have hw1len : w1.heap.length = w.heap.length := by
      rw [hw1, heap_length_setNextL, heap_length_setPrevL]
    have hw2len : w2.heap.length = w.heap.length := hw1len
    have huntouched1 : ∀ m, m ≠ cur → getL w1 m = getL w m := by
      intro m hm
      rw [hw1, getL_setNextL_ne _ _ _ _ (fun e => hm e.symm),
        getL_setPrevL_ne _ _ _ _ (fun e => hm e.symm)]
    have hw2next : ∀ m ∈ xs, (getL w2 m).next = (getL w m).next := by
      intro m hm
      rw [hg2, huntouched1 m (fun e => hcur_not_xs (e ▸ hm))]
    have hseg2 : segLB w2 lastId ((getL w cur).next.getD lastId) xs lastId = true := by
      rw [segLB_congr_mem w2 w lastId xs _ _ hw2next]
      exact hseg'
    obtain ⟨hu, hel, hlen, hhd, htl⟩ := ih w2 ((getL w cur).next.getD lastId) k
      hseg2 (List.nodup_cons.mp hnd).2 (fun m hm => hw2len ▸ hb m (by simp [hm]))
    refine ⟨?_, ?_, ?_, ?_, ?_⟩
    · intro m hm
      rw [hu m (fun hc => hm (by simp [hc])), hg2,
        huntouched1 m (fun e => hm (by simp [e]))]
    · rw [hel]
      show w1.elements - 1 - xs.length = w.elements - (cur :: xs).length
      rw [hw1, elements_setNextL, elements_setPrevL]
      simp only [List.length_cons]
      omega
    · rw [hlen, hw2len]
    · rw [hhd, hw2]
      show w1.headId = w.headId
      rw [hw1, headId_setNextL, headId_setPrevL]
    · rw [htl, hw2]
      show w1.tailId = w.tailId
      rw [hw1, tailId_setNextL, tailId_setPrevL]

/-- On the full-range call of the erase walk (starting at `first` itself),
`first`'s own `prev` pointer keeps its original value: the first iteration
rewrites it with itself and later iterations leave it alone. -/
theorem eraseRangeLoopL_first (lastId : Nat) (c : Nat) (rest : List Nat)
    (w : LWorld) (k : Nat)
    (hseg : segLB w lastId c (c :: rest) lastId = true) (hnd : (c :: rest).Nodup)
    (hb : ∀ n ∈ c :: rest, n < w.heap.length) :
    (getL (eraseRangeLoopL ((c :: rest).length + k) w c c lastId) c).prev
      = (getL w c).prev := by
  obtain ⟨-, hne, hseg'⟩ := (segLB_cons w lastId c lastId c rest).mp hseg
  rw [show (c :: rest).length + k = (rest.length + k) + 1 by
    simp [Nat.add_right_comm]]
  rw [eraseRangeLoopL, if_neg hne]
  simp only []
  have hlt : c < w.heap.length := hb c (by simp)
  have hc_not_rest : c ∉ rest := (List.nodup_cons.mp hnd).1
  set w1 := setNextL (setPrevL w c (getL w c).prev) c (some lastId) with hw1
  set w2 : LWorld := { w1 with elements := w1.elements - 1 } with hw2
  have hg2 : ∀ m, getL w2 m = getL w1 m := fun m => rfl
  have hw2next : ∀ m ∈ rest, (getL w2 m).next = (getL w m).next := by
    intro m hm
    rw [hg2, hw1,
      getL_setNextL_ne _ _ _ _ (fun e => hc_not_rest (by rw [e]; exact hm)),
      getL_setPrevL_ne _ _ _ _ (fun e => hc_not_rest (by rw [e]; exact hm))]
  have hseg2 : segLB w2 lastId ((getL w c).next.getD lastId) rest lastId = true := by
    rw [segLB_congr_mem w2 w lastId rest _ _ hw2next]
    exact hseg'
  have hw2len : w2.heap.length = w.heap.length := by
    show w1.heap.length = w.heap.length
    rw [hw1, heap_length_setNextL, heap_length_setPrevL]
  obtain ⟨hu, -, -, -, -⟩ := eraseRangeLoopL_seg lastId c rest w2
    ((getL w c).next.getD lastId) k hseg2 (List.nodup_cons.mp hnd).2
    (fun m hm => hw2len ▸ hb m (by simp [hm]))
  rw [hu c hc_not_rest, hg2, hw1, prev_setNextL,
    prev_setPrevL_self _ _ _ hlt]

/-- `stable_list::clear` empties the chain — the sentinels end linked to each
other — and `elements` drops by the number of live nodes. -/
theorem clearL_chain (w : LWorld) (ids : List Nat)
    (hgood : goodListB w ids = true) :
    goodListB (clearL w) [] = true ∧
    (clearL w).elements = w.elements - ids.length := by
  obtain ⟨hdl, hhp, htn, hhin, htin, hht, hnd, hbound, hbh, hbt⟩ :=
    goodList_parts w ids hgood
  cases ids with
  | nil =>
    have hheadnext : (getL w w.headId).next = some w.tailId := by
      simp only [dlinkedLB, Bool.and_eq_true, beq_iff_eq] at hdl
      exact hdl.1
    have htailprev : (getL w w.tailId).prev = some w.headId := by
      simp only [dlinkedLB, Bool.and_eq_true, beq_iff_eq] at hdl
      exact hdl.2
    have hclear : clearL w =
        setPrevL (setNextL w w.headId (some w.tailId)) w.tailId (some w.headId) := by
      unfold clearL
      simp only [hheadnext, Option.getD_some]
      rw [eraseRangeLoopL_at_last, htailprev]
    rw [hclear]
    constructor
    · simp only [goodListB, dlinkedLB, Bool.and_eq_true, beq_iff_eq,
        List.all_eq_true, decide_eq_true_eq,
        tailId_setPrevL, tailId_setNextL, headId_setPrevL, headId_setNextL]
      refine ⟨⟨⟨⟨⟨?_, ?_⟩, ?_⟩, ?_⟩, ?_⟩, ?_⟩
      · rw [next_setPrevL, next_setNextL_self _ _ _ hbh]
      · rw [prev_setPrevL_self _ _ _ (by rw [heap_length_setNextL]; exact hbt)]
      · rw [prev_setPrevL_ne _ _ _ _ (fun e => hht e.symm), prev_setNextL]
        exact hhp
      · rw [next_setPrevL, next_setNextL_ne _ _ _ _ hht]
        exact htn
      · rw [nodupB_iff]
        simp [hht]
      · intro n hn
        rw [heap_length_setPrevL, heap_length_setNextL]
        rcases List.mem_cons.mp hn with he | hn2
        · rw [he]
          exact hbh
        · rcases List.mem_cons.mp hn2 with he | hn3
          · rw [he]
            exact hbt
          · simp at hn3
    · show (setNextL w w.headId (some w.tailId)).elements = w.elements - [].length
      rw [elements_setNextL]
      simp
  | cons c rest =>
    have hheadnext : (getL w w.headId).next = some c :=
      dlinkedL_next_first w w.headId w.tailId (c :: rest) hdl
    have hcprev : (getL w c).prev = some w.headId :=
      dlinkedL_prev_first w w.headId w.tailId (c :: rest) hdl
    have hseg : segLB w w.tailId c (c :: rest) w.tailId := by
      have := dlinkedL_seg w w.tailId (c :: rest) w.headId hdl
        (fun n hn e => htin (e ▸ hn))
      rw [hheadnext] at this
      simpa using this
    obtain ⟨k, hfuel⟩ : ∃ k, w.heap.length + 1 = (c :: rest).length + k :=
      ⟨w.heap.length + 1 - (c :: rest).length,
        by have := nodup_lt_length (c :: rest) w.heap.length hnd hbound; omega⟩
    obtain ⟨hu, hel, hlen1, hhd1, htl1⟩ :=
      eraseRangeLoopL_seg w.tailId c (c :: rest) w c k hseg hnd hbound
    have hfirst := eraseRangeLoopL_first w.tailId c rest w k hseg hnd hbound
    rw [hcprev] at hfirst
    have hclear : clearL w =
        setPrevL (setNextL (eraseRangeLoopL ((c :: rest).length + k) w c c w.tailId)
          w.headId (some w.tailId)) w.tailId (some w.headId) := by
      unfold clearL
      simp only [hheadnext, Option.getD_some, hfuel]
      rw [hfirst]
    set W1 := eraseRangeLoopL ((c :: rest).length + k) w c c w.tailId with hW1
    have hW1head : getL W1 w.headId = getL w w.headId := hu w.headId hhin
    have hW1tail : getL W1 w.tailId = getL w w.tailId := hu w.tailId htin
    have hbh1 : w.headId < W1.heap.length := by
      rw [hlen1]
      exact hbh
    have hbt1 : w.tailId < W1.heap.length := by
      rw [hlen1]
      exact hbt
    rw [hclear]
    constructor
    · simp only [goodListB, dlinkedLB, Bool.and_eq_true, beq_iff_eq,
        List.all_eq_true, decide_eq_true_eq,
        tailId_setPrevL, tailId_setNextL, headId_setPrevL, headId_setNextL,
        hhd1, htl1]
      refine ⟨⟨⟨⟨⟨?_, ?_⟩, ?_⟩, ?_⟩, ?_⟩, ?_⟩
      · rw [next_setPrevL, next_setNextL_self _ _ _ hbh1]
      · rw [prev_setPrevL_self _ _ _ (by rw [heap_length_setNextL]; exact hbt1)]
      · rw [prev_setPrevL_ne _ _ _ _ (fun e => hht e.symm), prev_setNextL,
          hW1head]
        exact hhp
      · rw [next_setPrevL, next_setNextL_ne _ _ _ _ hht, hW1tail]
        exact htn
      · rw [nodupB_iff]
        simp [hht]
      · intro n hn
        rw [heap_length_setPrevL, heap_length_setNextL, hlen1]
        rcases List.mem_cons.mp hn with he | hn2
        · rw [he]
          exact hbh
        · rcases List.mem_cons.mp hn2 with he | hn3
          · rw [he]
            exact hbt
          · simp at hn3
    · show (setNextL W1 w.headId (some w.tailId)).elements
        = w.elements - (c :: rest).length
      rw [elements_setNextL, hel]

theorem elements_makeLinkL (w : LWorld) (l : Nat) (v : Int) :
    (makeLinkL w l v).1.elements = w.elements + 1 := by
  simp only [makeLinkL]
  cases hlp : (getL w l).prev with
  | none => rfl
  | some p => rfl

theorem elements_eraseL (w : LWorld) (n : Nat) :
    (eraseL w n).elements = w.elements - 1 := by
  simp only [eraseL]
  cases hp : (getL w n).prev with
  | none =>
    cases hq : (getL w n).next with
    | none => rfl
    | some q => rfl
  | some p =>
    cases hq : (getL w n).next with
    | none => rfl
    | some q => rfl

/-- C9: in every `stable_list` state reachable through the public API
(`push_front`, `push_back`, `insert`, `emplace` — all via `make_link` —
`erase` and `clear`), the container is a well-formed chain and the reported
`size` (the `elements` counter) equals the number of live nodes; moreover
every insertion increments the counter by exactly one and every erasure
decrements it by exactly one. -/
theorem claim_C9 (w : LWorld) (ids : List Nat) (hb : LBuild w ids) :
    goodListB w ids = true ∧
    w.elements = ids.length ∧
    (∀ l v, (makeLinkL w l v).1.elements = w.elements + 1) ∧
    (∀ n, (eraseL w n).elements = w.elements - 1) := by
  induction hb with
  | init =>
    refine ⟨by decide, rfl, ?_, ?_⟩
    · intro l v
      exact elements_makeLinkL initL l v
    · intro n
      exact elements_eraseL initL n
  | insertAt w0 ids0 l1 l2 v hb0 heq ih =>
    subst heq
    obtain ⟨hgood, hel, -, -⟩ := ih
    obtain ⟨hgood', hel'⟩ := insertL_chain w0 l1 l2 v hgood
    refine ⟨hgood', ?_, ?_, ?_⟩
    · rw [hel', hel]
      simp only [List.length_append, List.length_cons]
      omega
    · intro l v2
      exact elements_makeLinkL _ l v2
    · intro n
      exact elements_eraseL _ n
  | eraseAt w0 ids0 l1 l2 n hb0 heq ih =>
    subst heq
    obtain ⟨hgood, hel, -, -⟩ := ih
    obtain ⟨hgood', hel'⟩ := eraseL_chain w0 l1 l2 n hgood
    refine ⟨hgood', ?_, ?_, ?_⟩
    · rw [hel', hel]
      simp only [List.length_append, List.length_cons]
      omega
    · intro l v2
      exact elements_makeLinkL _ l v2
    · intro n2
      exact elements_eraseL _ n2
  | clearAll w0 ids0 hb0 ih =>
    obtain ⟨hgood, hel, -, -⟩ := ih
    obtain ⟨hgood', hel'⟩ := clearL_chain w0 ids0 hgood
    refine ⟨hgood', ?_, ?_, ?_⟩
    · rw [hel', hel]
      simp
    · intro l v2
      exact elements_makeLinkL _ l v2
    · intro n2
      exact elements_eraseL _ n2

/-- C9 witness: push_back 5, push_front 4, erase the front node, then clear,
applying the invariant at the final state of a concrete API history. -/
theorem claim_C9_witness :
    goodListB (clearL (eraseL (makeLinkL (makeLinkL initL
      (posOfL initL []) 5).1 (posOfL (makeLinkL initL (posOfL initL []) 5).1
        [2]) 4).1 2)) [] = true ∧
    (clearL (eraseL (makeLinkL (makeLinkL initL
      (posOfL initL []) 5).1 (posOfL (makeLinkL initL (posOfL initL []) 5).1
        [2]) 4).1 2)).elements = ([] : List Nat).length ∧
    (∀ l v, (makeLinkL (clearL (eraseL (makeLinkL (makeLinkL initL
      (posOfL initL []) 5).1 (posOfL (makeLinkL initL (posOfL initL []) 5).1
        [2]) 4).1 2)) l v).1.elements =
      (clearL (eraseL (makeLinkL (makeLinkL initL
        (posOfL initL []) 5).1 (posOfL (makeLinkL initL (posOfL initL []) 5).1
          [2]) 4).1 2)).elements + 1) ∧
    (∀ n, (eraseL (clearL (eraseL (makeLinkL (makeLinkL initL
      (posOfL initL []) 5).1 (posOfL (makeLinkL initL (posOfL initL []) 5).1
        [2]) 4).1 2)) n).elements =
      (clearL (eraseL (makeLinkL (makeLinkL initL
        (posOfL initL []) 5).1 (posOfL (makeLinkL initL (posOfL initL []) 5).1
          [2]) 4).1 2)).elements - 1) :=
  claim_C9 _ []
    (LBuild.clearAll _ ([3] ++ [])
      (by
        have h1 : LBuild (makeLinkL initL (posOfL initL []) 5).1 [2] :=
          LBuild.insertAt initL [] [] [] 5 LBuild.init rfl
        have h2 : LBuild (makeLinkL (makeLinkL initL (posOfL initL []) 5).1
            (posOfL (makeLinkL initL (posOfL initL []) 5).1 [2]) 4).1 [3, 2] :=
          LBuild.insertAt _ [2] [] [2] 4 h1 rfl
        have h3 := LBuild.eraseAt _ [3, 2] [3] [] 2 h2 rfl
        exact h3))

end rocket
